import Mathlib

/-!
Verification development for the maze-visualizer repository: a shallow
embedding of the grid model, the algorithm registries, the playback driver's
pacing and cancellation logic, the four solving algorithms (BFS, DFS,
Dijkstra, A*) and the four generation algorithms (DFS backtracker, Kruskal,
Prim, recursive division), together with proofs of the specified properties.

Conventions of the embedding:
* coordinates are pairs of integers `(x, y)`;
* a grid value of `0` is a wall, any nonzero value a passage
  (`src/algorithms/solvers/*.py` all test `maze.grid[ny, nx] == 0`);
* Python iterators become fuel-indexed step functions returning the list of
  yielded items plus an ending marker; the fuel is always instantiated with a
  proved-sufficient bound, so fuel exhaustion never occurs on the stated runs;
* `random.choice` / `random.randrange` draw from an oracle stream
  `σ : Nat → Nat`; a claim about "every outcome of the random choices"
  quantifies over all streams.  `random.choice` on an empty list is an error
  value (CPython raises `IndexError` there);
* Python's `heapq` pops the least element of the stored multiset; every heap
  in this code base stores tuples that are compared componentwise and fully,
  so the popped value and the residual multiset are oblivious to the heap's
  internal layout and the queue is modelled as a list with minimum extraction.
-/

namespace MV

/-- A cell coordinate `(x, y)`. -/
abbrev Coord := Int × Int

/-- The move offsets of `utils/grid_helpers._FOUR_DIRS`, in source order. -/
def fourDirs : List (Int × Int) := [(1, 0), (-1, 0), (0, 1), (0, -1)]

/-- `0 <= v < bound` for an integer against a `Nat` bound. -/
def inRange (v : Int) (bound : Nat) : Bool := 0 ≤ v && v < (bound : Int)

/-- `utils/grid_helpers.neighbours`: the in-bounds 4-connected neighbours of
`(x, y)`, in source order. -/
def neighbours (x y : Int) (width height : Nat) : List Coord :=
  (fourDirs.map (fun d => (x + d.1, y + d.2))).filter
    (fun c => inRange c.1 width && inRange c.2 height)

/-- The grid model of `maze/maze.py`: immutable dimensions and a cell-value
function (row-major `grid y x`, mirroring `grid[y, x]`).  Values outside the
bounds are never consulted by the algorithms. -/
structure Maze where
  w : Nat
  h : Nat
  grid : Int → Int → Nat

/-- 4-adjacency of two coordinates (unit step along one axis). -/
def adjacent (a b : Coord) : Bool :=
  (a.1 - b.1).natAbs + (a.2 - b.2).natAbs = 1

/-- A cell is traversable when it is in bounds and its stored value is
nonzero (the solvers skip `maze.grid[ny, nx] == 0` cells). -/
def isPassage (m : Maze) (c : Coord) : Bool :=
  inRange c.1 m.w && inRange c.2 m.h && m.grid c.2 c.1 ≠ 0

/-- One search step: move to an adjacent passage cell.  The tail cell must be
a passage; the head cell is whatever the caller already stands on (the
solvers never test the grid at `start`). -/
def step (m : Maze) (a b : Coord) : Prop :=
  adjacent a b = true ∧ isPassage m b = true

/-- A walk from `s` to `g`: nonempty, starts at `s`, ends at `g`, and every
move is a `step` (so every cell except possibly `s` is a passage).
Repetitions are allowed; minimal lengths are unaffected. -/
def IsWalk (m : Maze) (s g : Coord) (p : List Coord) : Prop :=
  p ≠ [] ∧ p.head? = some s ∧ p.getLast? = some g ∧ List.Chain' (step m) p

instance (m : Maze) (a b : Coord) : Decidable (step m a b) :=
  inferInstanceAs (Decidable (adjacent a b = true ∧ isPassage m b = true))

instance (m : Maze) (s g : Coord) (p : List Coord) : Decidable (IsWalk m s g p) :=
  inferInstanceAs (Decidable (p ≠ [] ∧ p.head? = some s ∧
    p.getLast? = some g ∧ List.Chain' (step m) p))

/-- `g` can be reached from `s` through passage cells. -/
def Reach (m : Maze) (s g : Coord) : Prop := ∃ p, IsWalk m s g p

/-- A solvable instance in the sense of the spec: a route through passage
cells from start to goal exists — every cell on it, the start included, is a
passage. -/
def Solvable (m : Maze) (s g : Coord) : Prop :=
  isPassage m s = true ∧ Reach m s g

/-- `k` is the minimum route length, counted in edges, over the unit-cost
4-connected passage graph. -/
def MinRouteLen (m : Maze) (s g : Coord) (k : Nat) : Prop :=
  (∃ p, IsWalk m s g p ∧ p.length = k + 1) ∧
  ∀ p, IsWalk m s g p → k + 1 ≤ p.length

/-! ### Algorithm registries (`maze/generator.py`, `maze/solver.py`)

A registry is the insertion-ordered association list backing the Python
`dict`.  `register` checks for a duplicate name before binding, so a failed
call leaves the mapping untouched; the pair returned is
(resulting registry, raised error if any). -/

/-- Duplicate-name registration error. -/
inductive RegErr
  | duplicate (name : String)
deriving DecidableEq, Repr

/-- `register` of both registry modules: bind `name` unless already present. -/
def register {A : Type} (reg : List (String × A)) (name : String) (inst : A) :
    List (String × A) × Option RegErr :=
  if (reg.map Prod.fst).contains name then (reg, some (RegErr.duplicate name))
  else (reg ++ [(name, inst)], none)

/-- Registry lookup (`get_generator` / `get_solver`): first binding wins,
mirroring dict semantics under the no-duplicates invariant. -/
def registryGet {A : Type} (reg : List (String × A)) (name : String) : Option A :=
  match reg with
  | [] => none
  | (k, v) :: r => if k = name then some v else registryGet r name

/-! ### Playback driver pacing (`gui/app.py`) -/

/-- `_MIN_BATCH` -/
def MIN_BATCH : Nat := 1

/-- `_MAX_BATCH_GEN` -/
def MAX_BATCH_GEN : Nat := 50

/-- `_MAX_BATCH_SOLVE` -/
def MAX_BATCH_SOLVE : Nat := 3

/-- `_DELAY_INSTANT` -/
def DELAY_INSTANT : Nat := 0

/-- `_DELAY_MAX` -/
def DELAY_MAX : Nat := 100

/-- `MazeApp._calc_delay_batch`.  `slowDelay` abstracts the floating-point
expression `int(100 * (1 - (speed_pct - 1) / 99) ** 1.5)` of the sub-maximum
branch; the integer structure (the `speed_pct >= 100` early return, the
`max(1, ...)` clamp and the batch formula) is exact. -/
def calc_delay_batch (speed_pct cell_count : Nat) (solving : Bool)
    (slowDelay : Nat) : Nat × Nat :=
  if 100 ≤ speed_pct then (DELAY_INSTANT, MAX_BATCH_GEN)
  else
    let batch :=
      if solving then min MAX_BATCH_SOLVE (max MIN_BATCH (cell_count / 400))
      else min MAX_BATCH_GEN (max MIN_BATCH (cell_count / 200))
    (max 1 slowDelay, batch)

/-! ### Playback driver state machine (`gui/app.py`)

The driver is modelled as the explicit state it keeps (`_run_seq`, `_kind`,
`_after_id`'s scheduled continuation, the maze, `_batch_size`) plus the
operations `_cancel`, `generate`, `solve`, `_run_iterator` and the body of
the scheduled closure `job`.  The lazy sequence an algorithm produced is a
list of pending items held by the continuation; renderer calls are recorded
as an event list. -/

/-- A generator emission `(x, y, flag)`. -/
abbrev Edit := Int × Int × Nat

/-- An item pulled from the active lazy sequence: a cell edit during
generation, a path snapshot during solving. -/
inductive DriverItem
  | cell (e : Edit)
  | path (p : List Coord)

/-- `"gen"` / `"solve"` values of `MazeApp._kind`. -/
inductive RunKind
  | gen
  | solve
deriving DecidableEq, Repr

/-- A scheduled continuation: the epoch captured in the `job` closure, the
run kind, and the remainder of the lazy sequence. -/
structure Job where
  epoch : Nat
  kind : RunKind
  rem : List DriverItem

/-- The driver state of `MazeApp`. -/
structure AppState where
  runSeq : Nat
  kind : Option RunKind
  afterJob : Option Job
  maze : Option Maze
  batchSize : Nat

/-- Renderer events (`draw_cell`, `draw_path`, `draw_markers`). -/
inductive Ev
  | cellChanged (x y : Int) (v : Nat)
  | pathChanged (p : List Coord)
  | markersChanged

/-- `MazeApp._cancel`: drop the scheduled continuation, bump the epoch,
clear the run kind. -/
def cancel (st : AppState) : AppState :=
  { st with afterJob := none, runSeq := st.runSeq + 1, kind := none }

/-- The single-cell write `self.maze.grid[y, x] = action`. -/
def setCell (m : Maze) (x y : Int) (v : Nat) : Maze :=
  { m with grid := fun yy xx => if yy = y ∧ xx = x then v else m.grid yy xx }

/-- Apply one batch item: a generation edit mutates the grid and repaints the
cell; a solve snapshot only repaints the path. -/
def applyItem (acc : Option Maze × List Ev) (it : DriverItem) :
    Option Maze × List Ev :=
  match it with
  | DriverItem.cell (x, y, v) =>
      (acc.1.map (fun m => setCell m x y v), acc.2 ++ [Ev.cellChanged x y v])
  | DriverItem.path p => (acc.1, acc.2 ++ [Ev.pathChanged p])

/-- Apply a list of batch items in order. -/
def applyItems (m : Option Maze) (items : List DriverItem) :
    Option Maze × List Ev :=
  items.foldl applyItem (m, [])

/-- The body of the scheduled closure `job` in `MazeApp._run_iterator`,
resumed against the current driver state: first the epoch staleness check
(`if epoch != self._run_seq: return`), then one batch of items; a full batch
re-schedules a continuation with the same captured epoch, exhaustion
(`StopIteration`) finishes the run (markers are drawn after generation). -/
def runJob (st : AppState) (j : Job) : AppState × List Ev :=
  if j.epoch ≠ st.runSeq then (st, [])
  else if st.batchSize ≤ j.rem.length then
    let out := applyItems st.maze (j.rem.take st.batchSize)
    ({ st with maze := out.1,
               afterJob := some { j with rem := j.rem.drop st.batchSize } },
      out.2)
  else
    let out := applyItems st.maze j.rem
    ({ st with maze := out.1, afterJob := none, kind := none },
      out.2 ++ (if j.kind = RunKind.gen then [Ev.markersChanged] else []))

/-- `MazeApp._run_iterator`: record the kind, capture the current epoch and
schedule the first batch. -/
def run_iterator (st : AppState) (items : List DriverItem) (kind : RunKind) :
    AppState :=
  { st with kind := some kind,
            afterJob := some { epoch := st.runSeq, kind := kind, rem := items } }

/-- `MazeApp.generate`: unconditionally cancel whatever is in flight, build a
fresh all-wall maze, derive the batch size, and start the generation run.
`edits` stands for the chosen generator's emission sequence. -/
def generate (st : AppState) (rows cols : Nat) (edits : List DriverItem)
    (speed_pct slowDelay : Nat) : AppState :=
  let st1 := cancel st
  let st2 := { st1 with maze := some { w := cols, h := rows, grid := fun _ _ => 0 } }
  let batch := (calc_delay_batch speed_pct (rows * cols) false slowDelay).2
  run_iterator { st2 with batchSize := batch } edits RunKind.gen

/-- `MazeApp.solve`: reject (returning the state untouched and `true`) when
no maze exists or when a generation run is active; otherwise cancel, derive
the batch size, and start the solve run.  `snaps` stands for the chosen
solver's snapshot sequence. -/
def solve (st : AppState) (snaps : List DriverItem)
    (speed_pct slowDelay : Nat) : AppState × Bool :=
  match st.maze with
  | none => (st, true)
  | some m =>
    if st.kind = some RunKind.gen then (st, true)
    else
      let st1 := cancel st
      let batch := (calc_delay_batch speed_pct (m.w * m.h) true slowDelay).2
      (run_iterator { st1 with batchSize := batch } snaps RunKind.solve, false)

/-! ### Solving algorithms (`src/algorithms/solvers/`)

Each solver is a fuel-indexed loop over its explicit Python state; the fuel
argument of the top-level entry points is a proved-sufficient bound, and the
`Ending` marker records how the loop stopped (`reachedGoal` for the
`return` after yielding the goal path, `exhausted` for the natural end of
the `while` loop, `fuelOut` never on the stated runs). -/

/-- Association-list lookup, the embedding of a Python `dict` read; updated
bindings are consed in front and shadow older ones. -/
def alookup {α β : Type} [DecidableEq α] : List (α × β) → α → Option β
  | [], _ => none
  | (k, v) :: r, a => if a = k then some v else alookup r a

/-- `_reconstruct`: follow the parent chain from `node` back to the root and
return the root-to-node path.  The Python loop runs until a `None` parent;
the fuel is a proved bound on the chain length, and a missing binding (never
reached under the loop invariants) ends the chain like a root. -/
def reconstruct : Nat → List (Coord × Option Coord) → Coord → List Coord
  | 0, _, n => [n]
  | f + 1, par, n =>
    match alookup par n with
    | some (some u) => reconstruct f par u ++ [n]
    | _ => [n]

/-- How a solver run ended. -/
inductive Ending
  | reachedGoal
  | exhausted
  | fuelOut
deriving DecidableEq, Repr

/-- State of the BFS loop: FIFO queue, parent map, visited set. -/
structure BfsState where
  queue : List Coord
  parent : List (Coord × Option Coord)
  visited : List Coord

/-- The neighbour loop of `BFS.__call__`: enqueue every unvisited passage
neighbour of `cur`, recording parent and visited-on-enqueue. -/
def bfsRelax (m : Maze) (cur : Coord) (st : BfsState) : BfsState :=
  (neighbours cur.1 cur.2 m.w m.h).foldl
    (fun s c =>
      if m.grid c.2 c.1 = 0 ∨ c ∈ s.visited then s
      else { queue := s.queue ++ [c], parent := (c, some cur) :: s.parent,
             visited := c :: s.visited })
    st

/-- The `while queue:` loop of `BFS.__call__`. -/
def bfsRun (m : Maze) (goal : Coord) (recF : Nat) :
    Nat → BfsState → List (List Coord) × Ending
  | 0, _ => ([], Ending.fuelOut)
  | f + 1, st =>
    match st.queue with
    | [] => ([], Ending.exhausted)
    | cur :: rest =>
      let path := reconstruct recF st.parent cur
      if cur = goal then ([path], Ending.reachedGoal)
      else
        let out := bfsRun m goal recF f (bfsRelax m cur { st with queue := rest })
        (path :: out.1, out.2)

/-- `BFS.__call__` with its initial state and sufficient fuel. -/
def BFS (m : Maze) (s g : Coord) : List (List Coord) × Ending :=
  bfsRun m g (2 * (m.w * m.h) + 4) (2 * (m.w * m.h) + 4)
    { queue := [s], parent := [(s, none)], visited := [s] }

/-- State of the DFS loop.  The Python list used as a stack pushes and pops
at its end; the model list is its reverse, so the head is the top. -/
structure DfsState where
  stack : List Coord
  parent : List (Coord × Option Coord)
  visited : List Coord

/-- The neighbour loop of `DFS.__call__`: push every unvisited passage
neighbour.  Consing each appended neighbour keeps the model stack the exact
reverse of the Python list. -/
def dfsRelax (m : Maze) (cur : Coord) (st : DfsState) : DfsState :=
  (neighbours cur.1 cur.2 m.w m.h).foldl
    (fun s c =>
      if m.grid c.2 c.1 = 0 ∨ c ∈ s.visited then s
      else { stack := c :: s.stack, parent := (c, some cur) :: s.parent,
             visited := c :: s.visited })
    st

/-- The `while stack:` loop of `DFS.__call__`. -/
def dfsRun (m : Maze) (goal : Coord) (recF : Nat) :
    Nat → DfsState → List (List Coord) × Ending
  | 0, _ => ([], Ending.fuelOut)
  | f + 1, st =>
    match st.stack with
    | [] => ([], Ending.exhausted)
    | cur :: rest =>
      let path := reconstruct recF st.parent cur
      if cur = goal then ([path], Ending.reachedGoal)
      else
        let out := dfsRun m goal recF f (dfsRelax m cur { st with stack := rest })
        (path :: out.1, out.2)

/-- `DFS.__call__` with its initial state and sufficient fuel. -/
def DFS (m : Maze) (s g : Coord) : List (List Coord) × Ending :=
  dfsRun m g (2 * (m.w * m.h) + 4) (2 * (m.w * m.h) + 4)
    { stack := [s], parent := [(s, none)], visited := [s] }

/-- Pop the least element of a list under a boolean order `le` (ties keep
the earlier element).  Every heap in the source stores fully-compared
tuples, so `heapq.heappop` returns exactly this minimum and leaves this
residual multiset, independent of the heap's array layout. -/
def popMin {α : Type} (le : α → α → Bool) : List α → Option (α × List α)
  | [] => none
  | a :: rest =>
    match popMin le rest with
    | none => some (a, [])
    | some (b, rs) => if le a b then some (a, b :: rs) else some (b, a :: rs)

/-- Python's `<` on `(cost, (x, y))` heap tuples, as a `≤` test. -/
def dijLe (a b : Nat × Coord) : Bool :=
  a.1 < b.1 ∨ (a.1 = b.1 ∧ (a.2.1 < b.2.1 ∨ (a.2.1 = b.2.1 ∧ a.2.2 ≤ b.2.2)))

/-- State of the Dijkstra loop. -/
structure DijState where
  dist : List (Coord × Nat)
  parent : List (Coord × Option Coord)
  pq : List (Nat × Coord)
  visited : List Coord

/-- One neighbour of the relaxation loop of `Dijkstra.__call__`: skip a
wall, otherwise update `dist` and `parent` and push the improved entry when
the tentative cost improves (or the cell has no distance yet). -/
def dijStepF (m : Maze) (cost : Nat) (cur : Coord) (s : DijState)
    (c : Coord) : DijState :=
  if m.grid c.2 c.1 = 0 then s
  else
    let nc := cost + 1
    let improve : Bool :=
      match alookup s.dist c with
      | none => true
      | some d => nc < d
    if improve then
      { s with dist := (c, nc) :: s.dist, parent := (c, some cur) :: s.parent,
               pq := s.pq ++ [(nc, c)] }
    else s

/-- The relaxation loop of `Dijkstra.__call__` over all neighbours. -/
def dijRelax (m : Maze) (cost : Nat) (cur : Coord) (st : DijState) : DijState :=
  (neighbours cur.1 cur.2 m.w m.h).foldl (dijStepF m cost cur) st

/-- The `while pq:` loop of `Dijkstra.__call__`, with lazy deletion of
already-visited pops. -/
def dijRun (m : Maze) (goal : Coord) (recF : Nat) :
    Nat → DijState → List (List Coord) × Ending
  | 0, _ => ([], Ending.fuelOut)
  | f + 1, st =>
    match popMin dijLe st.pq with
    | none => ([], Ending.exhausted)
    | some ((cost, cur), rest) =>
      if cur ∈ st.visited then dijRun m goal recF f { st with pq := rest }
      else
        let st1 := { st with pq := rest, visited := cur :: st.visited }
        let path := reconstruct recF st1.parent cur
        if cur = goal then ([path], Ending.reachedGoal)
        else
          let out := dijRun m goal recF f (dijRelax m cost cur st1)
          (path :: out.1, out.2)

/-- `Dijkstra.__call__` with its initial state and sufficient fuel. -/
def Dijkstra (m : Maze) (s g : Coord) : List (List Coord) × Ending :=
  dijRun m g (5 * (m.w * m.h) + 7) (5 * (m.w * m.h) + 7)
    { dist := [(s, 0)], parent := [(s, none)], pq := [(0, s)], visited := [] }

/-- The Manhattan heuristic of `AStar.__call__`. -/
def manhattan (a b : Coord) : Nat := (a.1 - b.1).natAbs + (a.2 - b.2).natAbs

/-- A* heap entry `(f, g, node, path)`. -/
structure AEntry where
  f : Nat
  g : Nat
  node : Coord
  path : List Coord
deriving DecidableEq

/-- Three-way comparison of `Int`. -/
def cmpInt (a b : Int) : Ordering :=
  if a < b then Ordering.lt else if b < a then Ordering.gt else Ordering.eq

/-- Three-way comparison of `Nat`. -/
def cmpNat (a b : Nat) : Ordering :=
  if a < b then Ordering.lt else if b < a then Ordering.gt else Ordering.eq

/-- Python tuple comparison of coordinates. -/
def cmpCoord (a b : Coord) : Ordering := (cmpInt a.1 b.1).then (cmpInt a.2 b.2)

/-- Python list comparison of coordinate lists (lexicographic). -/
def cmpPath : List Coord → List Coord → Ordering
  | [], [] => Ordering.eq
  | [], _ :: _ => Ordering.lt
  | _ :: _, [] => Ordering.gt
  | a :: ra, b :: rb => (cmpCoord a b).then (cmpPath ra rb)

/-- Python's comparison of `(f, g, node, path)` heap tuples. -/
def cmpAEntry (a b : AEntry) : Ordering :=
  (cmpNat a.f b.f).then ((cmpNat a.g b.g).then
    ((cmpCoord a.node b.node).then (cmpPath a.path b.path)))

/-- `≤` on A* heap entries. -/
def aLe (a b : AEntry) : Bool := cmpAEntry a b ≠ Ordering.gt

/-- State of the A* loop (paths ride along inside the heap entries). -/
structure AStarState where
  pq : List AEntry
  visited : List Coord

/-- Body of the A* push loop: skip walls and visited cells, push the
extended path keyed by `g + h` otherwise. -/
def aStepF (m : Maze) (goal : Coord) (cost : Nat) (path : List Coord)
    (s : AStarState) (c : Coord) : AStarState :=
  if m.grid c.2 c.1 = 0 ∨ c ∈ s.visited then s
  else
    { s with pq := s.pq ++
        [{ f := cost + 1 + manhattan c goal, g := cost + 1, node := c,
           path := path ++ [c] }] }

/-- The push loop of `AStar.__call__`: extend the popped path to every
unvisited passage neighbour, keyed by `g + h`. -/
def aRelax (m : Maze) (goal : Coord) (cost : Nat) (path : List Coord)
    (cur : Coord) (st : AStarState) : AStarState :=
  (neighbours cur.1 cur.2 m.w m.h).foldl (aStepF m goal cost path) st

/-- The `while pq:` loop of `AStar.__call__`. -/
def aRun (m : Maze) (goal : Coord) :
    Nat → AStarState → List (List Coord) × Ending
  | 0, _ => ([], Ending.fuelOut)
  | f + 1, st =>
    match popMin aLe st.pq with
    | none => ([], Ending.exhausted)
    | some (e, rest) =>
      if e.node ∈ st.visited then aRun m goal f { st with pq := rest }
      else
        let st1 := { st with pq := rest, visited := e.node :: st.visited }
        if e.node = goal then ([e.path], Ending.reachedGoal)
        else
          let out := aRun m goal f (aRelax m goal e.g e.path e.node st1)
          (e.path :: out.1, out.2)

/-- `AStar.__call__` with its initial entry and sufficient fuel. -/
def AStar (m : Maze) (s g : Coord) : List (List Coord) × Ending :=
  aRun m g (5 * (m.w * m.h) + 7)
    { pq := [{ f := manhattan s g, g := 0, node := s, path := [s] }],
      visited := [] }

/-! ### Generation algorithms (`src/algorithms/generators/`)

Random draws consume an oracle stream `σ : Nat → Nat` at an explicit
position: `random.choice(lst)` reads `lst[σ pos % lst.length]` (an error on
an empty list, where CPython raises `IndexError`), `random.randrange(n)`
reads `σ pos % n`, and `random.shuffle` is the draw-without-replacement
shuffle, whose outcome set over all streams is exactly the set of
permutations, as for CPython's Fisher-Yates.  A property claimed for every
outcome of the random choices is quantified over all streams. -/

/-- Failure of a generator run: an empty `random.choice` candidate list
(CPython `IndexError`) or fuel exhaustion (never on the stated runs). -/
inductive GenErr
  | emptyChoice
  | fuelOut
deriving DecidableEq, Repr

/-- `random.choice` against the oracle. -/
def choice {α : Type} (σ : Nat → Nat) (pos : Nat) :
    List α → Except GenErr (α × Nat)
  | [] => Except.error GenErr.emptyChoice
  | a :: rest =>
    Except.ok ((a :: rest).get ⟨σ pos % (rest.length + 1), Nat.mod_lt _ (Nat.succ_pos _)⟩,
      pos + 1)

/-- `_ensure_odd` / `_force_odd`: largest odd value not above the input. -/
def ensure_odd (n : Nat) : Nat := if n % 2 = 0 then n - 1 else n

/-- `_TWO_STEP_MOVES` / `_MOVES`, in source order. -/
def twoStepMoves : List (Int × Int) := [(2, 0), (-2, 0), (0, 2), (0, -2)]

/-- `DFSBacktracker._unvisited_two_step_neighbours`. -/
def unvisitedTwoStep (x y : Int) (w h : Nat) (visited : List Coord) :
    List Coord :=
  (twoStepMoves.map (fun d => (x + d.1, y + d.2))).filter
    (fun c => inRange c.1 w && inRange c.2 h && !(decide (c ∈ visited)))

/-- The `while stack:` loop of `DFSBacktracker.__call__`: peek the top of
the stack, pick an unvisited 2-step neighbour at random, carve the wall
between and the neighbour, push it; pop when no candidate remains. -/
def dfsBRun (σ : Nat → Nat) (w h : Nat) :
    Nat → Nat → List Coord → List Coord → Except GenErr (List Edit)
  | 0, _, _, _ => Except.error GenErr.fuelOut
  | f + 1, pos, stack, visited =>
    match stack with
    | [] => Except.ok []
    | (x, y) :: rest =>
      match unvisitedTwoStep x y w h visited with
      | [] => dfsBRun σ w h f pos rest visited
      | c0 :: cs =>
        match choice σ pos (c0 :: cs) with
        | Except.error e => Except.error e
        | Except.ok (nb, pos2) =>
          (dfsBRun σ w h f pos2 (nb :: (x, y) :: rest) (nb :: visited)).map
            (fun es => ((x + nb.1) / 2, (y + nb.2) / 2, 1) :: (nb.1, nb.2, 1) :: es)

/-- `DFSBacktracker.__call__`. -/
def DFSBacktracker (σ : Nat → Nat) (width height : Nat) :
    Except GenErr (List Edit) :=
  let w := ensure_odd width
  let h := ensure_odd height
  (dfsBRun σ w h (2 * (w * h) + 2) 0 [(0, 0)] [(0, 0)]).map
    (fun es => (0, 0, 1) :: es)

/-- The even values below `n`, in increasing order (Python `range(0, n, 2)`). -/
def evens (n : Nat) : List Nat := (List.range n).filter (fun v => v % 2 = 0)

/-- The odd-coordinate sub-grid cells, in the emission order of Kruskal's
first phase (row-major over even coordinates). -/
def subCells (w h : Nat) : List Coord :=
  (evens h).flatMap (fun y => (evens w).map (fun x => (Int.ofNat x, Int.ofNat y)))

/-- A Kruskal candidate edge `(a, b, wall)`. -/
abbrev KEdge := Coord × Coord × Coord

/-- The candidate wall-edges of `Kruskal.__call__` step 2, in enumeration
order; this list also enumerates every adjacent pair of sub-grid cells with
its connecting wall cell. -/
def kruskalEdges (w h : Nat) : List KEdge :=
  (evens h).flatMap (fun y => (evens w).flatMap (fun x =>
    (if x + 2 < w then
      [((Int.ofNat x, Int.ofNat y), (Int.ofNat x + 2, Int.ofNat y),
        (Int.ofNat x + 1, Int.ofNat y))]
     else []) ++
    (if y + 2 < h then
      [((Int.ofNat x, Int.ofNat y), (Int.ofNat x, Int.ofNat y + 2),
        (Int.ofNat x, Int.ofNat y + 1))]
     else [])))

/-- `random.shuffle` as repeated oracle draws without replacement. -/
def shuffleGo {α : Type} (σ : Nat → Nat) :
    Nat → List α → Nat → List α × Nat
  | 0, _, pos => ([], pos)
  | _ + 1, [], pos => ([], pos)
  | f + 1, a :: rest, pos =>
    let l := a :: rest
    let i := σ pos % (rest.length + 1)
    let picked := l.get ⟨i, Nat.mod_lt _ (Nat.succ_pos _)⟩
    let out := shuffleGo σ f (l.eraseIdx i) (pos + 1)
    (picked :: out.1, out.2)

/-- `random.shuffle` of a whole list. -/
def shuffle {α : Type} (σ : Nat → Nat) (l : List α) (pos : Nat) :
    List α × Nat :=
  shuffleGo σ l.length l pos

/-- `_UnionFind.find` with path halving, on a total parent function (the
Python dict's domain is exactly the sub-grid cells; other points are fixed
by the identity initialisation and never consulted).  The fuel is a proved
bound on the chain length. -/
def ufFind : Nat → (Coord → Coord) → Coord → Coord × (Coord → Coord)
  | 0, par, item => (item, par)
  | f + 1, par, item =>
    if par item = item then (item, par)
    else
      let par2 := fun z => if z = item then par (par item) else par z
      ufFind f par2 (par2 item)

/-- `_UnionFind.union`: merge the two roots, reporting whether a merge
happened. -/
def ufUnion (fuel : Nat) (par : Coord → Coord) (a b : Coord) :
    Bool × (Coord → Coord) :=
  let ra := ufFind fuel par a
  let rb := ufFind fuel ra.2 b
  if ra.1 = rb.1 then (false, rb.2)
  else (true, fun z => if z = rb.1 then ra.1 else rb.2 z)

/-- Step 3 of `Kruskal.__call__`: process the shuffled edges, carving the
wall and the far cell whenever the union merges two sets. -/
def kruskalProcess (fuel : Nat) : List KEdge → (Coord → Coord) → List Edit
  | [], _ => []
  | (a, b, wall) :: rest, par =>
    let u := ufUnion fuel par a b
    if u.1 then
      (wall.1, wall.2, 1) :: (b.1, b.2, 1) :: kruskalProcess fuel rest u.2
    else kruskalProcess fuel rest u.2

/-- `Kruskal.__call__`: carve every sub-grid cell, then process the
shuffled edge list.  Dimensions are used as given (no odd forcing). -/
def Kruskal (σ : Nat → Nat) (w h : Nat) : List Edit :=
  (subCells w h).map (fun c => (c.1, c.2, (1 : Nat))) ++
    kruskalProcess ((subCells w h).length + 1)
      (shuffle σ (kruskalEdges w h) 0).1 id

/-- A Prim frontier entry `(wall, target)`. -/
abbrev Frontier := Coord × Coord

/-- `add_frontiers` in `Prim.__call__`: the frontier walls around `(x, y)`
towards its in-bounds unvisited 2-step neighbours, in move order. -/
def addFrontiers (x y : Int) (w h : Nat) (visited : List Coord) :
    List Frontier :=
  (twoStepMoves.filterMap (fun d =>
    let c : Coord := (x + d.1, y + d.2)
    if inRange c.1 w && inRange c.2 h && !(decide (c ∈ visited)) then
      some ((x + d.1 / 2, y + d.2 / 2), c)
    else none))

/-- The `while frontiers:` loop of `Prim.__call__`: remove a random entry;
if its target is unvisited, carve the wall and the target and extend the
frontier. -/
def primRun (σ : Nat → Nat) (w h : Nat) :
    Nat → Nat → List Coord → List Frontier → Except GenErr (List Edit)
  | 0, _, _, _ => Except.error GenErr.fuelOut
  | f + 1, pos, visited, frontiers =>
    match frontiers with
    | [] => Except.ok []
    | e0 :: es =>
      let l := e0 :: es
      let i := σ pos % (es.length + 1)
      let fe := l.get ⟨i, Nat.mod_lt _ (Nat.succ_pos _)⟩
      let rest := l.eraseIdx i
      if fe.2 ∈ visited then primRun σ w h f (pos + 1) visited rest
      else
        (primRun σ w h f (pos + 1) (fe.2 :: visited)
            (rest ++ addFrontiers fe.2.1 fe.2.2 w h (fe.2 :: visited))).map
          (fun es2 => (fe.1.1, fe.1.2, 1) :: (fe.2.1, fe.2.2, 1) :: es2)

/-- `Prim.__call__`. -/
def Prim (σ : Nat → Nat) (width height : Nat) : Except GenErr (List Edit) :=
  let w := ensure_odd width
  let h := ensure_odd height
  (primRun σ w h (5 * (w * h) + 5) 0 [(0, 0)] (addFrontiers 0 0 w h [(0, 0)])).map
    (fun es => (0, 0, 1) :: es)

/-- Python `range(a, b)` over integers. -/
def intRange (a b : Int) : List Int :=
  (List.range (b - a).toNat).map (fun i => a + Int.ofNat i)

/-- `RecursiveDivision._split_horizontal`, with the recursive `_divide`
calls abstracted into the callback `div`: pick a random even wall line and
a random odd gap, emit the wall cells except the gap, then recurse into the
two halves. -/
def splitH (σ : Nat → Nat)
    (div : Int → Int → Int → Int → Nat → Except GenErr (List Edit × Nat))
    (x y w h : Int) (pos : Nat) : Except GenErr (List Edit × Nat) := do
  let wy ← choice σ pos ((intRange (y + 1) (y + h - 1)).filter (fun v => v % 2 = 0))
  let gx ← choice σ wy.2 ((intRange x (x + w)).filter (fun v => v % 2 = 1))
  let walls := ((intRange x (x + w)).filter (fun xx => xx ≠ gx.1)).map
    (fun xx => (xx, wy.1, (0 : Nat)))
  let e1 ← div x y w (wy.1 - y) gx.2
  let e2 ← div x (wy.1 + 1) w (y + h - (wy.1 + 1)) e1.2
  Except.ok (walls ++ e1.1 ++ e2.1, e2.2)

/-- `RecursiveDivision._split_vertical`, with the recursive `_divide` calls
abstracted into the callback `div`. -/
def splitV (σ : Nat → Nat)
    (div : Int → Int → Int → Int → Nat → Except GenErr (List Edit × Nat))
    (x y w h : Int) (pos : Nat) : Except GenErr (List Edit × Nat) := do
  let wx ← choice σ pos ((intRange (x + 1) (x + w - 1)).filter (fun v => v % 2 = 0))
  let gy ← choice σ wx.2 ((intRange y (y + h)).filter (fun v => v % 2 = 1))
  let walls := ((intRange y (y + h)).filter (fun yy => yy ≠ gy.1)).map
    (fun yy => (wx.1, yy, (0 : Nat)))
  let e1 ← div x y (wx.1 - x) h gy.2
  let e2 ← div (wx.1 + 1) y (x + w - (wx.1 + 1)) h e1.2
  Except.ok (walls ++ e1.1 ++ e2.1, e2.2)

/-- `RecursiveDivision._divide`: stop below 3 in either dimension, pick the
orientation, then split.  The fuel is a proved bound on the recursion
depth. -/
def divide (σ : Nat → Nat) :
    Nat → Int → Int → Int → Int → Nat → Except GenErr (List Edit × Nat)
  | 0, _, _, _, _, _ => Except.error GenErr.fuelOut
  | fu + 1, x, y, w, h, pos =>
    if w < 3 ∨ h < 3 then Except.ok ([], pos)
    else do
      let ori ←
        if h < w then Except.ok (false, pos)
        else if w < h then Except.ok (true, pos)
        else choice σ pos [true, false]
      if ori.1 then splitH σ (divide σ fu) x y w h ori.2
      else splitV σ (divide σ fu) x y w h ori.2

/-- `RecursiveDivision.__call__`: open everything, wall the border, divide,
then force the entrance/exit pair. -/
def RecursiveDivision (σ : Nat → Nat) (width height : Nat) :
    Except GenErr (List Edit) :=
  let wi : Int := width
  let hi : Int := height
  let base : List Edit :=
    ((intRange 0 hi).flatMap (fun y => (intRange 0 wi).map (fun x => (x, y, (1 : Nat))))) ++
    ((intRange 0 wi).flatMap (fun x => [(x, 0, (0 : Nat)), (x, hi - 1, 0)])) ++
    ((intRange 0 hi).flatMap (fun y => [((0 : Int), y, (0 : Nat)), (wi - 1, y, 0)]))
  (divide σ (width + height + 1) 0 0 wi hi 0).map
    (fun out => base ++ out.1 ++
      [(0, if 2 < height then 1 else 0, 1),
       (wi - 1, if 2 < height then hi - 2 else hi - 1, 1)])

/-! ### Final grid state and connectivity -/

/-- The value a cell holds after applying an edit sequence in order to the
fresh all-wall grid (later edits override earlier ones). -/
def finalVal (edits : List Edit) (c : Coord) : Nat :=
  edits.foldl (fun acc e => if e.1 = c.1 ∧ e.2.1 = c.2 then e.2.2 else acc) 0

/-- Whether a cell ends as a passage. -/
def finalPassage (edits : List Edit) (c : Coord) : Bool := finalVal edits c != 0

/-- One step between 4-adjacent cells of the passage set `P`. -/
def pStep (P : Coord → Bool) (a b : Coord) : Prop :=
  adjacent a b = true ∧ P b = true

/-- Connectivity inside the passage set `P`. -/
def PReach (P : Coord → Bool) (a b : Coord) : Prop :=
  Relation.ReflTransGen (pStep P) a b

/-- The passage set forms exactly one connected component under
4-connectivity: it is nonempty and any two passages are joined inside it. -/
def OneComponent (P : Coord → Bool) : Prop :=
  (∃ c, P c = true) ∧ ∀ a b, P a = true → P b = true → PReach P a b

/-- The number of passage-to-passage adjacent pairs on the odd-coordinate
sub-grid: candidate pairs are the `kruskalEdges` enumeration, and a pair is
adjacent in the passage graph when its connecting wall cell ended as a
passage. -/
def subEdgeCount (w h : Nat) (P : Coord → Bool) : Nat :=
  (kruskalEdges w h).countP (fun e => P e.2.2)

/-- Border membership of a cell in a `w × h` grid. -/
def isBorder (w h : Nat) (c : Coord) : Bool :=
  inRange c.1 w && inRange c.2 h &&
    (c.1 = 0 || c.1 = (w : Int) - 1 || c.2 = 0 || c.2 = (h : Int) - 1)

/-- The wall cell between the two ends of a two-step carve, as computed by
the generators (integer division of the coordinate sums). -/
def midW (p : Coord × Coord) : Coord :=
  ((p.1.1 + p.2.1) / 2, (p.1.2 + p.2.2) / 2)

/-- The second cell of the pair sits two steps from the first along one
axis. -/
def twoStepPair (p : Coord × Coord) : Prop :=
  (p.2.1 = p.1.1 + 2 ∧ p.2.2 = p.1.2) ∨ (p.2.1 = p.1.1 - 2 ∧ p.2.2 = p.1.2) ∨
  (p.2.1 = p.1.1 ∧ p.2.2 = p.1.2 + 2) ∨ (p.2.1 = p.1.1 ∧ p.2.2 = p.1.2 - 2)

/-- The edits a run of carve pairs emits: for each pair, the connecting
wall then the far cell, both carved. -/
def pairEdits (pairs : List (Coord × Coord)) : List Edit :=
  pairs.flatMap (fun p => [((midW p).1, (midW p).2, 1), (p.2.1, p.2.2, 1)])

/-- A carve sequence grows a connected region: each pair starts at an
already-carved cell and opens a fresh sub-grid cell. -/
inductive GrowsFrom (w h : Nat) : List Coord → List (Coord × Coord) → Prop
  | nil (V : List Coord) : GrowsFrom w h V []
  | cons (V : List Coord) (u v : Coord) (rest : List (Coord × Coord)) :
      u ∈ V → v ∉ V → v ∈ subCells w h → twoStepPair (u, v) →
      GrowsFrom w h (v :: V) rest → GrowsFrom w h V ((u, v) :: rest)

/-- One undirected carved-pair step. -/
def pairsRel (pairs : List (Coord × Coord)) (a b : Coord) : Prop :=
  (a, b) ∈ pairs ∨ (b, a) ∈ pairs

/-- Connectivity through carved pairs. -/
def CReach (pairs : List (Coord × Coord)) : Coord → Coord → Prop :=
  Relation.ReflTransGen (pairsRel pairs)

/-- Iterated parent pointers of the union-find forest. -/
def parIter (par : Coord → Coord) : Nat → Coord → Coord
  | 0, c => c
  | k + 1, c => parIter par k (par c)

/-- `r` is the representative of `c`: a parent-chain fixpoint reachable
from `c`. -/
def ufReaches (par : Coord → Coord) (c r : Coord) : Prop :=
  (∃ k, parIter par k c = r) ∧ par r = r

/-- The current union-find representatives among the sub-grid cells. -/
def rootsOf (w h : Nat) (par : Coord → Coord) : List Coord :=
  (subCells w h).filter (fun c => par c = c)

/-! ### Specification-side notions for the solver claims -/

/-- `k` is the exact shortest walk length (in edges) from `s` to `g`. -/
def IsDist (m : Maze) (s g : Coord) (k : Nat) : Prop :=
  (∃ p, IsWalk m s g p ∧ p.length = k + 1) ∧
  ∀ p, IsWalk m s g p → k + 1 ≤ p.length

/-- The simple-path property claimed for every yielded snapshot: nonempty,
starts at `start`, consecutive cells 4-adjacent, no repeated cell, and every
cell except possibly the start is a passage (hence in bounds). -/
def SimpleSnapshot (m : Maze) (s : Coord) (p : List Coord) : Prop :=
  p ≠ [] ∧ p.head? = some s ∧
  List.Chain' (fun a b => adjacent a b = true) p ∧
  p.Nodup ∧ ∀ c ∈ p.tail, isPassage m c = true

/-- Every in-bounds cell of a `w × h` grid. -/
def allCells (w h : Nat) : List Coord :=
  (List.range h).flatMap (fun y => (List.range w).map (fun x => (Int.ofNat x, Int.ofNat y)))

/-- One more than the cell count: every solver's visited set fits in it
(the cells plus a possibly out-of-bounds start). -/
def NCap (m : Maze) : Nat := m.w * m.h + 1

/-- Termination measure of the BFS loop. -/
def bfsMu (m : Maze) (st : BfsState) : Nat :=
  st.queue.length + 2 * (NCap m - st.visited.length)

/-- Termination measure of the DFS loop. -/
def dfsMu (m : Maze) (st : DfsState) : Nat :=
  st.stack.length + 2 * (NCap m - st.visited.length)

/-- Termination measure of the Dijkstra loop. -/
def dijMu (m : Maze) (st : DijState) : Nat :=
  st.pq.length + 5 * (NCap m - st.visited.length)

/-- Termination measure of the A* loop. -/
def aMu (m : Maze) (st : AStarState) : Nat :=
  st.pq.length + 5 * (NCap m - st.visited.length)

/-- Pointwise update of a distance assignment on a batch of cells. -/
def updD (D : Coord → Nat) (news : List Coord) (k : Nat) : Coord → Nat :=
  fun v => if v ∈ news then k else D v

/-- The neighbours of `cur` that BFS/DFS actually enqueue: in bounds,
nonzero, unvisited. -/
def searchNews (m : Maze) (cur : Coord) (visited : List Coord) : List Coord :=
  (neighbours cur.1 cur.2 m.w m.h).filter
    (fun c => !(decide (m.grid c.2 c.1 = 0 ∨ c ∈ visited)))

/-- The neighbours of `cur` that Dijkstra relaxes at cost `cost + 1`:
nonzero and improving on the recorded distance. -/
def dijNews (m : Maze) (cost : Nat) (cur : Coord)
    (dist : List (Coord × Nat)) : List Coord :=
  (neighbours cur.1 cur.2 m.w m.h).filter
    (fun c => !(decide (m.grid c.2 c.1 = 0)) &&
      (match alookup dist c with
       | none => true
       | some d => decide (cost + 1 < d)))

/-- The neighbours of `cur` that A* pushes: nonzero and unvisited. -/
def aNews (m : Maze) (cur : Coord) (visited : List Coord) : List Coord :=
  (neighbours cur.1 cur.2 m.w m.h).filter
    (fun c => !(decide (m.grid c.2 c.1 = 0 ∨ c ∈ visited)))

/-- Loop invariant of the BFS run: the visited set is duplicate-free and
contains the queue and the start; `D` records each visited cell's exact
shortest distance; dequeued cells have all their step-successors visited;
the queue is sorted by distance and spans at most two consecutive levels;
the parent map is rooted at `s` with exact unit increments; the goal, once
visited, is still in the queue (the loop returns the moment it is popped). -/
structure BfsInv (m : Maze) (s g : Coord) (st : BfsState) (D : Coord → Nat) :
    Prop where
  vis_nodup : st.visited.Nodup
  start_vis : s ∈ st.visited
  q_sub : ∀ v ∈ st.queue, v ∈ st.visited
  dist_ok : ∀ v ∈ st.visited, IsDist m s v (D v)
  vis_pass : ∀ v ∈ st.visited, v = s ∨ isPassage m v = true
  closed : ∀ v ∈ st.visited, v ∉ st.queue → ∀ c, step m v c → c ∈ st.visited
  q_sorted : (st.queue.map D).Pairwise (· ≤ ·)
  q_spread : ∀ u ∈ st.queue, ∀ v ∈ st.queue, D v ≤ D u + 1
  par_root : alookup st.parent s = some none
  par_dom : ∀ v o, alookup st.parent v = some o → v ∈ st.visited
  par_step : ∀ v ∈ st.visited, v ≠ s →
    ∃ u, alookup st.parent v = some (some u) ∧ u ∈ st.visited ∧ step m u v ∧
      D u + 1 = D v
  goal_q : g ∈ st.visited → g ∈ st.queue

/-- Loop invariant of the DFS run: like BFS but with discovery indices `D`
that only need to descend strictly along the parent chain, staying below the
visited count. -/
structure DfsInv (m : Maze) (s g : Coord) (st : DfsState) (D : Coord → Nat) :
    Prop where
  vis_nodup : st.visited.Nodup
  start_vis : s ∈ st.visited
  stack_sub : ∀ v ∈ st.stack, v ∈ st.visited
  vis_reach : ∀ v ∈ st.visited, Reach m s v
  vis_pass : ∀ v ∈ st.visited, v = s ∨ isPassage m v = true
  closed : ∀ v ∈ st.visited, v ∉ st.stack → ∀ c, step m v c → c ∈ st.visited
  d_lt : ∀ v ∈ st.visited, D v < st.visited.length
  par_root : alookup st.parent s = some none
  par_dom : ∀ v o, alookup st.parent v = some o → v ∈ st.visited
  par_step : ∀ v ∈ st.visited, v ≠ s →
    ∃ u, alookup st.parent v = some (some u) ∧ u ∈ st.visited ∧ step m u v ∧
      D u < D v
  goal_stack : g ∈ st.visited → g ∈ st.stack

/-- Loop invariant of the Dijkstra run.  `dist` records, for every
discovered cell, a realizable walk length; visited cells hold their exact
shortest distance, which also prices every heap entry from below; every
unvisited discovered cell keeps its current-distance entry in the heap;
every neighbour of a visited cell has been relaxed; the parent map ascends
by exactly one unit of recorded distance. -/
structure DijInv (m : Maze) (s : Coord) (st : DijState) : Prop where
  vis_nodup : st.visited.Nodup
  vis_pass : ∀ v ∈ st.visited, v = s ∨ isPassage m v = true
  dist_walk : ∀ v k, alookup st.dist v = some k →
    ∃ p, IsWalk m s v p ∧ p.length = k + 1
  dist_node_ok : ∀ v k, alookup st.dist v = some k →
    v = s ∨ isPassage m v = true
  dist_s : alookup st.dist s = some 0
  vis_dist : ∀ v ∈ st.visited, ∃ k, alookup st.dist v = some k ∧ IsDist m s v k
  unvis_pq : ∀ v k, alookup st.dist v = some k → v ∉ st.visited →
    (k, v) ∈ st.pq
  pq_dist : ∀ e ∈ st.pq, ∃ k, alookup st.dist e.2 = some k ∧ k ≤ e.1
  vis_min : ∀ v ∈ st.visited, ∀ kv, alookup st.dist v = some kv →
    ∀ e ∈ st.pq, kv ≤ e.1
  frontier : ∀ v ∈ st.visited, ∀ c, step m v c →
    ∃ kc, alookup st.dist c = some kc ∧
      ∀ kv, alookup st.dist v = some kv → kc ≤ kv + 1
  par_root : alookup st.parent s = some none
  par_step : ∀ v k, alookup st.dist v = some k → v ≠ s →
    ∃ u ku, alookup st.parent v = some (some u) ∧ alookup st.dist u = some ku ∧
      u ∈ st.visited ∧ step m u v ∧ ku + 1 = k

/-- Loop invariant of the A* run: visited cells are duplicate-free reachable
passages (start apart); every heap entry carries a duplicate-free walk from
the start to its node, of length `g + 1`, keyed by `f = g + h(node)`, whose
interior is already visited; every step out of a visited cell is either
visited or priced in the heap within one of the cell's shortest distance;
and the start is visited or still enqueued at cost `0`. -/
structure AInv (m : Maze) (s goal : Coord) (st : AStarState) : Prop where
  vis_nodup : st.visited.Nodup
  vis_pass : ∀ v ∈ st.visited, v = s ∨ isPassage m v = true
  vis_reach : ∀ v ∈ st.visited, Reach m s v
  pq_walk : ∀ e ∈ st.pq, IsWalk m s e.node e.path
  pq_len : ∀ e ∈ st.pq, e.path.length = e.g + 1
  pq_f : ∀ e ∈ st.pq, e.f = e.g + manhattan e.node goal
  pq_nd : ∀ e ∈ st.pq, e.path.Nodup
  pq_drop : ∀ e ∈ st.pq, ∀ x ∈ e.path.dropLast, x ∈ st.visited
  closure : ∀ v ∈ st.visited, ∀ kv, IsDist m s v kv → ∀ c, step m v c →
    c ∈ st.visited ∨ ∃ e ∈ st.pq, e.node = c ∧ e.g ≤ kv + 1
  start : s ∈ st.visited ∨ ∃ e ∈ st.pq, e.node = s ∧ e.g = 0

/-! ### Concrete instances used by witnesses and counterexamples -/

/-- A driver state with a solve run in flight. -/
def stSolve : AppState :=
  { runSeq := 0, kind := some RunKind.solve, afterJob := none,
    maze := some { w := 1, h := 1, grid := fun _ _ => 1 }, batchSize := 1 }

/-- A driver state with a generation run in flight. -/
def stGen : AppState :=
  { runSeq := 0, kind := some RunKind.gen, afterJob := none,
    maze := some { w := 1, h := 1, grid := fun _ _ => 1 }, batchSize := 1 }

/-- A continuation captured at epoch 0. -/
def jb : Job := { epoch := 0, kind := RunKind.gen, rem := [] }

/-- A 2×1 grid whose two cells are both passages. -/
def mzOpen : Maze := { w := 2, h := 1, grid := fun _ _ => 1 }

/-- A 2×1 grid whose cell `(1,0)` is a wall. -/
def mzWall : Maze :=
  { w := 2, h := 1, grid := fun _ x => if x = 0 then 1 else 0 }

/-! ## Theorems -/

/-- C7 counterexample: at maximum speed the driver returns the generation
cap (50) for a solving run as well, so the solving batch size exceeds the
solving cap (3); the claim as stated fails at `speed_pct = 100`. -/
theorem C7_counterexample :
    calc_delay_batch 100 625 true 0 = (DELAY_INSTANT, MAX_BATCH_GEN) ∧
    ¬ ((calc_delay_batch 100 625 true 0).2 ≤ MAX_BATCH_SOLVE) := by
  decide

/-- C7 amended: for every speed percentage in [1, 100) the solving batch
size is at most the solving cap (3), which is smaller than the generation
cap (50); at maximum speed the delay collapses to `_DELAY_INSTANT` (the
scheduler then ticks at `max(1, delay)` = 1 ms) and the batch size, for
solving as well as for generation, is the generation cap 50, not the
solving cap. -/
theorem C7_batch_caps (speed cells slowDelay : Nat)
    (h1 : 1 ≤ speed) (h2 : speed < 100) :
    (calc_delay_batch speed cells true slowDelay).2 ≤ MAX_BATCH_SOLVE ∧
    MAX_BATCH_SOLVE < MAX_BATCH_GEN ∧
    calc_delay_batch 100 cells true slowDelay = (DELAY_INSTANT, MAX_BATCH_GEN) ∧
    calc_delay_batch 100 cells false slowDelay = (DELAY_INSTANT, MAX_BATCH_GEN) := by
  have hlt : ¬ (100 ≤ speed) := Nat.not_le.mpr h2
  refine ⟨?_, by decide, by simp [calc_delay_batch], by simp [calc_delay_batch]⟩
  simp only [calc_delay_batch, if_neg hlt, if_pos rfl]
  exact Nat.min_le_left _ _

/-- C7 witness: the amended statement at speed 50. -/
theorem C7_batch_caps_witness :
    (calc_delay_batch 50 625 true 7).2 ≤ MAX_BATCH_SOLVE ∧
    MAX_BATCH_SOLVE < MAX_BATCH_GEN ∧
    calc_delay_batch 100 625 true 7 = (DELAY_INSTANT, MAX_BATCH_GEN) ∧
    calc_delay_batch 100 625 false 7 = (DELAY_INSTANT, MAX_BATCH_GEN) :=
  C7_batch_caps 50 625 7 (by decide) (by decide)

/-- C8: registering a name already present in a registry (the `register` of
`maze/generator.py` and `maze/solver.py` share this body, generic in the
bound value type) raises the duplicate-name error and returns the mapping
exactly as it was: the same association list, hence the earlier binding
still wins lookups and no entry is added, removed or changed. -/
theorem C8_register_duplicate {A : Type} (reg : List (String × A))
    (name : String) (inst : A) (h : name ∈ reg.map Prod.fst) :
    register reg name inst = (reg, some (RegErr.duplicate name)) ∧
    (register reg name inst).1 = reg ∧
    registryGet (register reg name inst).1 name = registryGet reg name := by
  have hc : (reg.map Prod.fst).contains name = true := List.elem_iff.mpr h
  unfold register
  rw [if_pos hc]
  exact ⟨rfl, rfl, rfl⟩

/-- C8 witness: re-registering `"BFS"` in a one-entry registry. -/
theorem C8_register_duplicate_witness :
    register [("BFS", 1)] "BFS" 2 = ([("BFS", 1)], some (RegErr.duplicate "BFS")) ∧
    (register [("BFS", 1)] "BFS" 2).1 = [("BFS", 1)] ∧
    registryGet (register [("BFS", 1)] "BFS" 2).1 "BFS" =
      registryGet [("BFS", (1 : Nat))] "BFS" :=
  C8_register_duplicate [("BFS", 1)] "BFS" 2 (by decide)

/-- C6 counterexample: starting a generate while a solve run is active is
not rejected — `MazeApp.generate` never checks the run kind; it cancels the
solve run and proceeds, bumping the epoch counter. -/
theorem C6_counterexample :
    (generate stSolve 5 5 [] 50 0).runSeq ≠ stSolve.runSeq := by
  decide

/-- C6 amended: starting a solve while a generate run is active is rejected
as busy with no state change at all (the returned state is the input state);
but starting a generate while a solve run is active is not rejected: the
call cancels the in-flight solve (epoch bump) and starts the generation
run. -/
theorem C6_busy (st1 st2 : AppState) (snaps edits : List DriverItem)
    (sp d rows cols : Nat)
    (h1 : st1.kind = some RunKind.gen) (h2 : st2.kind = some RunKind.solve) :
    solve st1 snaps sp d = (st1, true) ∧
    (generate st2 rows cols edits sp d).runSeq = st2.runSeq + 1 ∧
    (generate st2 rows cols edits sp d).kind = some RunKind.gen := by
  refine ⟨?_, by simp [generate, run_iterator, cancel], by simp [generate, run_iterator]⟩
  cases hm : st1.maze <;> simp [solve, hm, h1]

/-- C6 witness: the amended statement on the two concrete busy states. -/
theorem C6_busy_witness :
    solve stGen [] 50 0 = (stGen, true) ∧
    (generate stSolve 5 5 [] 50 0).runSeq = stSolve.runSeq + 1 ∧
    (generate stSolve 5 5 [] 50 0).kind = some RunKind.gen :=
  C6_busy stGen stSolve [] [] 50 0 5 5 (by rfl) (by rfl)

/-- C5: starting a new run (generate, or solve on a state that accepts one)
increments the epoch counter and only then schedules the new run's first
continuation, whose captured epoch is the incremented value; any
continuation captured at an earlier epoch, resumed against any state whose
current epoch differs, performs no work at all: the state is returned
untouched (no grid mutation) and no render event is emitted.  In
particular, resuming such a stale continuation after the new run has
started is a no-op. -/
theorem C5_epoch_cancellation (st : AppState) (j : Job)
    (rows cols sp d : Nat) (edits snaps : List DriverItem) (mz : Maze)
    (hj : j.epoch ≤ st.runSeq) (hm : st.maze = some mz)
    (hk : st.kind ≠ some RunKind.gen) :
    (∀ st2 : AppState, j.epoch ≠ st2.runSeq → runJob st2 j = (st2, [])) ∧
    ((generate st rows cols edits sp d).runSeq = st.runSeq + 1 ∧
     (generate st rows cols edits sp d).afterJob =
       some { epoch := st.runSeq + 1, kind := RunKind.gen, rem := edits } ∧
     runJob (generate st rows cols edits sp d) j =
       (generate st rows cols edits sp d, [])) ∧
    ((solve st snaps sp d).1.runSeq = st.runSeq + 1 ∧
     (solve st snaps sp d).1.afterJob =
       some { epoch := st.runSeq + 1, kind := RunKind.solve, rem := snaps } ∧
     runJob (solve st snaps sp d).1 j = ((solve st snaps sp d).1, [])) := by
  have stale : ∀ st2 : AppState, j.epoch ≠ st2.runSeq → runJob st2 j = (st2, []) := by
    intro st2 hne
    simp [runJob, hne]
  have hgseq : (generate st rows cols edits sp d).runSeq = st.runSeq + 1 := by
    simp [generate, run_iterator, cancel]
  have hsseq : (solve st snaps sp d).1.runSeq = st.runSeq + 1 := by
    simp [solve, hm, hk, run_iterator, cancel]
  refine ⟨stale, ⟨hgseq, by simp [generate, run_iterator, cancel], ?_⟩,
    ⟨hsseq, by simp [solve, hm, hk, run_iterator, cancel], ?_⟩⟩
  · exact stale _ (by rw [hgseq]; omega)
  · exact stale _ (by rw [hsseq]; omega)

/-- C5 witness: the statement at a concrete accepting state and a stale
continuation. -/
theorem C5_epoch_cancellation_witness :
    (∀ st2 : AppState, jb.epoch ≠ st2.runSeq → runJob st2 jb = (st2, [])) ∧
    ((generate stSolve 5 5 [] 50 0).runSeq = stSolve.runSeq + 1 ∧
     (generate stSolve 5 5 [] 50 0).afterJob =
       some { epoch := stSolve.runSeq + 1, kind := RunKind.gen, rem := [] } ∧
     runJob (generate stSolve 5 5 [] 50 0) jb = (generate stSolve 5 5 [] 50 0, [])) ∧
    (((solve stSolve [] 50 0).1.runSeq = stSolve.runSeq + 1) ∧
     (solve stSolve [] 50 0).1.afterJob =
       some { epoch := stSolve.runSeq + 1, kind := RunKind.solve, rem := [] } ∧
     runJob (solve stSolve [] 50 0).1 jb = ((solve stSolve [] 50 0).1, [])) :=
  C5_epoch_cancellation stSolve jb 5 5 50 0 [] []
    { w := 1, h := 1, grid := fun _ _ => 1 } (by decide) (by rfl) (by decide)

/-! ## Basic lemmas: association lists, adjacency, neighbours, cells -/

/-- Unfolding the association-list lookup on a cons. -/
theorem alookup_cons {α β : Type} [DecidableEq α] (k : α) (v : β)
    (r : List (α × β)) (a : α) :
    alookup ((k, v) :: r) a = if a = k then some v else alookup r a := rfl

/-- Lookups ignore prepended bindings with different keys. -/
theorem alookup_append_not_mem {α β : Type} [DecidableEq α]
    (L P : List (α × β)) (a : α) (h : ∀ kv ∈ L, kv.1 ≠ a) :
    alookup (L ++ P) a = alookup P a := by
  induction L with
  | nil => rfl
  | cons kv r ih =>
    obtain ⟨k, v⟩ := kv
    have hk : k ≠ a := h (k, v) (List.mem_cons_self _ _)
    simpa [alookup_cons, (Ne.symm hk)] using ih (fun kv hkv => h kv (List.mem_cons_of_mem _ hkv))

/-- Characterisation of the boolean bounds test. -/
theorem inRange_iff (v : Int) (b : Nat) :
    inRange v b = true ↔ 0 ≤ v ∧ v < (b : Int) := by
  simp [inRange]

/-- Characterisation of 4-adjacency. -/
theorem adjacent_iff (a b : Coord) :
    adjacent a b = true ↔
      (b.1 = a.1 + 1 ∧ b.2 = a.2) ∨ (b.1 = a.1 - 1 ∧ b.2 = a.2) ∨
      (b.1 = a.1 ∧ b.2 = a.2 + 1) ∨ (b.1 = a.1 ∧ b.2 = a.2 - 1) := by
  simp only [adjacent, decide_eq_true_eq]
  omega

/-- Adjacency is symmetric. -/
theorem adjacent_symm (a b : Coord) (h : adjacent a b = true) :
    adjacent b a = true := by
  rw [adjacent_iff] at h ⊢
  omega

/-- Membership in the neighbour list. -/
theorem mem_neighbours (x y : Int) (w h : Nat) (c : Coord) :
    c ∈ neighbours x y w h ↔
      adjacent (x, y) c = true ∧ inRange c.1 w = true ∧ inRange c.2 h = true := by
  obtain ⟨cx, cy⟩ := c
  simp only [neighbours, fourDirs, List.mem_filter, List.mem_map, List.mem_cons,
    List.not_mem_nil, or_false, adjacent_iff, inRange_iff, Bool.and_eq_true,
    decide_eq_true_eq, Prod.mk.injEq, Prod.exists]
  constructor
  · rintro ⟨⟨dx, dy, hd, hx, hy⟩, hb⟩
    rcases hd with ⟨rfl, rfl⟩ | ⟨rfl, rfl⟩ | ⟨rfl, rfl⟩ | ⟨rfl, rfl⟩ <;>
      simp_all <;> omega
  · rintro ⟨hd, hb⟩
    refine ⟨?_, by simpa using hb⟩
    rcases hd with ⟨h1, h2⟩ | ⟨h1, h2⟩ | ⟨h1, h2⟩ | ⟨h1, h2⟩
    · exact ⟨1, 0, by simp, by omega, by omega⟩
    · exact ⟨-1, 0, by simp, by omega, by omega⟩
    · exact ⟨0, 1, by simp, by omega, by omega⟩
    · exact ⟨0, -1, by simp, by omega, by omega⟩

/-- The neighbour list never repeats a cell. -/
theorem neighbours_nodup (x y : Int) (w h : Nat) : (neighbours x y w h).Nodup := by
  apply List.Nodup.filter
  simp only [fourDirs, List.map_cons, List.map_nil, List.nodup_cons, List.mem_cons,
    List.not_mem_nil, or_false, List.nodup_nil, Prod.mk.injEq, not_or, and_true]
  norm_num

/-- A step out of a cell lands on an in-bounds nonzero neighbour, and
conversely. -/
theorem step_iff (m : Maze) (u c : Coord) :
    step m u c ↔ c ∈ neighbours u.1 u.2 m.w m.h ∧ m.grid c.2 c.1 ≠ 0 := by
  rw [step, isPassage, mem_neighbours]
  constructor
  · rintro ⟨ha, hp⟩
    simp only [Bool.and_eq_true, decide_eq_true_eq] at hp
    exact ⟨⟨ha, hp.1.1, hp.1.2⟩, hp.2⟩
  · rintro ⟨⟨ha, h1, h2⟩, hg⟩
    exact ⟨ha, by simp [h1, h2, hg]⟩

/-- Size of the cell enumeration. -/
theorem allCells_succ (w n : Nat) :
    allCells w (n + 1) =
      allCells w n ++ (List.range w).map (fun x => (Int.ofNat x, Int.ofNat n)) := by
  simp [allCells, List.range_succ]

/-- Size of the cell enumeration. -/
theorem allCells_length (w h : Nat) : (allCells w h).length = h * w := by
  induction h with
  | zero => simp [allCells]
  | succ n ih =>
    rw [allCells_succ, List.length_append, ih, List.length_map, List.length_range,
      Nat.succ_mul]

/-- Membership in the cell enumeration. -/
theorem mem_allCells (w h : Nat) (c : Coord) :
    c ∈ allCells w h ↔ inRange c.1 w = true ∧ inRange c.2 h = true := by
  obtain ⟨cx, cy⟩ := c
  simp only [allCells, List.mem_flatMap, List.mem_map, List.mem_range, inRange_iff,
    Prod.mk.injEq]
  constructor
  · rintro ⟨y, hy, x, hx, he1, he2⟩
    simp only [Int.ofNat_eq_natCast] at he1 he2
    omega
  · rintro ⟨⟨hx0, hxw⟩, ⟨hy0, hyh⟩⟩
    refine ⟨cy.toNat, by omega, cx.toNat, by omega, ?_, ?_⟩ <;>
      simp only [Int.ofNat_eq_natCast] <;> omega

/-- A duplicate-free list of cells, each the start or a passage, fits in the
capacity bound. -/
theorem nodup_length_le_cap (m : Maze) (s : Coord) (V : List Coord)
    (hnd : V.Nodup) (hsub : ∀ v ∈ V, v = s ∨ isPassage m v = true) :
    V.length ≤ NCap m := by
  have hss : V ⊆ s :: allCells m.w m.h := by
    intro v hv
    rcases hsub v hv with rfl | hp
    · exact List.mem_cons_self _ _
    · simp only [isPassage, Bool.and_eq_true, decide_eq_true_eq] at hp
      exact List.mem_cons_of_mem _ ((mem_allCells _ _ _).mpr ⟨by simp [inRange_iff, hp.1.1], by simp [inRange_iff, hp.1.2]⟩)
  have := (List.subperm_of_subset hnd hss).length_le
  simpa [allCells_length, NCap, Nat.mul_comm] using this

/-! ## Walk and shortest-distance lemmas -/

/-- The one-cell walk. -/
theorem isWalk_single (m : Maze) (s : Coord) : IsWalk m s s [s] :=
  ⟨by simp, rfl, rfl, by simp⟩

/-- Extending a walk by one step. -/
theorem isWalk_snoc (m : Maze) (s u c : Coord) (p : List Coord)
    (hw : IsWalk m s u p) (hs : step m u c) : IsWalk m s c (p ++ [c]) := by
  obtain ⟨hne, hh, hl, hc⟩ := hw
  refine ⟨by simp, ?_, by simp, ?_⟩
  · cases p with
    | nil => exact absurd rfl hne
    | cons a r => simpa using hh
  · rw [List.chain'_append]
    refine ⟨hc, List.chain'_singleton _, ?_⟩
    intro u2 hu2 y hy
    have h1 : p.getLast? = some u2 := Option.mem_def.mp hu2
    rw [hl] at h1
    have h2 : ([c] : List Coord).head? = some y := Option.mem_def.mp hy
    simp only [List.head?_cons, Option.some.injEq] at h1 h2
    rw [← h1, ← h2]
    exact hs

/-- Decomposing a walk of at least one edge into its last step. -/
theorem isWalk_snoc_inv (m : Maze) (s t : Coord) (p : List Coord)
    (hw : IsWalk m s t p) (hlen : 2 ≤ p.length) :
    ∃ q u, p = q ++ [t] ∧ IsWalk m s u q ∧ step m u t ∧ q.length + 1 = p.length := by
  obtain ⟨hne, hh, hl, hc⟩ := hw
  rcases List.eq_nil_or_concat p with rfl | ⟨q, c, hp⟩
  · exact absurd rfl hne
  rw [List.concat_eq_append] at hp
  subst hp
  have hct : c = t := by
    rw [List.getLast?_concat] at hl
    exact Option.some_injective _ hl
  subst hct
  have hqne : q ≠ [] := by
    intro h0
    subst h0
    simp at hlen
  obtain ⟨u, hu⟩ : ∃ u, q.getLast? = some u := by
    cases hq : q.getLast? with
    | none => exact absurd (List.getLast?_eq_none_iff.mp hq) hqne
    | some u => exact ⟨u, rfl⟩
  rw [List.chain'_append] at hc
  refine ⟨q, u, rfl, ⟨hqne, ?_, hu, hc.1⟩,
    hc.2.2 u (Option.mem_def.mpr hu) c (by simp), by simp⟩
  cases q with
  | nil => exact absurd rfl hqne
  | cons a r => simpa using hh

/-- Splitting the first step off a walk with at least two cells. -/
theorem isWalk_cons_inv (m : Maze) (s t a b : Coord) (r : List Coord)
    (hw : IsWalk m s t (a :: b :: r)) :
    a = s ∧ step m a b ∧ IsWalk m b t (b :: r) := by
  obtain ⟨hne, hh, hl, hc⟩ := hw
  simp only [List.head?_cons, Option.some.injEq] at hh
  rw [List.chain'_cons] at hc
  exact ⟨hh, hc.1, ⟨by simp, rfl, by simpa using hl, hc.2⟩⟩

/-- A set closed under steps swallows every walk from one of its members. -/
theorem closed_walk (m : Maze) (V : List Coord)
    (hC : ∀ v ∈ V, ∀ c, step m v c → c ∈ V) (s t : Coord) (p : List Coord)
    (hs : s ∈ V) (hw : IsWalk m s t p) : t ∈ V := by
  induction p generalizing s with
  | nil => exact absurd rfl hw.1
  | cons a r ih =>
    cases r with
    | nil =>
      obtain ⟨-, hh, hl, -⟩ := hw
      simp only [List.head?_cons, Option.some.injEq] at hh
      simp only [List.getLast?_singleton, Option.some.injEq] at hl
      rw [← hl, hh]
      exact hs
    | cons b r2 =>
      obtain ⟨ha, hstep, hw2⟩ := isWalk_cons_inv m s t a b r2 hw
      subst ha
      exact ih b (hC a hs b hstep) hw2

/-- Every reachable target has an exact shortest distance. -/
theorem isDist_exists (m : Maze) (s g : Coord) (h : Reach m s g) :
    ∃ k, IsDist m s g k := by
  classical
  obtain ⟨p, hp⟩ := h
  have hlen : 1 ≤ p.length := List.length_pos.mpr hp.1
  have hex : ∃ n, ∃ q, IsWalk m s g q ∧ q.length = n + 1 :=
    ⟨p.length - 1, p, hp, by omega⟩
  refine ⟨Nat.find hex, Nat.find_spec hex, ?_⟩
  intro q hq
  by_contra hlt
  push_neg at hlt
  have hq1 : 1 ≤ q.length := List.length_pos.mpr hq.1
  exact Nat.find_min hex (m := q.length - 1) (by omega) ⟨q, hq, by omega⟩

/-- Shortest distances are unique. -/
theorem isDist_unique (m : Maze) (s g : Coord) (k k2 : Nat)
    (h : IsDist m s g k) (h2 : IsDist m s g k2) : k = k2 := by
  obtain ⟨⟨p, hp, hpl⟩, hmin⟩ := h
  obtain ⟨⟨q, hq, hql⟩, hmin2⟩ := h2
  have := hmin q hq
  have := hmin2 p hp
  omega

/-- The distance from a cell to itself is zero. -/
theorem isDist_self (m : Maze) (s : Coord) : IsDist m s s 0 :=
  ⟨⟨[s], isWalk_single m s, rfl⟩,
    fun p hp => by have := List.length_pos.mpr hp.1; omega⟩

/-- Distance zero forces equality of the endpoints. -/
theorem isDist_zero (m : Maze) (s g : Coord) (h : IsDist m s g 0) : s = g := by
  obtain ⟨⟨p, hp, hpl⟩, -⟩ := h
  obtain ⟨-, hh, hl, -⟩ := hp
  cases p with
  | nil => simp at hpl
  | cons a r =>
    cases r with
    | nil =>
      simp only [List.head?_cons, Option.some.injEq] at hh
      simp only [List.getLast?_singleton, Option.some.injEq] at hl
      rw [← hh, ← hl]
    | cons b r2 => simp at hpl

/-! ## Closed forms of the relaxation folds -/

/-- Membership in the enqueued-neighbour list. -/
theorem mem_searchNews (m : Maze) (cur : Coord) (vis : List Coord) (c : Coord) :
    c ∈ searchNews m cur vis ↔ step m cur c ∧ c ∉ vis := by
  simp only [searchNews, List.mem_filter, Bool.not_eq_eq_eq_not, Bool.not_true,
    decide_eq_false_iff_not, not_or, step_iff]
  constructor
  · rintro ⟨hn, hg, hv⟩
    exact ⟨⟨hn, hg⟩, hv⟩
  · rintro ⟨⟨hn, hg⟩, hv⟩
    exact ⟨hn, hg, hv⟩

/-- The enqueued-neighbour list has no duplicates. -/
theorem searchNews_nodup (m : Maze) (cur : Coord) (vis : List Coord) :
    (searchNews m cur vis).Nodup :=
  (neighbours_nodup _ _ _ _).filter _

/-- Closed form of the BFS neighbour fold: one batch append to the queue,
one batch of parent bindings and visited marks. -/
theorem bfsRelax_eq (m : Maze) (cur : Coord) (st : BfsState) :
    bfsRelax m cur st =
      { queue := st.queue ++ searchNews m cur st.visited,
        parent := ((searchNews m cur st.visited).map
          (fun c => (c, some cur))).reverse ++ st.parent,
        visited := (searchNews m cur st.visited).reverse ++ st.visited } := by
  have main : ∀ (ns : List Coord), ns.Nodup → ∀ st0 : BfsState,
      ns.foldl (fun s c =>
        if m.grid c.2 c.1 = 0 ∨ c ∈ s.visited then s
        else { queue := s.queue ++ [c], parent := (c, some cur) :: s.parent,
               visited := c :: s.visited }) st0 =
      { queue := st0.queue ++ ns.filter (fun c => !(decide (m.grid c.2 c.1 = 0 ∨ c ∈ st0.visited))),
        parent := ((ns.filter (fun c => !(decide (m.grid c.2 c.1 = 0 ∨ c ∈ st0.visited)))).map
          (fun c => (c, some cur))).reverse ++ st0.parent,
        visited := (ns.filter (fun c => !(decide (m.grid c.2 c.1 = 0 ∨ c ∈ st0.visited)))).reverse
          ++ st0.visited } := by
    intro ns
    induction ns with
    | nil => intro _ st0; simp
    | cons n rest ih =>
      intro hnd st0
      have hnd2 := (List.nodup_cons.mp hnd).2
      have hnmem := (List.nodup_cons.mp hnd).1
      by_cases hcond : m.grid n.2 n.1 = 0 ∨ n ∈ st0.visited
      · have : (n :: rest).filter
            (fun c => !(decide (m.grid c.2 c.1 = 0 ∨ c ∈ st0.visited))) =
            rest.filter (fun c => !(decide (m.grid c.2 c.1 = 0 ∨ c ∈ st0.visited))) := by
          rw [List.filter_cons]
          simp [hcond]
        rw [List.foldl_cons, if_pos hcond, ih hnd2 st0, this]
      · have hfil : (n :: rest).filter
            (fun c => !(decide (m.grid c.2 c.1 = 0 ∨ c ∈ st0.visited))) =
            n :: rest.filter (fun c => !(decide (m.grid c.2 c.1 = 0 ∨ c ∈ st0.visited))) := by
          rw [List.filter_cons]
          simp [hcond]
        have hcongr : rest.filter
            (fun c => !(decide (m.grid c.2 c.1 = 0 ∨ c ∈ n :: st0.visited))) =
            rest.filter (fun c => !(decide (m.grid c.2 c.1 = 0 ∨ c ∈ st0.visited))) := by
          apply List.filter_congr
          intro c hc
          have hcn : c ≠ n := fun hh => hnmem (hh ▸ hc)
          simp [List.mem_cons, hcn]
        rw [List.foldl_cons, if_neg hcond, ih hnd2]
        simp only [hfil, hcongr, List.map_cons, List.reverse_cons]
        simp [BfsState.mk.injEq, List.append_assoc]
  have h2 := main (neighbours cur.1 cur.2 m.w m.h) (neighbours_nodup _ _ _ _) st
  rw [bfsRelax, h2]
  rfl

/-- Closed form of the DFS neighbour fold. -/
theorem dfsRelax_eq (m : Maze) (cur : Coord) (st : DfsState) :
    dfsRelax m cur st =
      { stack := (searchNews m cur st.visited).reverse ++ st.stack,
        parent := ((searchNews m cur st.visited).map
          (fun c => (c, some cur))).reverse ++ st.parent,
        visited := (searchNews m cur st.visited).reverse ++ st.visited } := by
  have main : ∀ (ns : List Coord), ns.Nodup → ∀ st0 : DfsState,
      ns.foldl (fun s c =>
        if m.grid c.2 c.1 = 0 ∨ c ∈ s.visited then s
        else { stack := c :: s.stack, parent := (c, some cur) :: s.parent,
               visited := c :: s.visited }) st0 =
      { stack := (ns.filter (fun c => !(decide (m.grid c.2 c.1 = 0 ∨ c ∈ st0.visited)))).reverse
          ++ st0.stack,
        parent := ((ns.filter (fun c => !(decide (m.grid c.2 c.1 = 0 ∨ c ∈ st0.visited)))).map
          (fun c => (c, some cur))).reverse ++ st0.parent,
        visited := (ns.filter (fun c => !(decide (m.grid c.2 c.1 = 0 ∨ c ∈ st0.visited)))).reverse
          ++ st0.visited } := by
    intro ns
    induction ns with
    | nil => intro _ st0; simp
    | cons n rest ih =>
      intro hnd st0
      have hnd2 := (List.nodup_cons.mp hnd).2
      have hnmem := (List.nodup_cons.mp hnd).1
      by_cases hcond : m.grid n.2 n.1 = 0 ∨ n ∈ st0.visited
      · have : (n :: rest).filter
            (fun c => !(decide (m.grid c.2 c.1 = 0 ∨ c ∈ st0.visited))) =
            rest.filter (fun c => !(decide (m.grid c.2 c.1 = 0 ∨ c ∈ st0.visited))) := by
          rw [List.filter_cons]
          simp [hcond]
        rw [List.foldl_cons, if_pos hcond, ih hnd2 st0, this]
      · have hfil : (n :: rest).filter
            (fun c => !(decide (m.grid c.2 c.1 = 0 ∨ c ∈ st0.visited))) =
            n :: rest.filter (fun c => !(decide (m.grid c.2 c.1 = 0 ∨ c ∈ st0.visited))) := by
          rw [List.filter_cons]
          simp [hcond]
        have hcongr : rest.filter
            (fun c => !(decide (m.grid c.2 c.1 = 0 ∨ c ∈ n :: st0.visited))) =
            rest.filter (fun c => !(decide (m.grid c.2 c.1 = 0 ∨ c ∈ st0.visited))) := by
          apply List.filter_congr
          intro c hc
          have hcn : c ≠ n := fun hh => hnmem (hh ▸ hc)
          simp [List.mem_cons, hcn]
        rw [List.foldl_cons, if_neg hcond, ih hnd2]
        simp only [hfil, hcongr, List.map_cons, List.reverse_cons]
        simp [DfsState.mk.injEq, List.append_assoc]
  have h2 := main (neighbours cur.1 cur.2 m.w m.h) (neighbours_nodup _ _ _ _) st
  rw [dfsRelax, h2]
  rfl

/-! ## Reconstructed paths from well-formed parent maps -/

/-- Every cell after the head of a walk is a passage. -/
theorem isWalk_tail_passage (m : Maze) (s g : Coord) (p : List Coord)
    (hw : IsWalk m s g p) : ∀ c ∈ p.tail, isPassage m c = true := by
  obtain ⟨-, -, -, hc⟩ := hw
  induction p with
  | nil => intro c hc2; simp at hc2
  | cons a r ih =>
    intro c hc2
    simp only [List.tail_cons] at hc2
    cases r with
    | nil => simp at hc2
    | cons b r2 =>
      rw [List.chain'_cons] at hc
      rcases List.mem_cons.mp hc2 with rfl | hmem
      · exact hc.1.2
      · exact ih hc.2 c hmem

/-- Walks are chains of 4-adjacent cells. -/
theorem isWalk_chain_adjacent (m : Maze) (s g : Coord) (p : List Coord)
    (hw : IsWalk m s g p) : List.Chain' (fun a b => adjacent a b = true) p :=
  List.Chain'.imp (fun _ _ h => h.1) hw.2.2.2

/-- From a parent map whose chains strictly descend along a measure `D`, the
reconstruction with enough fuel is a duplicate-free walk from the root,
staying inside the visited set. -/
theorem reconstruct_spec (m : Maze) (s : Coord) (Vp : Coord → Prop)
    (P : List (Coord × Option Coord)) (D : Coord → Nat)
    (hroot : alookup P s = some none)
    (hstep : ∀ v, Vp v → v ≠ s →
      ∃ u, alookup P v = some (some u) ∧ Vp u ∧ step m u v ∧ D u < D v) :
    ∀ k v, Vp v → D v ≤ k → ∀ f, D v < f →
      IsWalk m s v (reconstruct f P v) ∧ (reconstruct f P v).Nodup ∧
      ∀ c ∈ reconstruct f P v, Vp c ∧ D c ≤ D v := by
  intro k
  induction k with
  | zero =>
    intro v hv hD f hf
    by_cases hvs : v = s
    · subst hvs
      cases f with
      | zero => omega
      | succ f2 =>
        rw [reconstruct, hroot]
        exact ⟨isWalk_single _ _, List.nodup_singleton _, by
          intro c hc
          simp only [List.mem_singleton] at hc
          subst hc
          exact ⟨hv, le_refl _⟩⟩
    · obtain ⟨u, -, -, -, hD2⟩ := hstep v hv hvs
      omega
  | succ k ih =>
    intro v hv hD f hf
    by_cases hvs : v = s
    · subst hvs
      cases f with
      | zero => omega
      | succ f2 =>
        rw [reconstruct, hroot]
        exact ⟨isWalk_single _ _, List.nodup_singleton _, by
          intro c hc
          simp only [List.mem_singleton] at hc
          subst hc
          exact ⟨hv, le_refl _⟩⟩
    · obtain ⟨u, hlk, huV, hstepuv, hDlt⟩ := hstep v hv hvs
      cases f with
      | zero => omega
      | succ f2 =>
        rw [reconstruct, hlk]
        have hIH := ih u huV (by omega) f2 (by omega)
        obtain ⟨hwu, hndu, hmemu⟩ := hIH
        refine ⟨isWalk_snoc m s u v _ hwu hstepuv, ?_, ?_⟩
        · rw [List.nodup_append]
          refine ⟨hndu, List.nodup_singleton _, ?_⟩
          intro c hc hc2
          simp only [List.mem_singleton] at hc2
          subst hc2
          have := (hmemu _ hc).2
          omega
        · intro c hc
          rcases List.mem_append.mp hc with hc1 | hc1
          · obtain ⟨h1, h2⟩ := hmemu c hc1
            exact ⟨h1, by omega⟩
          · simp only [List.mem_singleton] at hc1
            subst hc1
            exact ⟨hv, le_refl _⟩

/-- With exact unit increments along the parent chain and a zero root, the
reconstructed path has length `D v + 1`. -/
theorem reconstruct_len (m : Maze) (s : Coord) (Vp : Coord → Prop)
    (P : List (Coord × Option Coord)) (D : Coord → Nat)
    (hroot : alookup P s = some none) (hs0 : D s = 0)
    (hstep : ∀ v, Vp v → v ≠ s →
      ∃ u, alookup P v = some (some u) ∧ Vp u ∧ step m u v ∧ D u + 1 = D v) :
    ∀ k v, Vp v → D v ≤ k → ∀ f, D v < f →
      (reconstruct f P v).length = D v + 1 := by
  intro k
  induction k with
  | zero =>
    intro v hv hD f hf
    by_cases hvs : v = s
    · subst hvs
      cases f with
      | zero => omega
      | succ f2 => rw [reconstruct, hroot]; simp [hs0]
    · obtain ⟨u, -, -, -, hD2⟩ := hstep v hv hvs
      omega
  | succ k ih =>
    intro v hv hD f hf
    by_cases hvs : v = s
    · subst hvs
      cases f with
      | zero => omega
      | succ f2 => rw [reconstruct, hroot]; simp [hs0]
    · obtain ⟨u, hlk, huV, -, hD1⟩ := hstep v hv hvs
      cases f with
      | zero => omega
      | succ f2 =>
        rw [reconstruct, hlk]
        have := ih u huV (by omega) f2 (by omega)
        simp [this]
        omega

/-! ## BFS invariant maintenance -/

/-- Updating inside the batch. -/
theorem updD_mem (D : Coord → Nat) (news : List Coord) (k : Nat) (v : Coord)
    (h : v ∈ news) : updD D news k v = k := if_pos h

/-- Updating outside the batch. -/
theorem updD_not_mem (D : Coord → Nat) (news : List Coord) (k : Nat) (v : Coord)
    (h : v ∉ news) : updD D news k v = D v := if_neg h

/-- The head of a distance-sorted queue carries the least distance. -/
theorem sorted_head_min (D : Coord → Nat) (cur : Coord) (rest : List Coord)
    (hs : ((cur :: rest).map D).Pairwise (· ≤ ·)) :
    ∀ v ∈ cur :: rest, D cur ≤ D v := by
  intro v hv
  rcases List.mem_cons.mp hv with rfl | hv2
  · exact le_refl _
  · rw [List.map_cons, List.pairwise_cons] at hs
    exact hs.1 _ (List.mem_map_of_mem D hv2)

/-- A constant-valued map is sorted. -/
theorem sorted_map_of_const (l : List Coord) (f : Coord → Nat) (k : Nat)
    (h : ∀ c ∈ l, f c = k) : (l.map f).Pairwise (· ≤ ·) := by
  induction l with
  | nil => simp
  | cons a r ih =>
    rw [List.map_cons, List.pairwise_cons]
    refine ⟨?_, ih (fun c hc => h c (List.mem_cons_of_mem _ hc))⟩
    intro b hb
    obtain ⟨c, hc, rfl⟩ := List.mem_map.mp hb
    rw [h a (List.mem_cons_self _ _), h c (List.mem_cons_of_mem _ hc)]

/-- Lookup of a key bound exactly once. -/
theorem alookup_of_mem_nodup {β : Type} (L : List (Coord × β)) (v : Coord)
    (val : β) (h : (v, val) ∈ L) (hnd : (L.map Prod.fst).Nodup) :
    alookup L v = some val := by
  induction L with
  | nil => simp at h
  | cons kv r ih =>
    obtain ⟨k, w⟩ := kv
    rw [List.map_cons, List.nodup_cons] at hnd
    rcases List.mem_cons.mp h with heq | hmem
    · rw [Prod.mk.injEq] at heq
      obtain ⟨h1, h2⟩ := heq
      subst h1
      subst h2
      simp [alookup_cons]
    · have hvk : v ≠ k := by
        rintro rfl
        exact hnd.1 (by simpa using List.mem_map_of_mem Prod.fst hmem)
      rw [alookup_cons, if_neg hvk]
      exact ih hmem hnd.2

/-- Lookup hits the prefix when the key is bound there. -/
theorem alookup_append_left {β : Type} (L P : List (Coord × β)) (v : Coord)
    (o : β) (h : alookup L v = some o) : alookup (L ++ P) v = some o := by
  induction L with
  | nil => simp [alookup] at h
  | cons kv r ih =>
    obtain ⟨k, w⟩ := kv
    rw [alookup_cons] at h
    by_cases hvk : v = k
    · rw [if_pos hvk] at h
      simpa [alookup_cons, hvk] using h
    · rw [if_neg hvk] at h
      simpa [alookup_cons, hvk] using ih h

/-- Every walk out of the visited region to an unvisited cell is at least
two cells longer than the least queue level: the exit edge leaves from a
queued cell, whose recorded distance already prices the prefix. -/
theorem bfs_unvisited_lb (m : Maze) (s g : Coord) (st : BfsState)
    (D : Coord → Nat) (inv : BfsInv m s g st D) (dmin : Nat)
    (hq : ∀ v ∈ st.queue, dmin ≤ D v) :
    ∀ p t, IsWalk m s t p → t ∉ st.visited → dmin + 2 ≤ p.length := by
  suffices H : ∀ n p t, p.length ≤ n → IsWalk m s t p → t ∉ st.visited →
      dmin + 2 ≤ p.length by
    exact fun p t hw ht => H p.length p t (le_refl _) hw ht
  intro n
  induction n with
  | zero =>
    intro p t hlen hw ht
    have := List.length_pos.mpr hw.1
    omega
  | succ n ih =>
    intro p t hlen hw ht
    have hp1 : 1 ≤ p.length := List.length_pos.mpr hw.1
    have hp2 : 2 ≤ p.length := by
      rcases Nat.lt_or_ge p.length 2 with hlt | hge
      · exfalso
        have hpe : p.length = 1 := by omega
        obtain ⟨a, rfl⟩ := List.length_eq_one.mp hpe
        obtain ⟨-, hh, hl, -⟩ := hw
        simp only [List.head?_cons, Option.some.injEq] at hh
        simp only [List.getLast?_singleton, Option.some.injEq] at hl
        rw [← hl, hh] at ht
        exact ht inv.start_vis
      · exact hge
    obtain ⟨q, u, hpq, hwq, hstep, hql⟩ := isWalk_snoc_inv m s t p hw hp2
    by_cases hu : u ∈ st.visited
    · by_cases huq : u ∈ st.queue
      · have hd := (inv.dist_ok u hu).2 q hwq
        have := hq u huq
        omega
      · exact absurd (inv.closed u hu huq t hstep) ht
    · have := ih q u (by omega) hwq hu
      omega

/-- One BFS loop step (pop a non-goal cell, enqueue its fresh neighbours)
preserves the invariant, the new cells taking distance one past the popped
level. -/
theorem bfs_step_inv (m : Maze) (s g : Coord) (st : BfsState)
    (D : Coord → Nat) (inv : BfsInv m s g st D) (cur : Coord)
    (rest : List Coord) (hq : st.queue = cur :: rest) (hcg : cur ≠ g) :
    BfsInv m s g (bfsRelax m cur { st with queue := rest })
      (updD D (searchNews m cur st.visited) (D cur + 1)) := by
  have hcur : cur ∈ st.visited := inv.q_sub cur (by rw [hq]; exact List.mem_cons_self _ _)
  have hheadmin : ∀ v ∈ st.queue, D cur ≤ D v := by
    rw [hq]
    exact sorted_head_min D cur rest (by rw [← hq]; exact inv.q_sorted)
  have hfresh : ∀ c ∈ searchNews m cur st.visited, c ∉ st.visited :=
    fun c hc => ((mem_searchNews m cur st.visited c).mp hc).2
  have hstepn : ∀ c ∈ searchNews m cur st.visited, step m cur c :=
    fun c hc => ((mem_searchNews m cur st.visited c).mp hc).1
  have hnd : (searchNews m cur st.visited).Nodup := searchNews_nodup m cur st.visited
  have hDnews : ∀ c ∈ searchNews m cur st.visited, IsDist m s c (D cur + 1) := by
    intro c hc
    obtain ⟨⟨r, hr, hrl⟩, -⟩ := inv.dist_ok cur hcur
    constructor
    · exact ⟨r ++ [c], isWalk_snoc m s cur c r hr (hstepn c hc), by simp [hrl]⟩
    · intro p hp
      have := bfs_unvisited_lb m s g st D inv (D cur) hheadmin p c hp (hfresh c hc)
      omega
  rw [bfsRelax_eq]
  set news := searchNews m cur st.visited with hnews
  set D2 := updD D news (D cur + 1) with hD2
  have hD2vis : ∀ v ∈ st.visited, D2 v = D v := by
    intro v hv
    exact updD_not_mem D news _ v (fun hmem => hfresh v hmem hv)
  have hD2news : ∀ v ∈ news, D2 v = D cur + 1 :=
    fun v hv => updD_mem D news _ v hv
  have hvis2 : ∀ v, v ∈ news.reverse ++ st.visited ↔ v ∈ news ∨ v ∈ st.visited := by
    intro v
    simp [List.mem_append]
  refine
    { vis_nodup := ?_, start_vis := ?_, q_sub := ?_, dist_ok := ?_,
      vis_pass := ?_, closed := ?_, q_sorted := ?_, q_spread := ?_,
      par_root := ?_, par_dom := ?_, par_step := ?_, goal_q := ?_ }
  · rw [List.nodup_append]
    exact ⟨List.nodup_reverse.mpr hnd, inv.vis_nodup,
      fun c hc => hfresh c (List.mem_reverse.mp hc)⟩
  · exact List.mem_append.mpr (Or.inr inv.start_vis)
  · intro v hv
    rcases List.mem_append.mp hv with hv1 | hv1
    · exact (hvis2 v).mpr (Or.inr (inv.q_sub v (by rw [hq]; exact List.mem_cons_of_mem _ hv1)))
    · exact (hvis2 v).mpr (Or.inl hv1)
  · intro v hv
    rcases (hvis2 v).mp hv with hv1 | hv1
    · rw [hD2news v hv1]
      exact hDnews v hv1
    · rw [hD2vis v hv1]
      exact inv.dist_ok v hv1
  · intro v hv
    rcases (hvis2 v).mp hv with hv1 | hv1
    · exact Or.inr (hstepn v hv1).2
    · exact inv.vis_pass v hv1
  · intro v hv hvq c hstepc
    rcases (hvis2 v).mp hv with hv1 | hv1
    · exact absurd (List.mem_append.mpr (Or.inr hv1)) hvq
    · by_cases hvcur : v = cur
      · subst hvcur
        by_cases hcv : c ∈ st.visited
        · exact (hvis2 c).mpr (Or.inr hcv)
        · refine (hvis2 c).mpr (Or.inl ?_)
          exact (mem_searchNews m v st.visited c).mpr ⟨hstepc, hcv⟩
      · have hvrest : v ∉ rest := by
          intro hmem
          exact hvq (List.mem_append.mpr (Or.inl hmem))
        have hvq0 : v ∉ st.queue := by
          rw [hq]
          intro hmem
          rcases List.mem_cons.mp hmem with h1 | h1
          · exact hvcur h1
          · exact hvrest h1
        exact (hvis2 c).mpr (Or.inr (inv.closed v hv1 hvq0 c hstepc))
  · rw [List.map_append, List.pairwise_append]
    refine ⟨?_, ?_, ?_⟩
    · have hsr : (rest.map D).Pairwise (· ≤ ·) := by
        have := inv.q_sorted
        rw [hq, List.map_cons, List.pairwise_cons] at this
        exact this.2
      have : rest.map D2 = rest.map D := by
        apply List.map_congr_left
        intro v hv
        exact hD2vis v (inv.q_sub v (by rw [hq]; exact List.mem_cons_of_mem _ hv))
      rwa [this]
    · exact sorted_map_of_const news D2 (D cur + 1) hD2news
    · intro a ha b hb
      obtain ⟨va, hva, rfl⟩ := List.mem_map.mp ha
      obtain ⟨vb, hvb, rfl⟩ := List.mem_map.mp hb
      rw [hD2news vb hvb,
        hD2vis va (inv.q_sub va (by rw [hq]; exact List.mem_cons_of_mem _ hva))]
      have := inv.q_spread cur (by rw [hq]; exact List.mem_cons_self _ _) va
        (by rw [hq]; exact List.mem_cons_of_mem _ hva)
      omega
  · intro u hu v hv
    have hval : ∀ z ∈ rest ++ news,
        D2 z = D z ∧ z ∈ st.queue ∨ D2 z = D cur + 1 := by
      intro z hz
      rcases List.mem_append.mp hz with hz1 | hz1
      · exact Or.inl ⟨hD2vis z (inv.q_sub z (by rw [hq]; exact List.mem_cons_of_mem _ hz1)),
          by rw [hq]; exact List.mem_cons_of_mem _ hz1⟩
      · exact Or.inr (hD2news z hz1)
    rcases hval u hu with ⟨hu1, hu2⟩ | hu1 <;> rcases hval v hv with ⟨hv1, hv2⟩ | hv1
    · rw [hu1, hv1]
      exact inv.q_spread u hu2 v hv2
    · rw [hu1, hv1]
      have := hheadmin u hu2
      omega
    · rw [hu1, hv1]
      have := inv.q_spread cur (by rw [hq]; exact List.mem_cons_self _ _) v hv2
      omega
    · rw [hu1, hv1]
      omega
  · have hside : ∀ kv ∈ (searchNews m cur st.visited).map (fun c => (c, some cur))
        |>.reverse, kv.1 ≠ s := by
      intro kv hkv
      obtain ⟨c, hc, rfl⟩ := List.mem_map.mp (List.mem_reverse.mp hkv)
      intro hcs
      exact hfresh c hc (by rw [show c = s from hcs]; exact inv.start_vis)
    rw [alookup_append_not_mem _ _ _ hside]
    exact inv.par_root
  · intro v o hlk
    by_cases hvn : v ∈ news
    · exact (hvis2 v).mpr (Or.inl hvn)
    · rw [alookup_append_not_mem _ _ _ (by
        intro kv hkv
        obtain ⟨c, hc, rfl⟩ := List.mem_map.mp (List.mem_reverse.mp hkv)
        intro hcv
        exact hvn (by rw [← show c = v from hcv]; exact hc))] at hlk
      exact (hvis2 v).mpr (Or.inr (inv.par_dom v o hlk))
  · intro v hv hvs
    rcases (hvis2 v).mp hv with hv1 | hv1
    · refine ⟨cur, ?_, (hvis2 cur).mpr (Or.inr hcur), hstepn v hv1, ?_⟩
      · apply alookup_append_left
        apply alookup_of_mem_nodup
        · exact List.mem_reverse.mpr (List.mem_map_of_mem _ hv1)
        · rw [List.map_reverse, List.nodup_reverse]
          have hkeys : (news.map (fun c => (c, some cur))).map Prod.fst = news := by
            rw [List.map_map]
            exact List.map_id_fun.symm ▸ rfl
          rw [hkeys]
          exact hnd
      · rw [hD2vis cur hcur, hD2news v hv1]
    · obtain ⟨u, hu1, hu2, hu3, hu4⟩ := inv.par_step v hv1 hvs
      refine ⟨u, ?_, (hvis2 u).mpr (Or.inr hu2), hu3, ?_⟩
      · rw [alookup_append_not_mem _ _ _ (by
          intro kv hkv
          obtain ⟨c, hc, rfl⟩ := List.mem_map.mp (List.mem_reverse.mp hkv)
          intro hcv
          exact hfresh c hc (by rw [show c = v from hcv]; exact hv1))]
        exact hu1
      · rw [hD2vis u hu2, hD2vis v hv1]
        exact hu4
  · intro hg
    rcases (hvis2 g).mp hg with hg1 | hg1
    · exact List.mem_append.mpr (Or.inr hg1)
    · have := inv.goal_q hg1
      rw [hq] at this
      rcases List.mem_cons.mp this with h1 | h1
      · exact absurd h1.symm hcg
      · exact List.mem_append.mpr (Or.inl h1)

/-! ## BFS run lemmas -/

/-- The initial BFS state satisfies the invariant with all distances zero. -/
theorem bfs_init_inv (m : Maze) (s g : Coord) :
    BfsInv m s g { queue := [s], parent := [(s, none)], visited := [s] }
      (fun _ => 0) := by
  refine
    { vis_nodup := List.nodup_singleton _,
      start_vis := List.mem_singleton_self _,
      q_sub := ?_, dist_ok := ?_, vis_pass := ?_, closed := ?_,
      q_sorted := ?_, q_spread := ?_, par_root := ?_, par_dom := ?_,
      par_step := ?_, goal_q := ?_ }
  · intro v hv
    exact hv
  · intro v hv
    rw [List.mem_singleton] at hv
    subst hv
    exact isDist_self m v
  · intro v hv
    rw [List.mem_singleton] at hv
    exact Or.inl hv
  · intro v hv hvq
    exact absurd hv hvq
  · simp
  · intro u hu v hv
    omega
  · simp [alookup_cons]
  · intro v o hlk
    rw [alookup_cons] at hlk
    by_cases hvs : v = s
    · simp [hvs]
    · rw [if_neg hvs] at hlk
      simp [alookup] at hlk
  · intro v hv hvs
    rw [List.mem_singleton] at hv
    exact absurd hv hvs
  · intro hg
    exact hg

/-- Recorded distances stay below the capacity: the parent chain realises a
duplicate-free walk of that many cells inside the visited set. -/
theorem bfs_D_lt (m : Maze) (s g : Coord) (st : BfsState) (D : Coord → Nat)
    (inv : BfsInv m s g st D) (v : Coord) (hv : v ∈ st.visited) :
    D v < NCap m := by
  have hs0 : D s = 0 :=
    isDist_unique m s s (D s) 0 (inv.dist_ok s inv.start_vis) (isDist_self m s)
  have hspec := reconstruct_spec m s (fun z => z ∈ st.visited) st.parent D inv.par_root
    (fun v2 hv2 hvs => by
      obtain ⟨u, h1, h2, h3, h4⟩ := inv.par_step v2 hv2 hvs
      exact ⟨u, h1, h2, h3, by omega⟩)
    (D v) v hv (le_refl _) (D v + 1) (Nat.lt_succ_self _)
  have hlen := reconstruct_len m s (fun z => z ∈ st.visited) st.parent D inv.par_root hs0
    inv.par_step (D v) v hv (le_refl _) (D v + 1) (Nat.lt_succ_self _)
  obtain ⟨-, hnd, hmem⟩ := hspec
  have hsub : reconstruct (D v + 1) st.parent v ⊆ st.visited :=
    fun c hc => (hmem c hc).1
  have h1 : (reconstruct (D v + 1) st.parent v).length ≤ st.visited.length :=
    (List.subperm_of_subset hnd hsub).length_le
  have h2 : st.visited.length ≤ NCap m :=
    nodup_length_le_cap m s st.visited inv.vis_nodup inv.vis_pass
  omega

/-- One loop step strictly decreases the BFS measure. -/
theorem bfs_mu_decrease (m : Maze) (s g : Coord) (st : BfsState)
    (D : Coord → Nat) (inv : BfsInv m s g st D) (cur : Coord)
    (rest : List Coord) (hq : st.queue = cur :: rest) (hcg : cur ≠ g) :
    bfsMu m (bfsRelax m cur { st with queue := rest }) < bfsMu m st := by
  have inv2 := bfs_step_inv m s g st D inv cur rest hq hcg
  have hcap : (bfsRelax m cur { st with queue := rest }).visited.length ≤ NCap m :=
    nodup_length_le_cap m s _ inv2.vis_nodup inv2.vis_pass
  rw [bfsRelax_eq] at hcap ⊢
  simp only [bfsMu, List.length_append, List.length_reverse] at hcap ⊢
  rw [hq]
  simp only [List.length_cons]
  omega

/-- Reconstruction always ends at the queried cell. -/
theorem reconstruct_getLast (f : Nat) (P : List (Coord × Option Coord))
    (n : Coord) : (reconstruct f P n).getLast? = some n := by
  induction f generalizing n with
  | zero => rfl
  | succ f ih =>
    rw [reconstruct]
    cases alookup P n with
    | none => rfl
    | some o =>
      cases o with
      | none => rfl
      | some u =>
        show (reconstruct f P u ++ [n]).getLast? = some n
        exact List.getLast?_concat _

/-- Unfolding a BFS loop step on an empty queue. -/
theorem bfsRun_nil (m : Maze) (g : Coord) (recF f : Nat) (st : BfsState)
    (hq : st.queue = []) :
    bfsRun m g recF (f + 1) st = ([], Ending.exhausted) := by
  obtain ⟨q, P, V⟩ := st
  simp only at hq
  subst hq
  rfl

/-- Unfolding a BFS loop step on a nonempty queue. -/
theorem bfsRun_cons (m : Maze) (g : Coord) (recF f : Nat) (st : BfsState)
    (cur : Coord) (rest : List Coord) (hq : st.queue = cur :: rest) :
    bfsRun m g recF (f + 1) st =
      (if cur = g then ([reconstruct recF st.parent cur], Ending.reachedGoal)
       else
         ((reconstruct recF st.parent cur) ::
            (bfsRun m g recF f (bfsRelax m cur { st with queue := rest })).1,
          (bfsRun m g recF f (bfsRelax m cur { st with queue := rest })).2)) := by
  obtain ⟨q, P, V⟩ := st
  simp only at hq
  subst hq
  rfl

/-- Every snapshot a BFS run yields is a simple path from the start. -/
theorem bfsRun_snapshots (m : Maze) (s g : Coord) (recF : Nat)
    (hrecF : NCap m ≤ recF) :
    ∀ f st D, BfsInv m s g st D →
      ∀ p ∈ (bfsRun m g recF f st).1, SimpleSnapshot m s p := by
  intro f
  induction f with
  | zero =>
    intro st D inv p hp
    simp [bfsRun] at hp
  | succ f ih =>
    intro st D inv p hp
    cases hq : st.queue with
    | nil => rw [bfsRun_nil m g recF f st hq] at hp; simp at hp
    | cons cur rest =>
      rw [bfsRun_cons m g recF f st cur rest hq] at hp
      have hcur : cur ∈ st.visited :=
        inv.q_sub cur (by rw [hq]; exact List.mem_cons_self _ _)
      have hDlt : D cur < recF := lt_of_lt_of_le (bfs_D_lt m s g st D inv cur hcur) hrecF
      have hspec := reconstruct_spec m s (fun z => z ∈ st.visited) st.parent D inv.par_root
        (fun v2 hv2 hvs => by
          obtain ⟨u, h1, h2, h3, h4⟩ := inv.par_step v2 hv2 hvs
          exact ⟨u, h1, h2, h3, by omega⟩)
        (D cur) cur hcur (le_refl _) recF hDlt
      obtain ⟨hwalk, hnd, -⟩ := hspec
      have hsnap : SimpleSnapshot m s (reconstruct recF st.parent cur) :=
        ⟨hwalk.1, hwalk.2.1, isWalk_chain_adjacent m s cur _ hwalk, hnd,
          isWalk_tail_passage m s cur _ hwalk⟩
      by_cases hcg : cur = g
      · rw [if_pos hcg] at hp
        simp only [List.mem_singleton] at hp
        subst hp
        exact hsnap
      · rw [if_neg hcg] at hp
        rcases List.mem_cons.mp hp with rfl | hp2
        · exact hsnap
        · exact ih _ _ (bfs_step_inv m s g st D inv cur rest hq hcg) p hp2

/-- On an unreachable instance, the BFS run ends by exhaustion and no
snapshot ever ends at the goal. -/
theorem bfsRun_unreachable (m : Maze) (s g : Coord) (recF : Nat)
    (hnr : ¬ Reach m s g) :
    ∀ f st D, BfsInv m s g st D → bfsMu m st < f →
      (bfsRun m g recF f st).2 = Ending.exhausted ∧
      ∀ p ∈ (bfsRun m g recF f st).1, p.getLast? ≠ some g := by
  intro f
  induction f with
  | zero =>
    intro st D inv hmu
    omega
  | succ f ih =>
    intro st D inv hmu
    cases hq : st.queue with
    | nil => rw [bfsRun_nil m g recF f st hq]; exact ⟨rfl, by simp⟩
    | cons cur rest =>
      rw [bfsRun_cons m g recF f st cur rest hq]
      have hcur : cur ∈ st.visited :=
        inv.q_sub cur (by rw [hq]; exact List.mem_cons_self _ _)
      have hcg : cur ≠ g := by
        rintro rfl
        obtain ⟨⟨pw, hpw, -⟩, -⟩ := inv.dist_ok cur hcur
        exact hnr ⟨pw, hpw⟩
      rw [if_neg hcg]
      have hmu2 : bfsMu m (bfsRelax m cur { st with queue := rest }) < f := by
        have := bfs_mu_decrease m s g st D inv cur rest hq hcg
        have hle : bfsMu m st ≤ f := by omega
        omega
      obtain ⟨hend, hno⟩ := ih (bfsRelax m cur { st with queue := rest })
        (updD D (searchNews m cur st.visited) (D cur + 1))
        (bfs_step_inv m s g st D inv cur rest hq hcg) hmu2
      refine ⟨hend, ?_⟩
      intro p hp
      rcases List.mem_cons.mp hp with rfl | hp2
      · rw [reconstruct_getLast]
        intro hct
        exact hcg (Option.some_injective _ hct)
      · exact hno p hp2

/-- On a reachable instance, the BFS run ends by popping the goal and its
final snapshot is a shortest route to the goal. -/
theorem bfsRun_solvable (m : Maze) (s g : Coord) (recF : Nat)
    (hrecF : NCap m ≤ recF) (hr : Reach m s g) (k : Nat)
    (hk : IsDist m s g k) :
    ∀ f st D, BfsInv m s g st D → bfsMu m st < f →
      (bfsRun m g recF f st).2 = Ending.reachedGoal ∧
      ∃ p, (bfsRun m g recF f st).1.getLast? = some p ∧
        p.getLast? = some g ∧ p.length = k + 1 := by
  intro f
  induction f with
  | zero =>
    intro st D inv hmu
    omega
  | succ f ih =>
    intro st D inv hmu
    cases hq : st.queue with
    | nil =>
      exfalso
      by_cases hgv : g ∈ st.visited
      · have := inv.goal_q hgv
        rw [hq] at this
        simp at this
      · have hclosed : ∀ v ∈ st.visited, ∀ c, step m v c → c ∈ st.visited := by
          intro v hv c hc
          exact inv.closed v hv (by rw [hq]; simp) c hc
        obtain ⟨pw, hpw⟩ := hr
        exact hgv (closed_walk m st.visited hclosed s g pw inv.start_vis hpw)
    | cons cur rest =>
      rw [bfsRun_cons m g recF f st cur rest hq]
      have hcur : cur ∈ st.visited :=
        inv.q_sub cur (by rw [hq]; exact List.mem_cons_self _ _)
      by_cases hcg : cur = g
      · subst hcg
        rw [if_pos rfl]
        refine ⟨rfl, reconstruct recF st.parent cur, by simp, reconstruct_getLast _ _ _, ?_⟩
        have hs0 : D s = 0 :=
          isDist_unique m s s (D s) 0 (inv.dist_ok s inv.start_vis) (isDist_self m s)
        have hDg : D cur = k :=
          isDist_unique m s cur (D cur) k (inv.dist_ok cur hcur) hk
        have hDlt : D cur < recF :=
          lt_of_lt_of_le (bfs_D_lt m s cur st D inv cur hcur) hrecF
        have := reconstruct_len m s (fun z => z ∈ st.visited) st.parent D inv.par_root hs0
          inv.par_step (D cur) cur hcur (le_refl _) recF hDlt
        omega
      · rw [if_neg hcg]
        have hmu2 : bfsMu m (bfsRelax m cur { st with queue := rest }) < f := by
          have := bfs_mu_decrease m s g st D inv cur rest hq hcg
          omega
        obtain ⟨hend, p, hp1, hp2, hp3⟩ := ih (bfsRelax m cur { st with queue := rest })
          (updD D (searchNews m cur st.visited) (D cur + 1))
          (bfs_step_inv m s g st D inv cur rest hq hcg) hmu2
        refine ⟨hend, p, ?_, hp2, hp3⟩
        cases hrec : (bfsRun m g recF f (bfsRelax m cur { st with queue := rest })).1 with
        | nil => rw [hrec] at hp1; simp at hp1
        | cons a l =>
          rw [hrec] at hp1
          rw [List.getLast?_cons_cons]
          exact hp1

/-! ## DFS invariant maintenance and run lemmas -/

/-- The initial DFS state satisfies the invariant. -/
theorem dfs_init_inv (m : Maze) (s g : Coord) :
    DfsInv m s g { stack := [s], parent := [(s, none)], visited := [s] }
      (fun _ => 0) := by
  refine
    { vis_nodup := List.nodup_singleton _,
      start_vis := List.mem_singleton_self _,
      stack_sub := fun v hv => hv,
      vis_reach := ?_, vis_pass := ?_, closed := ?_, d_lt := ?_,
      par_root := by simp [alookup_cons], par_dom := ?_, par_step := ?_,
      goal_stack := fun hg => hg }
  · intro v hv
    rw [List.mem_singleton] at hv
    subst hv
    exact ⟨[v], isWalk_single m v⟩
  · intro v hv
    rw [List.mem_singleton] at hv
    exact Or.inl hv
  · intro v hv hvq
    exact absurd hv hvq
  · intro v hv
    simp
  · intro v o hlk
    rw [alookup_cons] at hlk
    by_cases hvs : v = s
    · simp [hvs]
    · rw [if_neg hvs] at hlk
      simp [alookup] at hlk
  · intro v hv hvs
    rw [List.mem_singleton] at hv
    exact absurd hv hvs

/-- One DFS loop step preserves the invariant, the new cells taking the old
visited count as their discovery index. -/
theorem dfs_step_inv (m : Maze) (s g : Coord) (st : DfsState)
    (D : Coord → Nat) (inv : DfsInv m s g st D) (cur : Coord)
    (rest : List Coord) (hq : st.stack = cur :: rest) (hcg : cur ≠ g) :
    DfsInv m s g (dfsRelax m cur { st with stack := rest })
      (updD D (searchNews m cur st.visited) st.visited.length) := by
  have hcur : cur ∈ st.visited :=
    inv.stack_sub cur (by rw [hq]; exact List.mem_cons_self _ _)
  have hfresh : ∀ c ∈ searchNews m cur st.visited, c ∉ st.visited :=
    fun c hc => ((mem_searchNews m cur st.visited c).mp hc).2
  have hstepn : ∀ c ∈ searchNews m cur st.visited, step m cur c :=
    fun c hc => ((mem_searchNews m cur st.visited c).mp hc).1
  have hnd : (searchNews m cur st.visited).Nodup := searchNews_nodup m cur st.visited
  rw [dfsRelax_eq]
  set news := searchNews m cur st.visited with hnews
  set D2 := updD D news st.visited.length with hD2
  have hD2vis : ∀ v ∈ st.visited, D2 v = D v :=
    fun v hv => updD_not_mem D news _ v (fun hmem => hfresh v hmem hv)
  have hD2news : ∀ v ∈ news, D2 v = st.visited.length :=
    fun v hv => updD_mem D news _ v hv
  have hvis2 : ∀ v, v ∈ news.reverse ++ st.visited ↔ v ∈ news ∨ v ∈ st.visited := by
    intro v
    simp [List.mem_append]
  refine
    { vis_nodup := ?_, start_vis := ?_, stack_sub := ?_, vis_reach := ?_,
      vis_pass := ?_, closed := ?_, d_lt := ?_, par_root := ?_, par_dom := ?_,
      par_step := ?_, goal_stack := ?_ }
  · rw [List.nodup_append]
    exact ⟨List.nodup_reverse.mpr hnd, inv.vis_nodup,
      fun c hc => hfresh c (List.mem_reverse.mp hc)⟩
  · exact List.mem_append.mpr (Or.inr inv.start_vis)
  · intro v hv
    rcases List.mem_append.mp hv with hv1 | hv1
    · exact (hvis2 v).mpr (Or.inl (List.mem_reverse.mp hv1))
    · exact (hvis2 v).mpr (Or.inr (inv.stack_sub v (by rw [hq]; exact List.mem_cons_of_mem _ hv1)))
  · intro v hv
    rcases (hvis2 v).mp hv with hv1 | hv1
    · obtain ⟨pw, hpw⟩ := inv.vis_reach cur hcur
      exact ⟨pw ++ [v], isWalk_snoc m s cur v pw hpw (hstepn v hv1)⟩
    · exact inv.vis_reach v hv1
  · intro v hv
    rcases (hvis2 v).mp hv with hv1 | hv1
    · exact Or.inr (hstepn v hv1).2
    · exact inv.vis_pass v hv1
  · intro v hv hvq c hstepc
    rcases (hvis2 v).mp hv with hv1 | hv1
    · exact absurd (List.mem_append.mpr (Or.inl (List.mem_reverse.mpr hv1))) hvq
    · by_cases hvcur : v = cur
      · subst hvcur
        by_cases hcv : c ∈ st.visited
        · exact (hvis2 c).mpr (Or.inr hcv)
        · exact (hvis2 c).mpr (Or.inl ((mem_searchNews m v st.visited c).mpr ⟨hstepc, hcv⟩))
      · have hvq0 : v ∉ st.stack := by
          rw [hq]
          intro hmem
          rcases List.mem_cons.mp hmem with h1 | h1
          · exact hvcur h1
          · exact hvq (List.mem_append.mpr (Or.inr h1))
        exact (hvis2 c).mpr (Or.inr (inv.closed v hv1 hvq0 c hstepc))
  · intro v hv
    simp only [List.length_append, List.length_reverse]
    rcases (hvis2 v).mp hv with hv1 | hv1
    · rw [hD2news v hv1]
      have : 1 ≤ news.length := by
        cases hn : news with
        | nil => rw [hn] at hv1; simp at hv1
        | cons a l => simp
      omega
    · rw [hD2vis v hv1]
      have := inv.d_lt v hv1
      omega
  · have hside : ∀ kv ∈ (searchNews m cur st.visited).map (fun c => (c, some cur))
        |>.reverse, kv.1 ≠ s := by
      intro kv hkv
      obtain ⟨c, hc, rfl⟩ := List.mem_map.mp (List.mem_reverse.mp hkv)
      intro hcs
      exact hfresh c hc (by rw [show c = s from hcs]; exact inv.start_vis)
    rw [alookup_append_not_mem _ _ _ hside]
    exact inv.par_root
  · intro v o hlk
    by_cases hvn : v ∈ news
    · exact (hvis2 v).mpr (Or.inl hvn)
    · rw [alookup_append_not_mem _ _ _ (by
        intro kv hkv
        obtain ⟨c, hc, rfl⟩ := List.mem_map.mp (List.mem_reverse.mp hkv)
        intro hcv
        exact hvn (by rw [← show c = v from hcv]; exact hc))] at hlk
      exact (hvis2 v).mpr (Or.inr (inv.par_dom v o hlk))
  · intro v hv hvs
    rcases (hvis2 v).mp hv with hv1 | hv1
    · refine ⟨cur, ?_, (hvis2 cur).mpr (Or.inr hcur), hstepn v hv1, ?_⟩
      · apply alookup_append_left
        apply alookup_of_mem_nodup
        · exact List.mem_reverse.mpr (List.mem_map_of_mem _ hv1)
        · rw [List.map_reverse, List.nodup_reverse]
          have hkeys : (news.map (fun c => (c, some cur))).map Prod.fst = news := by
            rw [List.map_map]
            exact List.map_id_fun.symm ▸ rfl
          rw [hkeys]
          exact hnd
      · rw [hD2vis cur hcur, hD2news v hv1]
        exact inv.d_lt cur hcur
    · obtain ⟨u, hu1, hu2, hu3, hu4⟩ := inv.par_step v hv1 hvs
      refine ⟨u, ?_, (hvis2 u).mpr (Or.inr hu2), hu3, ?_⟩
      · rw [alookup_append_not_mem _ _ _ (by
          intro kv hkv
          obtain ⟨c, hc, rfl⟩ := List.mem_map.mp (List.mem_reverse.mp hkv)
          intro hcv
          exact hfresh c hc (by rw [show c = v from hcv]; exact hv1))]
        exact hu1
      · rw [hD2vis u hu2, hD2vis v hv1]
        exact hu4
  · intro hg
    rcases (hvis2 g).mp hg with hg1 | hg1
    · exact List.mem_append.mpr (Or.inl (List.mem_reverse.mpr hg1))
    · have := inv.goal_stack hg1
      rw [hq] at this
      rcases List.mem_cons.mp this with h1 | h1
      · exact absurd h1.symm hcg
      · exact List.mem_append.mpr (Or.inr h1)

/-- Discovery indices stay below the capacity. -/
theorem dfs_D_lt (m : Maze) (s g : Coord) (st : DfsState) (D : Coord → Nat)
    (inv : DfsInv m s g st D) (v : Coord) (hv : v ∈ st.visited) :
    D v < NCap m :=
  lt_of_lt_of_le (inv.d_lt v hv)
    (nodup_length_le_cap m s st.visited inv.vis_nodup inv.vis_pass)

/-- One loop step strictly decreases the DFS measure. -/
theorem dfs_mu_decrease (m : Maze) (s g : Coord) (st : DfsState)
    (D : Coord → Nat) (inv : DfsInv m s g st D) (cur : Coord)
    (rest : List Coord) (hq : st.stack = cur :: rest) (hcg : cur ≠ g) :
    dfsMu m (dfsRelax m cur { st with stack := rest }) < dfsMu m st := by
  have inv2 := dfs_step_inv m s g st D inv cur rest hq hcg
  have hcap : (dfsRelax m cur { st with stack := rest }).visited.length ≤ NCap m :=
    nodup_length_le_cap m s _ inv2.vis_nodup inv2.vis_pass
  rw [dfsRelax_eq] at hcap ⊢
  simp only [dfsMu, List.length_append, List.length_reverse] at hcap ⊢
  rw [hq]
  simp only [List.length_cons]
  omega

/-- Unfolding a DFS loop step on an empty stack. -/
theorem dfsRun_nil (m : Maze) (g : Coord) (recF f : Nat) (st : DfsState)
    (hq : st.stack = []) :
    dfsRun m g recF (f + 1) st = ([], Ending.exhausted) := by
  obtain ⟨q, P, V⟩ := st
  simp only at hq
  subst hq
  rfl

/-- Unfolding a DFS loop step on a nonempty stack. -/
theorem dfsRun_cons (m : Maze) (g : Coord) (recF f : Nat) (st : DfsState)
    (cur : Coord) (rest : List Coord) (hq : st.stack = cur :: rest) :
    dfsRun m g recF (f + 1) st =
      (if cur = g then ([reconstruct recF st.parent cur], Ending.reachedGoal)
       else
         ((reconstruct recF st.parent cur) ::
            (dfsRun m g recF f (dfsRelax m cur { st with stack := rest })).1,
          (dfsRun m g recF f (dfsRelax m cur { st with stack := rest })).2)) := by
  obtain ⟨q, P, V⟩ := st
  simp only at hq
  subst hq
  rfl

/-- Every snapshot a DFS run yields is a simple path from the start. -/
theorem dfsRun_snapshots (m : Maze) (s g : Coord) (recF : Nat)
    (hrecF : NCap m ≤ recF) :
    ∀ f st D, DfsInv m s g st D →
      ∀ p ∈ (dfsRun m g recF f st).1, SimpleSnapshot m s p := by
  intro f
  induction f with
  | zero =>
    intro st D inv p hp
    simp [dfsRun] at hp
  | succ f ih =>
    intro st D inv p hp
    cases hq : st.stack with
    | nil => rw [dfsRun_nil m g recF f st hq] at hp; simp at hp
    | cons cur rest =>
      rw [dfsRun_cons m g recF f st cur rest hq] at hp
      have hcur : cur ∈ st.visited :=
        inv.stack_sub cur (by rw [hq]; exact List.mem_cons_self _ _)
      have hDlt : D cur < recF := lt_of_lt_of_le (dfs_D_lt m s g st D inv cur hcur) hrecF
      have hspec := reconstruct_spec m s (fun z => z ∈ st.visited) st.parent D inv.par_root
        inv.par_step (D cur) cur hcur (le_refl _) recF hDlt
      obtain ⟨hwalk, hnd, -⟩ := hspec
      have hsnap : SimpleSnapshot m s (reconstruct recF st.parent cur) :=
        ⟨hwalk.1, hwalk.2.1, isWalk_chain_adjacent m s cur _ hwalk, hnd,
          isWalk_tail_passage m s cur _ hwalk⟩
      by_cases hcg : cur = g
      · rw [if_pos hcg] at hp
        simp only [List.mem_singleton] at hp
        subst hp
        exact hsnap
      · rw [if_neg hcg] at hp
        rcases List.mem_cons.mp hp with rfl | hp2
        · exact hsnap
        · exact ih _ _ (dfs_step_inv m s g st D inv cur rest hq hcg) p hp2

/-- On an unreachable instance, the DFS run ends by exhaustion and no
snapshot ever ends at the goal. -/
theorem dfsRun_unreachable (m : Maze) (s g : Coord) (recF : Nat)
    (hnr : ¬ Reach m s g) :
    ∀ f st D, DfsInv m s g st D → dfsMu m st < f →
      (dfsRun m g recF f st).2 = Ending.exhausted ∧
      ∀ p ∈ (dfsRun m g recF f st).1, p.getLast? ≠ some g := by
  intro f
  induction f with
  | zero =>
    intro st D inv hmu
    omega
  | succ f ih =>
    intro st D inv hmu
    cases hq : st.stack with
    | nil => rw [dfsRun_nil m g recF f st hq]; exact ⟨rfl, by simp⟩
    | cons cur rest =>
      rw [dfsRun_cons m g recF f st cur rest hq]
      have hcur : cur ∈ st.visited :=
        inv.stack_sub cur (by rw [hq]; exact List.mem_cons_self _ _)
      have hcg : cur ≠ g := by
        rintro rfl
        exact hnr (inv.vis_reach cur hcur)
      rw [if_neg hcg]
      have hmu2 : dfsMu m (dfsRelax m cur { st with stack := rest }) < f := by
        have := dfs_mu_decrease m s g st D inv cur rest hq hcg
        omega
      obtain ⟨hend, hno⟩ := ih (dfsRelax m cur { st with stack := rest })
        (updD D (searchNews m cur st.visited) st.visited.length)
        (dfs_step_inv m s g st D inv cur rest hq hcg) hmu2
      refine ⟨hend, ?_⟩
      intro p hp
      rcases List.mem_cons.mp hp with rfl | hp2
      · rw [reconstruct_getLast]
        intro hct
        exact hcg (Option.some_injective _ hct)
      · exact hno p hp2

/-- On a reachable instance, the DFS run ends by popping the goal and its
final snapshot is a route to the goal (not necessarily shortest). -/
theorem dfsRun_solvable (m : Maze) (s g : Coord) (recF : Nat)
    (hrecF : NCap m ≤ recF) (hr : Reach m s g) :
    ∀ f st D, DfsInv m s g st D → dfsMu m st < f →
      (dfsRun m g recF f st).2 = Ending.reachedGoal ∧
      ∃ p, (dfsRun m g recF f st).1.getLast? = some p ∧
        p.getLast? = some g ∧ IsWalk m s g p := by
  intro f
  induction f with
  | zero =>
    intro st D inv hmu
    omega
  | succ f ih =>
    intro st D inv hmu
    cases hq : st.stack with
    | nil =>
      exfalso
      by_cases hgv : g ∈ st.visited
      · have := inv.goal_stack hgv
        rw [hq] at this
        simp at this
      · have hclosed : ∀ v ∈ st.visited, ∀ c, step m v c → c ∈ st.visited := by
          intro v hv c hc
          exact inv.closed v hv (by rw [hq]; simp) c hc
        obtain ⟨pw, hpw⟩ := hr
        exact hgv (closed_walk m st.visited hclosed s g pw inv.start_vis hpw)
    | cons cur rest =>
      rw [dfsRun_cons m g recF f st cur rest hq]
      have hcur : cur ∈ st.visited :=
        inv.stack_sub cur (by rw [hq]; exact List.mem_cons_self _ _)
      by_cases hcg : cur = g
      · subst hcg
        rw [if_pos rfl]
        have hDlt : D cur < recF :=
          lt_of_lt_of_le (dfs_D_lt m s cur st D inv cur hcur) hrecF
        have hspec := reconstruct_spec m s (fun z => z ∈ st.visited) st.parent D inv.par_root
          inv.par_step (D cur) cur hcur (le_refl _) recF hDlt
        exact ⟨rfl, reconstruct recF st.parent cur, by simp,
          reconstruct_getLast _ _ _, hspec.1⟩
      · rw [if_neg hcg]
        have hmu2 : dfsMu m (dfsRelax m cur { st with stack := rest }) < f := by
          have := dfs_mu_decrease m s g st D inv cur rest hq hcg
          omega
        obtain ⟨hend, p, hp1, hp2, hp3⟩ := ih (dfsRelax m cur { st with stack := rest })
          (updD D (searchNews m cur st.visited) st.visited.length)
          (dfs_step_inv m s g st D inv cur rest hq hcg) hmu2
        refine ⟨hend, p, ?_, hp2, hp3⟩
        cases hrec : (dfsRun m g recF f (dfsRelax m cur { st with stack := rest })).1 with
        | nil => rw [hrec] at hp1; simp at hp1
        | cons a l =>
          rw [hrec] at hp1
          rw [List.getLast?_cons_cons]
          exact hp1

/-! ## Minimum extraction lemmas -/

/-- Empty extraction characterisation. -/
theorem popMin_eq_none {α : Type} (le : α → α → Bool) (l : List α) :
    popMin le l = none ↔ l = [] := by
  cases l with
  | nil => simp [popMin]
  | cons a rest =>
    simp only [popMin]
    cases popMin le rest with
    | none => simp
    | some pr => cases pr with | mk b rs => by_cases h : le a b <;> simp [h]

/-- Unfolding extraction when the tail is empty. -/
theorem popMin_cons_of_none {α : Type} (le : α → α → Bool) (x : α)
    (rest : List α) (h : popMin le rest = none) :
    popMin le (x :: rest) = some (x, []) := by
  rw [popMin, h]

/-- Unfolding extraction when the head wins. -/
theorem popMin_cons_of_true {α : Type} (le : α → α → Bool) (x b : α)
    (rs rest : List α) (h : popMin le rest = some (b, rs))
    (hle : le x b = true) : popMin le (x :: rest) = some (x, b :: rs) := by
  rw [popMin, h]
  simp [hle]

/-- Unfolding extraction when the tail minimum wins. -/
theorem popMin_cons_of_false {α : Type} (le : α → α → Bool) (x b : α)
    (rs rest : List α) (h : popMin le rest = some (b, rs))
    (hle : le x b = false) : popMin le (x :: rest) = some (b, x :: rs) := by
  rw [popMin, h]
  simp [hle]

/-- The extracted element together with the residue permutes the input. -/
theorem popMin_perm {α : Type} (le : α → α → Bool) (l : List α) (a : α)
    (r : List α) (h : popMin le l = some (a, r)) : l.Perm (a :: r) := by
  induction l generalizing a r with
  | nil => simp [popMin] at h
  | cons x rest ih =>
    cases hrec : popMin le rest with
    | none =>
      rw [popMin_cons_of_none le x rest hrec] at h
      simp only [Option.some.injEq, Prod.mk.injEq] at h
      obtain ⟨rfl, rfl⟩ := h
      rw [(popMin_eq_none le rest).mp hrec]
    | some pr =>
      obtain ⟨b, rs⟩ := pr
      cases hab : le x b with
      | true =>
        rw [popMin_cons_of_true le x b rs rest hrec hab] at h
        simp only [Option.some.injEq, Prod.mk.injEq] at h
        obtain ⟨rfl, rfl⟩ := h
        exact List.Perm.cons x (ih b rs hrec)
      | false =>
        rw [popMin_cons_of_false le x b rs rest hrec hab] at h
        simp only [Option.some.injEq, Prod.mk.injEq] at h
        obtain ⟨rfl, h2⟩ := h
        subst h2
        exact (List.Perm.cons x (ih b rs hrec)).trans (List.Perm.swap b x rs)

/-- The extracted element minimises any key that the boolean order
dominates in both directions. -/
theorem popMin_key_min {α : Type} (le : α → α → Bool) (key : α → Nat)
    (h1 : ∀ a b, le a b = true → key a ≤ key b)
    (h2 : ∀ a b, le a b = false → key b ≤ key a) (l : List α) (a : α)
    (r : List α) (h : popMin le l = some (a, r)) :
    ∀ b ∈ l, key a ≤ key b := by
  induction l generalizing a r with
  | nil => simp [popMin] at h
  | cons x rest ih =>
    cases hrec : popMin le rest with
    | none =>
      rw [popMin_cons_of_none le x rest hrec] at h
      simp only [Option.some.injEq, Prod.mk.injEq] at h
      obtain ⟨rfl, rfl⟩ := h
      rw [(popMin_eq_none le rest).mp hrec]
      intro b hb
      rw [List.mem_singleton] at hb
      subst hb
      exact le_refl _
    | some pr =>
      obtain ⟨b0, rs⟩ := pr
      cases hab : le x b0 with
      | true =>
        rw [popMin_cons_of_true le x b0 rs rest hrec hab] at h
        simp only [Option.some.injEq, Prod.mk.injEq] at h
        obtain ⟨rfl, rfl⟩ := h
        intro b hb
        rcases List.mem_cons.mp hb with rfl | hb2
        · exact le_refl _
        · exact le_trans (h1 _ _ hab) (ih b0 rs hrec b hb2)
      | false =>
        rw [popMin_cons_of_false le x b0 rs rest hrec hab] at h
        simp only [Option.some.injEq, Prod.mk.injEq] at h
        obtain ⟨rfl, h3⟩ := h
        subst h3
        intro b hb
        rcases List.mem_cons.mp hb with rfl | hb2
        · exact le_trans (ih b0 rs hrec b0 (by
            rw [(popMin_perm le rest b0 rs hrec).mem_iff]
            exact List.mem_cons_self _ _)) (h2 _ _ hab)
        · exact ih b0 rs hrec b hb2

/-- Membership of the extracted element. -/
theorem popMin_mem {α : Type} (le : α → α → Bool) (l : List α) (a : α)
    (r : List α) (h : popMin le l = some (a, r)) : a ∈ l :=
  (popMin_perm le l a r h).symm.subset (List.mem_cons_self _ _)

/-- Other elements survive into the residue. -/
theorem popMin_mem_rest {α : Type} (le : α → α → Bool) (l : List α)
    (a b : α) (r : List α) (h : popMin le l = some (a, r)) (hb : b ∈ l)
    (hne : b ≠ a) : b ∈ r := by
  have := (popMin_perm le l a r h).subset hb
  rcases List.mem_cons.mp this with h1 | h1
  · exact absurd h1 hne
  · exact h1

/-- The Dijkstra heap order prices costs from below in both directions. -/
theorem dijLe_key_true (a b : Nat × Coord) (h : dijLe a b = true) :
    a.1 ≤ b.1 := by
  simp only [dijLe, Bool.or_eq_true, decide_eq_true_eq, Bool.and_eq_true] at h
  omega

/-- Failing the Dijkstra heap order bounds the cost the other way. -/
theorem dijLe_key_false (a b : Nat × Coord) (h : dijLe a b = false) :
    b.1 ≤ a.1 := by
  simp only [dijLe, Bool.or_eq_false_iff, decide_eq_false_iff_not,
    Bool.and_eq_false_iff] at h
  omega

/-! ## Dijkstra relaxation and invariant -/

/-- Membership in the relaxed-neighbour list. -/
theorem mem_dijNews (m : Maze) (cost : Nat) (cur : Coord)
    (dist : List (Coord × Nat)) (c : Coord) :
    c ∈ dijNews m cost cur dist ↔
      step m cur c ∧
      (alookup dist c = none ∨ ∃ d, alookup dist c = some d ∧ cost + 1 < d) := by
  simp only [dijNews, List.mem_filter, Bool.and_eq_true, Bool.not_eq_eq_eq_not,
    Bool.not_true, decide_eq_false_iff_not, step_iff]
  constructor
  · rintro ⟨hn, hg, himp⟩
    refine ⟨⟨hn, hg⟩, ?_⟩
    cases hd : alookup dist c with
    | none => exact Or.inl rfl
    | some d =>
      rw [hd] at himp
      simp only [decide_eq_true_eq] at himp
      exact Or.inr ⟨d, rfl, himp⟩
  · rintro ⟨⟨hn, hg⟩, himp⟩
    refine ⟨hn, hg, ?_⟩
    cases hd : alookup dist c with
    | none => rfl
    | some d =>
      rcases himp with h1 | ⟨d2, h2, h3⟩
      · rw [hd] at h1; cases h1
      · rw [hd] at h2
        injection h2 with h2
        subst h2
        simpa using h3

/-- The relaxed-neighbour list has no duplicates. -/
theorem dijNews_nodup (m : Maze) (cost : Nat) (cur : Coord)
    (dist : List (Coord × Nat)) : (dijNews m cost cur dist).Nodup :=
  (neighbours_nodup _ _ _ _).filter _

/-- The neighbour list holds at most four cells. -/
theorem neighbours_length_le (x y : Int) (w h : Nat) :
    (neighbours x y w h).length ≤ 4 := by
  have := List.length_filter_le
    (fun c => inRange c.1 w && inRange c.2 h)
    ((fourDirs.map (fun d => (x + d.1, y + d.2))))
  simpa [neighbours, fourDirs] using this

/-- Closed form of the Dijkstra relaxation fold. -/
theorem dijRelax_eq (m : Maze) (cost : Nat) (cur : Coord) (st : DijState) :
    dijRelax m cost cur st =
      { dist := ((dijNews m cost cur st.dist).map (fun c => (c, cost + 1))).reverse
          ++ st.dist,
        parent := ((dijNews m cost cur st.dist).map (fun c => (c, some cur))).reverse
          ++ st.parent,
        pq := st.pq ++ (dijNews m cost cur st.dist).map (fun c => (cost + 1, c)),
        visited := st.visited } := by
  have main : ∀ (ns : List Coord), ns.Nodup → ∀ st0 : DijState,
      ns.foldl (dijStepF m cost cur) st0 =
      { dist := ((ns.filter (fun c => !(decide (m.grid c.2 c.1 = 0)) &&
            (match alookup st0.dist c with
             | none => true
             | some d => decide (cost + 1 < d)))).map (fun c => (c, cost + 1))).reverse
          ++ st0.dist,
        parent := ((ns.filter (fun c => !(decide (m.grid c.2 c.1 = 0)) &&
            (match alookup st0.dist c with
             | none => true
             | some d => decide (cost + 1 < d)))).map (fun c => (c, some cur))).reverse
          ++ st0.parent,
        pq := st0.pq ++ (ns.filter (fun c => !(decide (m.grid c.2 c.1 = 0)) &&
            (match alookup st0.dist c with
             | none => true
             | some d => decide (cost + 1 < d)))).map (fun c => (cost + 1, c)),
        visited := st0.visited } := by
    intro ns
    induction ns with
    | nil => intro _ st0; simp
    | cons n rest ih =>
      intro hnd st0
      have hnd2 := (List.nodup_cons.mp hnd).2
      have hnmem := (List.nodup_cons.mp hnd).1
      rw [List.foldl_cons, List.filter_cons]
      by_cases hg : m.grid n.2 n.1 = 0
      · have hstepeq : dijStepF m cost cur st0 n = st0 := by
          unfold dijStepF
          rw [if_pos hg]
        have hpred : (!(decide (m.grid n.2 n.1 = 0)) &&
            (match alookup st0.dist n with
             | none => true
             | some d => decide (cost + 1 < d))) = false := by
          simp [hg]
        rw [hpred, hstepeq]
        simp only [Bool.false_eq_true, if_false]
        exact ih hnd2 st0
      · cases himp : (match alookup st0.dist n with
             | none => (true : Bool)
             | some d => decide (cost + 1 < d)) with
        | false =>
          have hstepeq : dijStepF m cost cur st0 n = st0 := by
            unfold dijStepF
            rw [if_neg hg]
            simp only [himp, Bool.false_eq_true, if_false]
          rw [hstepeq]
          simp only [Bool.and_false, Bool.false_eq_true, if_false]
          exact ih hnd2 st0
        | true =>
          have hstepeq : dijStepF m cost cur st0 n =
              { st0 with dist := (n, cost + 1) :: st0.dist,
                         parent := (n, some cur) :: st0.parent,
                         pq := st0.pq ++ [(cost + 1, n)] } := by
            unfold dijStepF
            rw [if_neg hg]
            simp only [himp, if_true]
          rw [hstepeq]
          have hgb : (!decide (m.grid n.2 n.1 = 0)) = true := by simp [hg]
          simp only [Bool.and_true, hgb, if_true]
          rw [ih hnd2]
          have hcongr : rest.filter (fun c => !(decide (m.grid c.2 c.1 = 0)) &&
              (match alookup ((n, cost + 1) :: st0.dist) c with
               | none => true
               | some d => decide (cost + 1 < d))) =
              rest.filter (fun c => !(decide (m.grid c.2 c.1 = 0)) &&
              (match alookup st0.dist c with
               | none => true
               | some d => decide (cost + 1 < d))) := by
            apply List.filter_congr
            intro c hc
            have hcn : c ≠ n := fun hh => hnmem (hh ▸ hc)
            rw [alookup_cons, if_neg hcn]
          simp only [hcongr, List.map_cons, List.reverse_cons]
          simp [DijState.mk.injEq, List.append_assoc]
  have h2 := main (neighbours cur.1 cur.2 m.w m.h) (neighbours_nodup _ _ _ _) st
  rw [dijRelax, h2]
  rfl

/-- The initial Dijkstra state satisfies the invariant. -/
theorem dij_init_inv (m : Maze) (s : Coord) :
    DijInv m s { dist := [(s, 0)], parent := [(s, none)], pq := [(0, s)],
                 visited := [] } := by
  have hlk : ∀ v k, alookup [(s, (0 : Nat))] v = some k → v = s ∧ k = 0 := by
    intro v k h
    rw [alookup_cons] at h
    by_cases hvs : v = s
    · rw [if_pos hvs] at h
      injection h with h
      exact ⟨hvs, h.symm⟩
    · rw [if_neg hvs] at h
      simp [alookup] at h
  refine
    { vis_nodup := List.nodup_nil, vis_pass := by simp,
      dist_walk := ?_, dist_node_ok := ?_, dist_s := by simp [alookup_cons],
      vis_dist := by simp, unvis_pq := ?_, pq_dist := ?_, vis_min := by simp,
      frontier := by simp, par_root := by simp [alookup_cons], par_step := ?_ }
  · intro v k h
    obtain ⟨rfl, rfl⟩ := hlk v k h
    exact ⟨[v], isWalk_single m v, rfl⟩
  · intro v k h
    exact Or.inl (hlk v k h).1
  · intro v k h hv
    obtain ⟨rfl, rfl⟩ := hlk v k h
    simp
  · intro e he
    rw [List.mem_singleton] at he
    subst he
    exact ⟨0, by simp [alookup_cons], le_refl _⟩
  · intro v k h hvs
    exact absurd (hlk v k h).1 hvs

/-- Adjacent cells differ. -/
theorem adjacent_ne (a b : Coord) (h : adjacent a b = true) : a ≠ b := by
  rw [adjacent_iff] at h
  intro hab
  subst hab
  omega

/-- Every walk to an unvisited cell costs at least one more than the least
heap entry. -/
theorem dij_unvisited_lb (m : Maze) (s : Coord) (st : DijState)
    (inv : DijInv m s st) (cmin : Nat) (hmin : ∀ e ∈ st.pq, cmin ≤ e.1) :
    ∀ p t, IsWalk m s t p → t ∉ st.visited → cmin + 1 ≤ p.length := by
  suffices H : ∀ n p t, p.length ≤ n → IsWalk m s t p → t ∉ st.visited →
      cmin + 1 ≤ p.length by
    exact fun p t hw ht => H p.length p t (le_refl _) hw ht
  intro n
  induction n with
  | zero =>
    intro p t hlen hw ht
    have := List.length_pos.mpr hw.1
    omega
  | succ n ih =>
    intro p t hlen hw ht
    have hp1 : 1 ≤ p.length := List.length_pos.mpr hw.1
    rcases Nat.lt_or_ge p.length 2 with hlt | hge
    · have hpe : p.length = 1 := by omega
      obtain ⟨a, rfl⟩ := List.length_eq_one.mp hpe
      obtain ⟨-, hh, hl, -⟩ := hw
      simp only [List.head?_cons, Option.some.injEq] at hh
      simp only [List.getLast?_singleton, Option.some.injEq] at hl
      have hts : t = s := by rw [← hl, hh]
      subst hts
      have := inv.unvis_pq t 0 inv.dist_s ht
      have := hmin (0, t) this
      omega
    · obtain ⟨q, u, hpq, hwq, hstep, hql⟩ := isWalk_snoc_inv m s t p hw hge
      by_cases hu : u ∈ st.visited
      · obtain ⟨ku, hku, hkud⟩ := inv.vis_dist u hu
        obtain ⟨kt, hkt, hktb⟩ := inv.frontier u hu t hstep
        have h1 : kt ≤ ku + 1 := hktb ku hku
        have h2 := hmin (kt, t) (inv.unvis_pq t kt hkt ht)
        have h3 := hkud.2 q hwq
        omega
      · have := ih q u (by omega) hwq hu
        omega

/-- Popping an unvisited cell reveals its recorded distance, which is its
exact shortest distance. -/
theorem dij_pop_correct (m : Maze) (s : Coord) (st : DijState)
    (inv : DijInv m s st) (cost : Nat) (cur : Coord) (rest : List (Nat × Coord))
    (hpop : popMin dijLe st.pq = some ((cost, cur), rest))
    (hunvis : cur ∉ st.visited) :
    alookup st.dist cur = some cost ∧ IsDist m s cur cost := by
  have hmem := popMin_mem dijLe st.pq (cost, cur) rest hpop
  have hmin := popMin_key_min dijLe Prod.fst dijLe_key_true dijLe_key_false
    st.pq (cost, cur) rest hpop
  obtain ⟨k, hk, hkle⟩ := inv.pq_dist (cost, cur) hmem
  have hkpq := inv.unvis_pq cur k hk hunvis
  have hck : cost ≤ k := hmin (k, cur) hkpq
  have hkeq : k = cost := by omega
  subst hkeq
  refine ⟨hk, ⟨inv.dist_walk cur k hk, ?_⟩⟩
  intro p hp
  exact dij_unvisited_lb m s st inv k (fun e he => hmin e he) p cur hp hunvis

/-- Discarding a stale heap entry preserves the invariant. -/
theorem dij_discard_inv (m : Maze) (s : Coord) (st : DijState)
    (cost : Nat) (cur : Coord) (rest : List (Nat × Coord))
    (inv : DijInv m s st)
    (hpop : popMin dijLe st.pq = some ((cost, cur), rest))
    (hvis : cur ∈ st.visited) :
    DijInv m s { st with pq := rest } := by
  have hperm := popMin_perm dijLe st.pq ((cost, cur)) rest hpop
  have hsub : ∀ e, e ∈ rest → e ∈ st.pq := by
    intro e he
    exact hperm.symm.subset (List.mem_cons_of_mem _ he)
  refine
    { vis_nodup := inv.vis_nodup, vis_pass := inv.vis_pass,
      dist_walk := inv.dist_walk, dist_node_ok := inv.dist_node_ok,
      dist_s := inv.dist_s, vis_dist := inv.vis_dist,
      unvis_pq := ?_, pq_dist := ?_, vis_min := ?_,
      frontier := inv.frontier, par_root := inv.par_root,
      par_step := inv.par_step }
  · intro v k h hv
    have := inv.unvis_pq v k h hv
    refine popMin_mem_rest dijLe st.pq (cost, cur) (k, v) rest hpop this ?_
    intro hx
    rw [Prod.mk.injEq] at hx
    exact hv (hx.2 ▸ hvis)
  · intro e he
    exact inv.pq_dist e (hsub e he)
  · intro v hv kv hkv e he
    exact inv.vis_min v hv kv hkv e (hsub e he)

/-- Visiting a freshly popped cell and relaxing its neighbours preserves
the invariant. -/
theorem dij_visit_inv (m : Maze) (s : Coord) (st : DijState)
    (cost : Nat) (cur : Coord) (rest : List (Nat × Coord))
    (inv : DijInv m s st)
    (hpop : popMin dijLe st.pq = some ((cost, cur), rest))
    (hunvis : cur ∉ st.visited) :
    DijInv m s (dijRelax m cost cur
      { st with pq := rest, visited := cur :: st.visited }) := by
  obtain ⟨hdcur, hIsD⟩ := dij_pop_correct m s st inv cost cur rest hpop hunvis
  have hmempq : (cost, cur) ∈ st.pq := popMin_mem dijLe st.pq _ rest hpop
  have hmin := popMin_key_min dijLe Prod.fst dijLe_key_true dijLe_key_false
    st.pq (cost, cur) rest hpop
  have hsubrest : ∀ e ∈ rest, e ∈ st.pq := by
    intro e he
    exact (popMin_perm dijLe st.pq _ rest hpop).symm.subset
      (List.mem_cons_of_mem _ he)
  obtain ⟨dst, par, pq0, vis⟩ := st
  simp only at hdcur hunvis hmempq hmin hsubrest
  rw [dijRelax_eq]
  simp only
  set news := dijNews m cost cur dst with hnews
  have hndnews : news.Nodup := dijNews_nodup m cost cur dst
  have hstepnews : ∀ c ∈ news, step m cur c :=
    fun c hc => ((mem_dijNews m cost cur dst c).mp hc).1
  have hfresh : ∀ c ∈ news, c ∉ cur :: vis := by
    intro c hc hcv
    obtain ⟨hstepc, himp⟩ := (mem_dijNews m cost cur dst c).mp hc
    rcases List.mem_cons.mp hcv with rfl | hcvis
    · exact adjacent_ne c c hstepc.1 rfl
    · obtain ⟨kc, hkc, hkcd⟩ := inv.vis_dist c hcvis
      simp only at hkc
      rcases himp with h1 | ⟨d, h2, h3⟩
      · rw [hkc] at h1; cases h1
      · rw [hkc] at h2
        injection h2 with h2
        subst h2
        have := inv.vis_min c hcvis kc hkc (cost, cur) hmempq
        simp only at this
        omega
  have hcurnews : cur ∉ news := fun hc => hfresh cur hc (List.mem_cons_self _ _)
  have hsnews : s ∉ news := by
    intro hc
    obtain ⟨-, himp⟩ := (mem_dijNews m cost cur dst s).mp hc
    have hds := inv.dist_s
    simp only at hds
    rcases himp with h1 | ⟨d, h2, h3⟩
    · rw [hds] at h1; cases h1
    · rw [hds] at h2
      injection h2 with h2
      omega
  have hlk_news : ∀ c ∈ news,
      alookup ((news.map (fun c => (c, cost + 1))).reverse ++ dst) c =
        some (cost + 1) := by
    intro c hc
    apply alookup_append_left
    apply alookup_of_mem_nodup
    · exact List.mem_reverse.mpr (List.mem_map_of_mem _ hc)
    · rw [List.map_reverse, List.nodup_reverse]
      have hkeys : (news.map (fun c => (c, cost + 1))).map Prod.fst = news := by
        rw [List.map_map,
          show (Prod.fst ∘ fun c : Coord => (c, cost + 1)) = id from rfl]
        exact List.map_id news
      rw [hkeys]
      exact hndnews
  have hlk_old : ∀ c, c ∉ news →
      alookup ((news.map (fun c => (c, cost + 1))).reverse ++ dst) c =
        alookup dst c := by
    intro c hc
    apply alookup_append_not_mem
    intro kv hkv
    obtain ⟨z, hz, rfl⟩ := List.mem_map.mp (List.mem_reverse.mp hkv)
    intro hzc
    exact hc (by rw [← show z = c from hzc]; exact hz)
  have hpar_news : ∀ c ∈ news,
      alookup ((news.map (fun c => (c, some cur))).reverse ++ par) c =
        some (some cur) := by
    intro c hc
    apply alookup_append_left
    apply alookup_of_mem_nodup
    · exact List.mem_reverse.mpr (List.mem_map_of_mem _ hc)
    · rw [List.map_reverse, List.nodup_reverse]
      have hkeys : (news.map (fun c => (c, some cur))).map Prod.fst = news := by
        rw [List.map_map,
          show (Prod.fst ∘ fun c : Coord => (c, some cur)) = id from rfl]
        exact List.map_id news
      rw [hkeys]
      exact hndnews
  have hpar_old : ∀ c, c ∉ news →
      alookup ((news.map (fun c => (c, some cur))).reverse ++ par) c =
        alookup par c := by
    intro c hc
    apply alookup_append_not_mem
    intro kv hkv
    obtain ⟨z, hz, rfl⟩ := List.mem_map.mp (List.mem_reverse.mp hkv)
    intro hzc
    exact hc (by rw [← show z = c from hzc]; exact hz)
  have hd2 : ∀ v k,
      alookup ((news.map (fun c => (c, cost + 1))).reverse ++ dst) v = some k →
        (v ∈ news ∧ k = cost + 1) ∨ (v ∉ news ∧ alookup dst v = some k) := by
    intro v k h
    by_cases hv : v ∈ news
    · left
      rw [hlk_news v hv] at h
      injection h with h
      exact ⟨hv, h.symm⟩
    · right
      rw [hlk_old v hv] at h
      exact ⟨hv, h⟩
  refine
    { vis_nodup := ?_, vis_pass := ?_, dist_walk := ?_, dist_node_ok := ?_,
      dist_s := ?_, vis_dist := ?_, unvis_pq := ?_, pq_dist := ?_,
      vis_min := ?_, frontier := ?_, par_root := ?_, par_step := ?_ }
  · exact List.nodup_cons.mpr ⟨hunvis, inv.vis_nodup⟩
  · intro v hv
    rcases List.mem_cons.mp hv with rfl | hv2
    · exact inv.dist_node_ok v cost hdcur
    · exact inv.vis_pass v hv2
  · intro v k h
    rcases hd2 v k h with ⟨hvn, rfl⟩ | ⟨hvn, hvd⟩
    · obtain ⟨pw, hpw, hpwl⟩ := inv.dist_walk cur cost hdcur
      exact ⟨pw ++ [v], isWalk_snoc m s cur v pw hpw (hstepnews v hvn), by
        simp [hpwl]⟩
    · exact inv.dist_walk v k hvd
  · intro v k h
    rcases hd2 v k h with ⟨hvn, rfl⟩ | ⟨hvn, hvd⟩
    · exact Or.inr (hstepnews v hvn).2
    · exact inv.dist_node_ok v k hvd
  · rw [hlk_old s hsnews]
    exact inv.dist_s
  · intro v hv
    rcases List.mem_cons.mp hv with rfl | hv2
    · exact ⟨cost, by rw [hlk_old v hcurnews]; exact hdcur, hIsD⟩
    · obtain ⟨k, hk, hkd⟩ := inv.vis_dist v hv2
      have hvn : v ∉ news := by
        intro hc
        exact hfresh v hc (List.mem_cons_of_mem _ hv2)
      exact ⟨k, by rw [hlk_old v hvn]; exact hk, hkd⟩
  · intro v k h hvv
    rcases hd2 v k h with ⟨hvn, rfl⟩ | ⟨hvn, hvd⟩
    · exact List.mem_append.mpr (Or.inr (List.mem_map_of_mem _ hvn))
    · have hvv2 : v ∉ vis := fun hc => hvv (List.mem_cons_of_mem _ hc)
      have hvcur : v ≠ cur := fun hc => hvv (hc ▸ List.mem_cons_self _ _)
      have := inv.unvis_pq v k hvd hvv2
      refine List.mem_append.mpr (Or.inl
        (popMin_mem_rest dijLe pq0 (cost, cur) (k, v) rest hpop this ?_))
      intro hx
      rw [Prod.mk.injEq] at hx
      exact hvcur hx.2
  · intro e he
    rcases List.mem_append.mp he with he1 | he1
    · obtain ⟨k, hk, hkle⟩ := inv.pq_dist e (hsubrest e he1)
      by_cases hen : e.2 ∈ news
      · refine ⟨cost + 1, hlk_news e.2 hen, ?_⟩
        obtain ⟨-, himp⟩ := (mem_dijNews m cost cur dst e.2).mp hen
        rcases himp with h1 | ⟨d, h2, h3⟩
        · rw [hk] at h1; cases h1
        · rw [hk] at h2
          injection h2 with h2
          subst h2
          omega
      · exact ⟨k, by rw [hlk_old e.2 hen]; exact hk, hkle⟩
    · obtain ⟨c, hc, rfl⟩ := List.mem_map.mp he1
      exact ⟨cost + 1, hlk_news c hc, le_refl _⟩
  · intro v hv kv hkv e he
    rcases List.mem_cons.mp hv with rfl | hv2
    · have : kv = cost := by
        rw [hlk_old v hcurnews] at hkv
        rw [hdcur] at hkv
        injection hkv with h
        exact h.symm
      subst this
      rcases List.mem_append.mp he with he1 | he1
      · exact hmin e (hsubrest e he1)
      · obtain ⟨c, hc, rfl⟩ := List.mem_map.mp he1
        omega
    · have hvn : v ∉ news := fun hc => hfresh v hc (List.mem_cons_of_mem _ hv2)
      rw [hlk_old v hvn] at hkv
      rcases List.mem_append.mp he with he1 | he1
      · exact inv.vis_min v hv2 kv hkv e (hsubrest e he1)
      · obtain ⟨c, hc, rfl⟩ := List.mem_map.mp he1
        have := inv.vis_min v hv2 kv hkv (cost, cur) hmempq
        simp only at this ⊢
        omega
  · intro v hv c hstepc
    rcases List.mem_cons.mp hv with rfl | hv2
    · by_cases hcn : c ∈ news
      · refine ⟨cost + 1, hlk_news c hcn, ?_⟩
        intro kv hkv
        rw [hlk_old v hcurnews, hdcur] at hkv
        injection hkv with hkv
        omega
      · have hcd : ∃ d, alookup dst c = some d ∧ d ≤ cost + 1 := by
          have hnotmem := hcn
          rw [hnews, mem_dijNews] at hnotmem
          push_neg at hnotmem
          have h2 := hnotmem hstepc
          obtain ⟨h3, h4⟩ := h2
          cases hdc : alookup dst c with
          | none => exact absurd hdc h3
          | some d => exact ⟨d, rfl, h4 d hdc⟩
        obtain ⟨d, hdc, hdle⟩ := hcd
        refine ⟨d, by rw [hlk_old c hcn]; exact hdc, ?_⟩
        intro kv hkv
        rw [hlk_old v hcurnews, hdcur] at hkv
        injection hkv with hkv
        omega
    · obtain ⟨kc, hkc, hkcb⟩ := inv.frontier v hv2 c hstepc
      have hvn : v ∉ news := fun hc => hfresh v hc (List.mem_cons_of_mem _ hv2)
      by_cases hcn : c ∈ news
      · refine ⟨cost + 1, hlk_news c hcn, ?_⟩
        intro kv hkv
        rw [hlk_old v hvn] at hkv
        obtain ⟨-, himp⟩ := (mem_dijNews m cost cur dst c).mp hcn
        rcases himp with h1 | ⟨d, h2, h3⟩
        · rw [hkc] at h1; cases h1
        · rw [hkc] at h2
          injection h2 with h2
          subst h2
          have := hkcb kv hkv
          omega
      · refine ⟨kc, by rw [hlk_old c hcn]; exact hkc, ?_⟩
        intro kv hkv
        rw [hlk_old v hvn] at hkv
        exact hkcb kv hkv
  · rw [hpar_old s hsnews]
    exact inv.par_root
  · intro v k h hvs
    rcases hd2 v k h with ⟨hvn, rfl⟩ | ⟨hvn, hvd⟩
    · refine ⟨cur, cost, hpar_news v hvn, ?_, List.mem_cons_self _ _,
        hstepnews v hvn, rfl⟩
      rw [hlk_old cur hcurnews]
      exact hdcur
    · obtain ⟨u, ku, hu1, hu2, hu3, hu4, hu5⟩ := inv.par_step v k hvd hvs
      have hun : u ∉ news := fun hc => hfresh u hc (List.mem_cons_of_mem _ hu3)
      exact ⟨u, ku, by rw [hpar_old v hvn]; exact hu1,
        by rw [hlk_old u hun]; exact hu2, List.mem_cons_of_mem _ hu3, hu4, hu5⟩

/-- Discarding a stale entry shrinks the Dijkstra measure. -/
theorem dij_mu_discard (m : Maze) (st : DijState) (cost : Nat) (cur : Coord)
    (rest : List (Nat × Coord))
    (hpop : popMin dijLe st.pq = some ((cost, cur), rest)) :
    dijMu m { st with pq := rest } < dijMu m st := by
  have := (popMin_perm dijLe st.pq _ rest hpop).length_eq
  simp only [List.length_cons] at this
  simp only [dijMu]
  omega

/-- Visiting a popped cell shrinks the Dijkstra measure. -/
theorem dij_mu_visit (m : Maze) (s : Coord) (st : DijState) (cost : Nat)
    (cur : Coord) (rest : List (Nat × Coord)) (inv : DijInv m s st)
    (hpop : popMin dijLe st.pq = some ((cost, cur), rest))
    (hunvis : cur ∉ st.visited) :
    dijMu m (dijRelax m cost cur
      { st with pq := rest, visited := cur :: st.visited }) < dijMu m st := by
  have inv2 := dij_visit_inv m s st cost cur rest inv hpop hunvis
  have hcap : (dijRelax m cost cur
      { st with pq := rest, visited := cur :: st.visited }).visited.length ≤ NCap m :=
    nodup_length_le_cap m s _ inv2.vis_nodup inv2.vis_pass
  have hplen := (popMin_perm dijLe st.pq _ rest hpop).length_eq
  simp only [List.length_cons] at hplen
  have hnews : (dijNews m cost cur st.dist).length ≤ 4 :=
    le_trans (List.length_filter_le _ _) (neighbours_length_le _ _ _ _)
  rw [dijRelax_eq] at hcap ⊢
  simp only [dijMu, List.length_append, List.length_map, List.length_cons] at hcap ⊢
  omega

/-- Unfolding a Dijkstra step on an empty heap. -/
theorem dijRun_pop_none (m : Maze) (g : Coord) (recF f : Nat) (st : DijState)
    (hpop : popMin dijLe st.pq = none) :
    dijRun m g recF (f + 1) st = ([], Ending.exhausted) := by
  rw [dijRun, hpop]

/-- Unfolding a Dijkstra step that discards a stale entry. -/
theorem dijRun_discard (m : Maze) (g : Coord) (recF f : Nat) (st : DijState)
    (cost : Nat) (cur : Coord) (rest : List (Nat × Coord))
    (hpop : popMin dijLe st.pq = some ((cost, cur), rest))
    (hvis : cur ∈ st.visited) :
    dijRun m g recF (f + 1) st = dijRun m g recF f { st with pq := rest } := by
  rw [dijRun, hpop]
  simp only [if_pos hvis]

/-- Unfolding a Dijkstra step that pops the goal. -/
theorem dijRun_visit_goal (m : Maze) (g : Coord) (recF f : Nat) (st : DijState)
    (cost : Nat) (rest : List (Nat × Coord))
    (hpop : popMin dijLe st.pq = some ((cost, g), rest))
    (hunvis : g ∉ st.visited) :
    dijRun m g recF (f + 1) st =
      ([reconstruct recF st.parent g], Ending.reachedGoal) := by
  rw [dijRun, hpop]
  simp only [if_neg hunvis, if_pos rfl, if_true]

/-- Unfolding a Dijkstra step that visits a non-goal cell. -/
theorem dijRun_visit_cont (m : Maze) (g : Coord) (recF f : Nat) (st : DijState)
    (cost : Nat) (cur : Coord) (rest : List (Nat × Coord))
    (hpop : popMin dijLe st.pq = some ((cost, cur), rest))
    (hunvis : cur ∉ st.visited) (hne : cur ≠ g) :
    dijRun m g recF (f + 1) st =
      (reconstruct recF st.parent cur ::
        (dijRun m g recF f (dijRelax m cost cur
          { st with pq := rest, visited := cur :: st.visited })).1,
       (dijRun m g recF f (dijRelax m cost cur
          { st with pq := rest, visited := cur :: st.visited })).2) := by
  rw [dijRun, hpop]
  simp only [if_neg hunvis, if_neg hne]

/-- Reconstruction facts at a visited Dijkstra pop: the dist-domain parent
map yields a duplicate-free shortest walk. -/
theorem dij_reconstruct (m : Maze) (s : Coord) (st : DijState)
    (inv : DijInv m s st) (v : Coord) (k : Nat)
    (hk : alookup st.dist v = some k) (recF : Nat) (hrecF : NCap m ≤ recF) :
    IsWalk m s v (reconstruct recF st.parent v) ∧
    (reconstruct recF st.parent v).Nodup ∧
    (reconstruct recF st.parent v).length = k + 1 ∧ k < NCap m := by
  have hstep2 : ∀ z, (∃ kz, alookup st.dist z = some kz) → z ≠ s →
      ∃ u, alookup st.parent z = some (some u) ∧
        (∃ ku2, alookup st.dist u = some ku2) ∧ step m u z ∧
        (fun w => (alookup st.dist w).getD 0) u + 1 =
          (fun w => (alookup st.dist w).getD 0) z := by
    intro z hz hzs
    obtain ⟨kz, hkz⟩ := hz
    obtain ⟨u, ku, h1, h2, h3, h4, h5⟩ := inv.par_step z kz hkz hzs
    exact ⟨u, h1, ⟨ku, h2⟩, h4, by simp [h2, hkz]; omega⟩
  have hstep3 : ∀ z, (∃ kz, alookup st.dist z = some kz) → z ≠ s →
      ∃ u, alookup st.parent z = some (some u) ∧
        (∃ ku2, alookup st.dist u = some ku2) ∧ step m u z ∧
        (fun w => (alookup st.dist w).getD 0) u <
          (fun w => (alookup st.dist w).getD 0) z := by
    intro z hz hzs
    obtain ⟨u, h1, h2, h3, h4⟩ := hstep2 z hz hzs
    exact ⟨u, h1, h2, h3, by omega⟩
  have hs0 : (fun w => (alookup st.dist w).getD 0) s = 0 := by
    simp [inv.dist_s]
  have hDv : (fun w => (alookup st.dist w).getD 0) v = k := by simp [hk]
  have hlen := reconstruct_len m s (fun z => ∃ kz, alookup st.dist z = some kz)
    st.parent (fun w => (alookup st.dist w).getD 0) inv.par_root hs0 hstep2
    ((alookup st.dist v).getD 0) v ⟨k, hk⟩ (le_refl _) recF ?hf
  case hf =>
    -- the length bound comes from the nodup walk below; do it at capacity first
    have hspec0 := reconstruct_spec m s (fun z => ∃ kz, alookup st.dist z = some kz)
      st.parent (fun w => (alookup st.dist w).getD 0) inv.par_root hstep3
      ((alookup st.dist v).getD 0) v ⟨k, hk⟩ (le_refl _)
      ((alookup st.dist v).getD 0 + 1) (Nat.lt_succ_self _)
    have hlen0 := reconstruct_len m s (fun z => ∃ kz, alookup st.dist z = some kz)
      st.parent (fun w => (alookup st.dist w).getD 0) inv.par_root hs0 hstep2
      ((alookup st.dist v).getD 0) v ⟨k, hk⟩ (le_refl _)
      ((alookup st.dist v).getD 0 + 1) (Nat.lt_succ_self _)
    obtain ⟨-, hnd0, hmem0⟩ := hspec0
    have hok : ∀ c ∈ reconstruct ((alookup st.dist v).getD 0 + 1) st.parent v,
        c = s ∨ isPassage m c = true := by
      intro c hc
      obtain ⟨⟨kc, hkc⟩, -⟩ := hmem0 c hc
      exact inv.dist_node_ok c kc hkc
    have := nodup_length_le_cap m s _ hnd0 hok
    rw [hlen0] at this
    rw [hDv] at this ⊢
    omega
  have hspec := reconstruct_spec m s (fun z => ∃ kz, alookup st.dist z = some kz)
    st.parent (fun w => (alookup st.dist w).getD 0) inv.par_root hstep3
    ((alookup st.dist v).getD 0) v ⟨k, hk⟩ (le_refl _) recF ?hf2
  case hf2 =>
    have hspec0 := reconstruct_spec m s (fun z => ∃ kz, alookup st.dist z = some kz)
      st.parent (fun w => (alookup st.dist w).getD 0) inv.par_root hstep3
      ((alookup st.dist v).getD 0) v ⟨k, hk⟩ (le_refl _)
      ((alookup st.dist v).getD 0 + 1) (Nat.lt_succ_self _)
    have hlen0 := reconstruct_len m s (fun z => ∃ kz, alookup st.dist z = some kz)
      st.parent (fun w => (alookup st.dist w).getD 0) inv.par_root hs0 hstep2
      ((alookup st.dist v).getD 0) v ⟨k, hk⟩ (le_refl _)
      ((alookup st.dist v).getD 0 + 1) (Nat.lt_succ_self _)
    obtain ⟨-, hnd0, hmem0⟩ := hspec0
    have hok : ∀ c ∈ reconstruct ((alookup st.dist v).getD 0 + 1) st.parent v,
        c = s ∨ isPassage m c = true := by
      intro c hc
      obtain ⟨⟨kc, hkc⟩, -⟩ := hmem0 c hc
      exact inv.dist_node_ok c kc hkc
    have := nodup_length_le_cap m s _ hnd0 hok
    rw [hlen0] at this
    rw [hDv]
    omega
  obtain ⟨hwalk, hnd, hmem⟩ := hspec
  simp only [hk, Option.getD_some] at hlen
  refine ⟨hwalk, hnd, hlen, ?_⟩
  have hok : ∀ c ∈ reconstruct recF st.parent v,
      c = s ∨ isPassage m c = true := by
    intro c hc
    obtain ⟨⟨kc, hkc⟩, -⟩ := hmem c hc
    exact inv.dist_node_ok c kc hkc
  have := nodup_length_le_cap m s _ hnd hok
  rw [hlen] at this
  omega

/-- Every snapshot yielded by the Dijkstra loop is a simple path from the
start. -/
theorem dijRun_snapshots (m : Maze) (s g : Coord) (recF : Nat)
    (hrecF : NCap m ≤ recF) :
    ∀ f st, DijInv m s st →
      ∀ p ∈ (dijRun m g recF f st).1, SimpleSnapshot m s p := by
  intro f
  induction f with
  | zero =>
    intro st inv p hp
    simp [dijRun] at hp
  | succ f ih =>
    intro st inv p hp
    cases hpop : popMin dijLe st.pq with
    | none => rw [dijRun_pop_none m g recF f st hpop] at hp; simp at hp
    | some pr =>
      obtain ⟨⟨cost, cur⟩, rest⟩ := pr
      by_cases hvis : cur ∈ st.visited
      · rw [dijRun_discard m g recF f st cost cur rest hpop hvis] at hp
        exact ih _ (dij_discard_inv m s st cost cur rest inv hpop hvis) p hp
      · obtain ⟨hdcur, -⟩ := dij_pop_correct m s st inv cost cur rest hpop hvis
        obtain ⟨hwalk, hnd, -, -⟩ :=
          dij_reconstruct m s st inv cur cost hdcur recF hrecF
        have hsnap : SimpleSnapshot m s (reconstruct recF st.parent cur) :=
          ⟨hwalk.1, hwalk.2.1, isWalk_chain_adjacent m s cur _ hwalk, hnd,
            isWalk_tail_passage m s cur _ hwalk⟩
        by_cases hcg : cur = g
        · subst hcg
          rw [dijRun_visit_goal m cur recF f st cost rest hpop hvis] at hp
          simp only [List.mem_singleton] at hp
          subst hp
          exact hsnap
        · rw [dijRun_visit_cont m g recF f st cost cur rest hpop hvis hcg] at hp
          rcases List.mem_cons.mp hp with rfl | hp2
          · exact hsnap
          · exact ih _ (dij_visit_inv m s st cost cur rest inv hpop hvis) p hp2

/-- On an unreachable instance, the Dijkstra run ends by exhaustion and no
snapshot ever ends at the goal. -/
theorem dijRun_unreachable (m : Maze) (s g : Coord) (recF : Nat)
    (hnr : ¬ Reach m s g) :
    ∀ f st, DijInv m s st → dijMu m st < f →
      (dijRun m g recF f st).2 = Ending.exhausted ∧
      ∀ p ∈ (dijRun m g recF f st).1, p.getLast? ≠ some g := by
  intro f
  induction f with
  | zero =>
    intro st inv hmu
    omega
  | succ f ih =>
    intro st inv hmu
    cases hpop : popMin dijLe st.pq with
    | none => rw [dijRun_pop_none m g recF f st hpop]; exact ⟨rfl, by simp⟩
    | some pr =>
      obtain ⟨⟨cost, cur⟩, rest⟩ := pr
      have hmempq : (cost, cur) ∈ st.pq := popMin_mem dijLe st.pq _ rest hpop
      have hcg : cur ≠ g := by
        rintro rfl
        obtain ⟨kc, hkc, -⟩ := inv.pq_dist (cost, cur) hmempq
        obtain ⟨pw, hpw, -⟩ := inv.dist_walk cur kc hkc
        exact hnr ⟨pw, hpw⟩
      by_cases hvis : cur ∈ st.visited
      · rw [dijRun_discard m g recF f st cost cur rest hpop hvis]
        have hmu2 : dijMu m { st with pq := rest } < f := by
          have := dij_mu_discard m st cost cur rest hpop
          omega
        exact ih _ (dij_discard_inv m s st cost cur rest inv hpop hvis) hmu2
      · rw [dijRun_visit_cont m g recF f st cost cur rest hpop hvis hcg]
        have hmu2 : dijMu m (dijRelax m cost cur
            { st with pq := rest, visited := cur :: st.visited }) < f := by
          have := dij_mu_visit m s st cost cur rest inv hpop hvis
          omega
        obtain ⟨hend, hno⟩ :=
          ih _ (dij_visit_inv m s st cost cur rest inv hpop hvis) hmu2
        refine ⟨hend, ?_⟩
        intro p hp
        rcases List.mem_cons.mp hp with rfl | hp2
        · rw [reconstruct_getLast]
          intro hct
          exact hcg (Option.some_injective _ hct)
        · exact hno p hp2

/-- On a reachable instance, the Dijkstra run ends by popping the goal and
its final snapshot is a shortest route to the goal. -/
theorem dijRun_solvable (m : Maze) (s g : Coord) (recF : Nat)
    (hrecF : NCap m ≤ recF) (hr : Reach m s g) (k : Nat)
    (hk : IsDist m s g k) :
    ∀ f st, DijInv m s st → g ∉ st.visited → dijMu m st < f →
      (dijRun m g recF f st).2 = Ending.reachedGoal ∧
      ∃ p, (dijRun m g recF f st).1.getLast? = some p ∧
        p.getLast? = some g ∧ p.length = k + 1 := by
  intro f
  induction f with
  | zero =>
    intro st inv hg hmu
    omega
  | succ f ih =>
    intro st inv hg hmu
    cases hpop : popMin dijLe st.pq with
    | none =>
      exfalso
      have hqnil : st.pq = [] := (popMin_eq_none dijLe st.pq).mp hpop
      have hvd : ∀ v kv, alookup st.dist v = some kv → v ∈ st.visited := by
        intro v kv hkv
        by_contra hnv
        have := inv.unvis_pq v kv hkv hnv
        rw [hqnil] at this
        simp at this
      have hsv : s ∈ st.visited := hvd s 0 inv.dist_s
      have hclosed : ∀ v ∈ st.visited, ∀ c, step m v c → c ∈ st.visited := by
        intro v hv c hc
        obtain ⟨kc, hkc, -⟩ := inv.frontier v hv c hc
        exact hvd c kc hkc
      obtain ⟨pw, hpw⟩ := hr
      exact hg (closed_walk m st.visited hclosed s g pw hsv hpw)
    | some pr =>
      obtain ⟨⟨cost, cur⟩, rest⟩ := pr
      by_cases hvis : cur ∈ st.visited
      · rw [dijRun_discard m g recF f st cost cur rest hpop hvis]
        have hmu2 : dijMu m { st with pq := rest } < f := by
          have := dij_mu_discard m st cost cur rest hpop
          omega
        exact ih _ (dij_discard_inv m s st cost cur rest inv hpop hvis) hg hmu2
      · by_cases hcg : cur = g
        · subst hcg
          rw [dijRun_visit_goal m cur recF f st cost rest hpop hvis]
          obtain ⟨hdcur, hIsD⟩ := dij_pop_correct m s st inv cost cur rest hpop hvis
          have hck : cost = k := isDist_unique m s cur cost k hIsD hk
          obtain ⟨-, -, hlen, -⟩ :=
            dij_reconstruct m s st inv cur cost hdcur recF hrecF
          exact ⟨rfl, reconstruct recF st.parent cur, by simp,
            reconstruct_getLast _ _ _, by omega⟩
        · rw [dijRun_visit_cont m g recF f st cost cur rest hpop hvis hcg]
          have hmu2 : dijMu m (dijRelax m cost cur
              { st with pq := rest, visited := cur :: st.visited }) < f := by
            have := dij_mu_visit m s st cost cur rest inv hpop hvis
            omega
          have hg2 : g ∉ (dijRelax m cost cur
              { st with pq := rest, visited := cur :: st.visited }).visited := by
            rw [dijRelax_eq]
            simp only [List.mem_cons]
            rintro (rfl | hgv)
            · exact hcg rfl
            · exact hg hgv
          obtain ⟨hend, p, hp1, hp2, hp3⟩ :=
            ih _ (dij_visit_inv m s st cost cur rest inv hpop hvis) hg2 hmu2
          refine ⟨hend, p, ?_, hp2, hp3⟩
          cases hrec : (dijRun m g recF f (dijRelax m cost cur
              { st with pq := rest, visited := cur :: st.visited })).1 with
          | nil => rw [hrec] at hp1; simp at hp1
          | cons a l =>
            rw [hrec] at hp1
            rw [List.getLast?_cons_cons]
            exact hp1

/-! ## A* lemmas -/

/-- The A* heap order is monotone in the primary key `f`. -/
theorem aLe_key_true (a b : AEntry) (h : aLe a b = true) : a.f ≤ b.f := by
  by_contra hlt
  push_neg at hlt
  simp only [aLe, ne_eq, decide_eq_true_eq] at h
  apply h
  unfold cmpAEntry
  have hgt : cmpNat a.f b.f = Ordering.gt := by
    unfold cmpNat
    rw [if_neg (by omega), if_pos hlt]
  rw [hgt]
  rfl

/-- Failing the A* heap order bounds the primary key the other way. -/
theorem aLe_key_false (a b : AEntry) (h : aLe a b = false) : b.f ≤ a.f := by
  by_contra hlt
  push_neg at hlt
  simp only [aLe, ne_eq, decide_eq_false_iff_not, not_not] at h
  unfold cmpAEntry at h
  have hl : cmpNat a.f b.f = Ordering.lt := by
    unfold cmpNat
    rw [if_pos hlt]
  rw [hl] at h
  simp [Ordering.then] at h

/-- The Manhattan heuristic is consistent: it drops by at most one along a
4-adjacent move. -/
theorem manhattan_step (u v goal : Coord) (h : adjacent u v = true) :
    manhattan u goal ≤ 1 + manhattan v goal := by
  obtain ⟨ux, uy⟩ := u
  obtain ⟨vx, vy⟩ := v
  obtain ⟨gx, gy⟩ := goal
  simp only [adjacent, manhattan, decide_eq_true_eq] at h ⊢
  omega

/-- The endpoint of a walk is the start or a passage. -/
theorem isWalk_last_ok (m : Maze) (s t : Coord) (p : List Coord)
    (hw : IsWalk m s t p) : t = s ∨ isPassage m t = true := by
  rcases Nat.lt_or_ge p.length 2 with hlt | hge
  · left
    have h1 : 1 ≤ p.length := List.length_pos.mpr hw.1
    have hpe : p.length = 1 := by omega
    obtain ⟨a, rfl⟩ := List.length_eq_one.mp hpe
    obtain ⟨-, hh, hl, -⟩ := hw
    simp only [List.head?_cons, Option.some.injEq] at hh
    simp only [List.getLast?_singleton, Option.some.injEq] at hl
    rw [← hl]
    exact hh
  · right
    obtain ⟨q, u, -, -, hstep, -⟩ := isWalk_snoc_inv m s t p hw hge
    exact hstep.2

/-- Every member of a walk is in its interior or is the endpoint. -/
theorem isWalk_mem_split (m : Maze) (s t : Coord) (p : List Coord)
    (hw : IsWalk m s t p) : ∀ x ∈ p, x ∈ p.dropLast ∨ x = t := by
  intro x hx
  have hne : p ≠ [] := hw.1
  have hsplit := List.dropLast_append_getLast hne
  rw [← hsplit] at hx
  rcases List.mem_append.mp hx with h1 | h2
  · exact Or.inl h1
  · right
    rw [List.mem_singleton] at h2
    have hlast : p.getLast? = some (p.getLast hne) := List.getLast?_eq_getLast p hne
    have h3 : some t = some (p.getLast hne) := by rw [← hw.2.2.1, hlast]
    rw [h2]
    exact (Option.some_injective _ h3).symm

/-- Membership in the A* push list. -/
theorem mem_aNews (m : Maze) (cur : Coord) (V : List Coord) (c : Coord) :
    c ∈ aNews m cur V ↔ step m cur c ∧ c ∉ V := by
  simp only [aNews, List.mem_filter, Bool.not_eq_eq_eq_not, Bool.not_true,
    decide_eq_false_iff_not, not_or, step_iff]
  tauto

/-- Closed form of the A* push fold. -/
theorem aRelax_eq (m : Maze) (goal : Coord) (cost : Nat) (path : List Coord)
    (cur : Coord) (st : AStarState) :
    aRelax m goal cost path cur st =
      { pq := st.pq ++ (aNews m cur st.visited).map
          (fun c => { f := cost + 1 + manhattan c goal, g := cost + 1,
                      node := c, path := path ++ [c] }),
        visited := st.visited } := by
  have main : ∀ (ns : List Coord) (st0 : AStarState), st0.visited = st.visited →
      ns.foldl (aStepF m goal cost path) st0 =
      { pq := st0.pq ++ (ns.filter
          (fun c => !(decide (m.grid c.2 c.1 = 0 ∨ c ∈ st.visited)))).map
          (fun c => { f := cost + 1 + manhattan c goal, g := cost + 1,
                      node := c, path := path ++ [c] }),
        visited := st0.visited } := by
    intro ns
    induction ns with
    | nil => intro st0 h0; simp
    | cons n rest ih =>
      intro st0 h0
      rw [List.foldl_cons, List.filter_cons]
      by_cases hc : m.grid n.2 n.1 = 0 ∨ n ∈ st.visited
      · have hstepeq : aStepF m goal cost path st0 n = st0 := by
          unfold aStepF
          rw [if_pos (by rw [h0]; exact hc)]
        have hpred : (!(decide (m.grid n.2 n.1 = 0 ∨ n ∈ st.visited))) = false := by
          simp [hc]
        rw [hpred, hstepeq]
        simp only [Bool.false_eq_true, if_false]
        exact ih st0 h0
      · have hstepeq : aStepF m goal cost path st0 n =
            { st0 with pq := st0.pq ++
                [{ f := cost + 1 + manhattan n goal, g := cost + 1, node := n,
                   path := path ++ [n] }] } := by
          unfold aStepF
          rw [if_neg (by rw [h0]; exact hc)]
        have hpred : (!(decide (m.grid n.2 n.1 = 0 ∨ n ∈ st.visited))) = true := by
          simp [hc]
        rw [hstepeq]
        simp only [hpred, if_true]
        rw [ih { st0 with pq := st0.pq ++
            [{ f := cost + 1 + manhattan n goal, g := cost + 1, node := n,
               path := path ++ [n] }] } h0]
        simp [List.append_assoc]
  have h2 := main (neighbours cur.1 cur.2 m.w m.h) st rfl
  rw [aRelax, h2]
  rfl

/-- The initial A* state satisfies the invariant. -/
theorem a_init_inv (m : Maze) (s g : Coord) :
    AInv m s g { pq := [{ f := manhattan s g, g := 0, node := s, path := [s] }],
                 visited := [] } := by
  refine { vis_nodup := List.nodup_nil, vis_pass := by simp, vis_reach := by simp,
           pq_walk := ?_, pq_len := ?_, pq_f := ?_, pq_nd := ?_, pq_drop := ?_,
           closure := by simp, start := ?_ }
  · intro e he
    rw [List.mem_singleton] at he
    subst he
    exact isWalk_single m s
  · intro e he
    rw [List.mem_singleton] at he
    subst he
    simp
  · intro e he
    rw [List.mem_singleton] at he
    subst he
    simp
  · intro e he
    rw [List.mem_singleton] at he
    subst he
    exact List.nodup_singleton _
  · intro e he
    rw [List.mem_singleton] at he
    subst he
    simp
  · exact Or.inr ⟨_, List.mem_singleton_self _, rfl, rfl⟩

/-- Any lower bound on the heap's `f` keys prices every walk to an unvisited
cell through the heuristic. -/
theorem a_unvisited_lb (m : Maze) (s goal : Coord) (st : AStarState)
    (inv : AInv m s goal st) (fmin : Nat) (hmin : ∀ e ∈ st.pq, fmin ≤ e.f) :
    ∀ p t, IsWalk m s t p → t ∉ st.visited →
      fmin ≤ (p.length - 1) + manhattan t goal := by
  suffices H : ∀ n p t, p.length ≤ n → IsWalk m s t p → t ∉ st.visited →
      fmin ≤ (p.length - 1) + manhattan t goal by
    exact fun p t hw ht => H p.length p t (le_refl _) hw ht
  intro n
  induction n with
  | zero =>
    intro p t hlen hw ht
    have := List.length_pos.mpr hw.1
    omega
  | succ n ih =>
    intro p t hlen hw ht
    have hp1 : 1 ≤ p.length := List.length_pos.mpr hw.1
    rcases Nat.lt_or_ge p.length 2 with hlt | hge
    · have hpe : p.length = 1 := by omega
      obtain ⟨a, rfl⟩ := List.length_eq_one.mp hpe
      obtain ⟨-, hh, hl, -⟩ := hw
      simp only [List.head?_cons, Option.some.injEq] at hh
      simp only [List.getLast?_singleton, Option.some.injEq] at hl
      have hts : t = s := by rw [← hl]; exact hh
      subst hts
      rcases inv.start with hsv | ⟨e0, he0, hn0, hg0⟩
      · exact absurd hsv ht
      · have hf0 : e0.f = e0.g + manhattan e0.node goal := inv.pq_f e0 he0
        have := hmin e0 he0
        rw [hn0] at hf0
        simp only [List.length_singleton]
        omega
    · obtain ⟨q, u, hpq, hwq, hstep, hql⟩ := isWalk_snoc_inv m s t p hw hge
      have hq1 : 1 ≤ q.length := List.length_pos.mpr hwq.1
      by_cases hu : u ∈ st.visited
      · obtain ⟨kv, hkv⟩ := isDist_exists m s u (inv.vis_reach u hu)
        rcases inv.closure u hu kv hkv t hstep with htv | ⟨e2, he2, hn2, hg2⟩
        · exact absurd htv ht
        · have hkq : kv + 1 ≤ q.length := hkv.2 q hwq
          have hf2 : e2.f = e2.g + manhattan e2.node goal := inv.pq_f e2 he2
          rw [hn2] at hf2
          have := hmin e2 he2
          omega
      · have hih := ih q u (by omega) hwq hu
        have hman := manhattan_step u t goal hstep.1
        omega

/-- An unvisited entry popped from the A* heap carries an exact shortest
`g`-value. -/
theorem a_pop_correct (m : Maze) (s goal : Coord) (st : AStarState)
    (inv : AInv m s goal st) (e : AEntry) (rest : List AEntry)
    (hpop : popMin aLe st.pq = some (e, rest))
    (hunvis : e.node ∉ st.visited) (k : Nat) (hk : IsDist m s e.node k) :
    e.g = k := by
  have hmem := popMin_mem aLe st.pq e rest hpop
  have hmin := popMin_key_min aLe (fun a => a.f) aLe_key_true aLe_key_false
    st.pq e rest hpop
  have hle : k + 1 ≤ e.path.length := hk.2 e.path (inv.pq_walk e hmem)
  have hplen : e.path.length = e.g + 1 := inv.pq_len e hmem
  obtain ⟨⟨p, hp, hplen2⟩, -⟩ := hk
  have hlb := a_unvisited_lb m s goal st inv e.f hmin p e.node hp hunvis
  have hf : e.f = e.g + manhattan e.node goal := inv.pq_f e hmem
  omega

/-- Discarding a stale A* heap entry preserves the invariant. -/
theorem a_discard_inv (m : Maze) (s goal : Coord) (st : AStarState)
    (e : AEntry) (rest : List AEntry) (inv : AInv m s goal st)
    (hpop : popMin aLe st.pq = some (e, rest))
    (hvis : e.node ∈ st.visited) :
    AInv m s goal { st with pq := rest } := by
  have hperm := popMin_perm aLe st.pq e rest hpop
  have hsub : ∀ x ∈ rest, x ∈ st.pq := by
    intro x hx
    exact hperm.symm.subset (List.mem_cons_of_mem _ hx)
  refine
    { vis_nodup := inv.vis_nodup, vis_pass := inv.vis_pass,
      vis_reach := inv.vis_reach,
      pq_walk := fun x hx => inv.pq_walk x (hsub x hx),
      pq_len := fun x hx => inv.pq_len x (hsub x hx),
      pq_f := fun x hx => inv.pq_f x (hsub x hx),
      pq_nd := fun x hx => inv.pq_nd x (hsub x hx),
      pq_drop := fun x hx => inv.pq_drop x (hsub x hx),
      closure := ?_, start := ?_ }
  · intro v hv kv hkv c hc
    rcases inv.closure v hv kv hkv c hc with hcv | ⟨e2, he2, hn2, hg2⟩
    · exact Or.inl hcv
    · rcases List.mem_cons.mp (hperm.subset he2) with rfl | h2
      · exact Or.inl (hn2 ▸ hvis)
      · exact Or.inr ⟨e2, h2, hn2, hg2⟩
  · rcases inv.start with hsv | ⟨e0, he0, hn0, hg0⟩
    · exact Or.inl hsv
    · rcases List.mem_cons.mp (hperm.subset he0) with rfl | h2
      · exact Or.inl (hn0 ▸ hvis)
      · exact Or.inr ⟨e0, h2, hn0, hg0⟩

/-- Visiting a popped A* entry and pushing its extensions preserves the
invariant. -/
theorem a_visit_inv (m : Maze) (s goal : Coord) (st : AStarState)
    (e : AEntry) (rest : List AEntry) (inv : AInv m s goal st)
    (hpop : popMin aLe st.pq = some (e, rest))
    (hunvis : e.node ∉ st.visited) :
    AInv m s goal (aRelax m goal e.g e.path e.node
      { st with pq := rest, visited := e.node :: st.visited }) := by
  have hperm := popMin_perm aLe st.pq e rest hpop
  have hmem : e ∈ st.pq := popMin_mem aLe st.pq e rest hpop
  have hsub : ∀ x ∈ rest, x ∈ st.pq := by
    intro x hx
    exact hperm.symm.subset (List.mem_cons_of_mem _ hx)
  have hwalkE := inv.pq_walk e hmem
  have hlenE := inv.pq_len e hmem
  have hndE := inv.pq_nd e hmem
  have hdropE := inv.pq_drop e hmem
  have hmemsplit : ∀ x ∈ e.path, x ∈ e.node :: st.visited := by
    intro x hx
    rcases isWalk_mem_split m s e.node e.path hwalkE x hx with h1 | rfl
    · exact List.mem_cons_of_mem _ (hdropE x h1)
    · exact List.mem_cons_self _ _
  rw [aRelax_eq]
  simp only
  refine
    { vis_nodup := List.nodup_cons.mpr ⟨hunvis, inv.vis_nodup⟩,
      vis_pass := ?_, vis_reach := ?_, pq_walk := ?_, pq_len := ?_,
      pq_f := ?_, pq_nd := ?_, pq_drop := ?_, closure := ?_, start := ?_ }
  · intro v hv
    rcases List.mem_cons.mp hv with rfl | hv2
    · exact isWalk_last_ok m s e.node e.path hwalkE
    · exact inv.vis_pass v hv2
  · intro v hv
    rcases List.mem_cons.mp hv with rfl | hv2
    · exact ⟨e.path, hwalkE⟩
    · exact inv.vis_reach v hv2
  · intro x hx
    rcases List.mem_append.mp hx with h1 | h2
    · exact inv.pq_walk x (hsub x h1)
    · obtain ⟨c, hc, rfl⟩ := List.mem_map.mp h2
      exact isWalk_snoc m s e.node c e.path hwalkE ((mem_aNews m _ _ c).mp hc).1
  · intro x hx
    rcases List.mem_append.mp hx with h1 | h2
    · exact inv.pq_len x (hsub x h1)
    · obtain ⟨c, hc, rfl⟩ := List.mem_map.mp h2
      simp [hlenE]
  · intro x hx
    rcases List.mem_append.mp hx with h1 | h2
    · exact inv.pq_f x (hsub x h1)
    · obtain ⟨c, hc, rfl⟩ := List.mem_map.mp h2
      rfl
  · intro x hx
    rcases List.mem_append.mp hx with h1 | h2
    · exact inv.pq_nd x (hsub x h1)
    · obtain ⟨c, hc, rfl⟩ := List.mem_map.mp h2
      have hcn : c ∉ e.path := by
        intro hcp
        exact ((mem_aNews m _ _ c).mp hc).2 (hmemsplit c hcp)
      simp only
      rw [List.nodup_append]
      exact ⟨hndE, List.nodup_singleton _, by
        intro a ha hac
        rw [List.mem_singleton] at hac
        subst hac
        exact hcn ha⟩
  · intro x hx
    rcases List.mem_append.mp hx with h1 | h2
    · intro y hy
      exact List.mem_cons_of_mem _ (inv.pq_drop x (hsub x h1) y hy)
    · obtain ⟨c, hc, rfl⟩ := List.mem_map.mp h2
      intro y hy
      simp only [List.dropLast_concat] at hy
      exact hmemsplit y hy
  · intro v hv kv hkv c hc
    rcases List.mem_cons.mp hv with rfl | hv2
    · have hgk : e.g = kv := a_pop_correct m s goal st inv e rest hpop hunvis kv hkv
      by_cases hcv : c ∈ e.node :: st.visited
      · exact Or.inl hcv
      · refine Or.inr ⟨_, List.mem_append_right _
          (List.mem_map_of_mem _ ((mem_aNews m _ _ c).mpr ⟨hc, hcv⟩)), rfl, ?_⟩
        show e.g + 1 ≤ kv + 1
        omega
    · rcases inv.closure v hv2 kv hkv c hc with hcv | ⟨e2, he2, hn2, hg2⟩
      · exact Or.inl (List.mem_cons_of_mem _ hcv)
      · rcases List.mem_cons.mp (hperm.subset he2) with rfl | h2
        · exact Or.inl (hn2 ▸ List.mem_cons_self _ _)
        · exact Or.inr ⟨e2, List.mem_append_left _ h2, hn2, hg2⟩
  · rcases inv.start with hsv | ⟨e0, he0, hn0, hg0⟩
    · exact Or.inl (List.mem_cons_of_mem _ hsv)
    · rcases List.mem_cons.mp (hperm.subset he0) with rfl | h2
      · exact Or.inl (hn0 ▸ List.mem_cons_self _ _)
      · exact Or.inr ⟨e0, List.mem_append_left _ h2, hn0, hg0⟩

/-- Discarding a stale entry shrinks the A* measure. -/
theorem a_mu_discard (m : Maze) (st : AStarState) (e : AEntry)
    (rest : List AEntry) (hpop : popMin aLe st.pq = some (e, rest)) :
    aMu m { st with pq := rest } < aMu m st := by
  have := (popMin_perm aLe st.pq e rest hpop).length_eq
  simp only [List.length_cons] at this
  simp only [aMu]
  omega

/-- Visiting a popped entry shrinks the A* measure. -/
theorem a_mu_visit (m : Maze) (s goal : Coord) (st : AStarState) (e : AEntry)
    (rest : List AEntry) (inv : AInv m s goal st)
    (hpop : popMin aLe st.pq = some (e, rest))
    (hunvis : e.node ∉ st.visited) :
    aMu m (aRelax m goal e.g e.path e.node
      { st with pq := rest, visited := e.node :: st.visited }) < aMu m st := by
  have inv2 := a_visit_inv m s goal st e rest inv hpop hunvis
  have hcap : (aRelax m goal e.g e.path e.node
      { st with pq := rest, visited := e.node :: st.visited }).visited.length
        ≤ NCap m :=
    nodup_length_le_cap m s _ inv2.vis_nodup inv2.vis_pass
  have hplen := (popMin_perm aLe st.pq e rest hpop).length_eq
  simp only [List.length_cons] at hplen
  have hnews : (aNews m e.node (e.node :: st.visited)).length ≤ 4 :=
    le_trans (List.length_filter_le _ _) (neighbours_length_le _ _ _ _)
  rw [aRelax_eq] at hcap ⊢
  simp only [aMu, List.length_append, List.length_map, List.length_cons] at hcap ⊢
  omega

/-- Unfolding an A* step on an empty heap. -/
theorem aRun_pop_none (m : Maze) (goal : Coord) (f : Nat) (st : AStarState)
    (hpop : popMin aLe st.pq = none) :
    aRun m goal (f + 1) st = ([], Ending.exhausted) := by
  rw [aRun, hpop]

/-- Unfolding an A* step that discards a stale entry. -/
theorem aRun_discard (m : Maze) (goal : Coord) (f : Nat) (st : AStarState)
    (e : AEntry) (rest : List AEntry)
    (hpop : popMin aLe st.pq = some (e, rest))
    (hvis : e.node ∈ st.visited) :
    aRun m goal (f + 1) st = aRun m goal f { st with pq := rest } := by
  rw [aRun, hpop]
  simp only [if_pos hvis]

/-- Unfolding an A* step that pops an entry at the goal. -/
theorem aRun_visit_goal (m : Maze) (goal : Coord) (f : Nat) (st : AStarState)
    (e : AEntry) (rest : List AEntry)
    (hpop : popMin aLe st.pq = some (e, rest))
    (hunvis : e.node ∉ st.visited) (hng : e.node = goal) :
    aRun m goal (f + 1) st = ([e.path], Ending.reachedGoal) := by
  rw [aRun, hpop]
  simp only [if_neg hunvis, if_pos hng, if_true]

/-- Unfolding an A* step that visits a non-goal entry. -/
theorem aRun_visit_cont (m : Maze) (goal : Coord) (f : Nat) (st : AStarState)
    (e : AEntry) (rest : List AEntry)
    (hpop : popMin aLe st.pq = some (e, rest))
    (hunvis : e.node ∉ st.visited) (hng : e.node ≠ goal) :
    aRun m goal (f + 1) st =
      (e.path :: (aRun m goal f (aRelax m goal e.g e.path e.node
          { st with pq := rest, visited := e.node :: st.visited })).1,
       (aRun m goal f (aRelax m goal e.g e.path e.node
          { st with pq := rest, visited := e.node :: st.visited })).2) := by
  rw [aRun, hpop]
  simp only [if_neg hunvis, if_neg hng]

/-- Every snapshot yielded by the A* loop is a simple path from the
start. -/
theorem aRun_snapshots (m : Maze) (s g : Coord) :
    ∀ f st, AInv m s g st →
      ∀ p ∈ (aRun m g f st).1, SimpleSnapshot m s p := by
  intro f
  induction f with
  | zero =>
    intro st inv p hp
    simp [aRun] at hp
  | succ f ih =>
    intro st inv p hp
    cases hpop : popMin aLe st.pq with
    | none => rw [aRun_pop_none m g f st hpop] at hp; simp at hp
    | some pr =>
      obtain ⟨e, rest⟩ := pr
      by_cases hvis : e.node ∈ st.visited
      · rw [aRun_discard m g f st e rest hpop hvis] at hp
        exact ih _ (a_discard_inv m s g st e rest inv hpop hvis) p hp
      · have hmem : e ∈ st.pq := popMin_mem aLe st.pq e rest hpop
        have hwalk := inv.pq_walk e hmem
        have hsnap : SimpleSnapshot m s e.path :=
          ⟨hwalk.1, hwalk.2.1, isWalk_chain_adjacent m s e.node _ hwalk,
            inv.pq_nd e hmem, isWalk_tail_passage m s e.node _ hwalk⟩
        by_cases hng : e.node = g
        · rw [aRun_visit_goal m g f st e rest hpop hvis hng] at hp
          simp only [List.mem_singleton] at hp
          subst hp
          exact hsnap
        · rw [aRun_visit_cont m g f st e rest hpop hvis hng] at hp
          rcases List.mem_cons.mp hp with rfl | hp2
          · exact hsnap
          · exact ih _ (a_visit_inv m s g st e rest inv hpop hvis) p hp2

/-- On an unreachable instance, the A* run ends by exhaustion and no
snapshot ever ends at the goal. -/
theorem aRun_unreachable (m : Maze) (s g : Coord) (hnr : ¬ Reach m s g) :
    ∀ f st, AInv m s g st → aMu m st < f →
      (aRun m g f st).2 = Ending.exhausted ∧
      ∀ p ∈ (aRun m g f st).1, p.getLast? ≠ some g := by
  intro f
  induction f with
  | zero =>
    intro st inv hmu
    omega
  | succ f ih =>
    intro st inv hmu
    cases hpop : popMin aLe st.pq with
    | none => rw [aRun_pop_none m g f st hpop]; exact ⟨rfl, by simp⟩
    | some pr =>
      obtain ⟨e, rest⟩ := pr
      have hmem : e ∈ st.pq := popMin_mem aLe st.pq e rest hpop
      have hng : e.node ≠ g := by
        rintro hh
        exact hnr ⟨e.path, hh ▸ inv.pq_walk e hmem⟩
      by_cases hvis : e.node ∈ st.visited
      · rw [aRun_discard m g f st e rest hpop hvis]
        have hmu2 : aMu m { st with pq := rest } < f := by
          have := a_mu_discard m st e rest hpop
          omega
        exact ih _ (a_discard_inv m s g st e rest inv hpop hvis) hmu2
      · rw [aRun_visit_cont m g f st e rest hpop hvis hng]
        have hmu2 : aMu m (aRelax m g e.g e.path e.node
            { st with pq := rest, visited := e.node :: st.visited }) < f := by
          have := a_mu_visit m s g st e rest inv hpop hvis
          omega
        obtain ⟨hend, hno⟩ :=
          ih _ (a_visit_inv m s g st e rest inv hpop hvis) hmu2
        refine ⟨hend, ?_⟩
        intro p hp
        rcases List.mem_cons.mp hp with rfl | hp2
        · rw [(inv.pq_walk e hmem).2.2.1]
          intro hct
          exact hng (Option.some_injective _ hct)
        · exact hno p hp2

/-- On a reachable instance, the A* run ends by popping the goal and its
final snapshot is a shortest route to the goal. -/
theorem aRun_solvable (m : Maze) (s g : Coord) (hr : Reach m s g) (k : Nat)
    (hk : IsDist m s g k) :
    ∀ f st, AInv m s g st → g ∉ st.visited → aMu m st < f →
      (aRun m g f st).2 = Ending.reachedGoal ∧
      ∃ p, (aRun m g f st).1.getLast? = some p ∧
        p.getLast? = some g ∧ p.length = k + 1 := by
  intro f
  induction f with
  | zero =>
    intro st inv hg hmu
    omega
  | succ f ih =>
    intro st inv hg hmu
    cases hpop : popMin aLe st.pq with
    | none =>
      exfalso
      have hqnil : st.pq = [] := (popMin_eq_none aLe st.pq).mp hpop
      have hsv : s ∈ st.visited := by
        rcases inv.start with h1 | ⟨e0, he0, -⟩
        · exact h1
        · rw [hqnil] at he0
          simp at he0
      have hclosed : ∀ v ∈ st.visited, ∀ c, step m v c → c ∈ st.visited := by
        intro v hv c hc
        obtain ⟨kv, hkv⟩ := isDist_exists m s v (inv.vis_reach v hv)
        rcases inv.closure v hv kv hkv c hc with h1 | ⟨e2, he2, -⟩
        · exact h1
        · rw [hqnil] at he2
          simp at he2
      obtain ⟨pw, hpw⟩ := hr
      exact hg (closed_walk m st.visited hclosed s g pw hsv hpw)
    | some pr =>
      obtain ⟨e, rest⟩ := pr
      by_cases hvis : e.node ∈ st.visited
      · rw [aRun_discard m g f st e rest hpop hvis]
        have hmu2 : aMu m { st with pq := rest } < f := by
          have := a_mu_discard m st e rest hpop
          omega
        exact ih _ (a_discard_inv m s g st e rest inv hpop hvis) hg hmu2
      · by_cases hng : e.node = g
        · rw [aRun_visit_goal m g f st e rest hpop hvis hng]
          have hmem : e ∈ st.pq := popMin_mem aLe st.pq e rest hpop
          have hgk : e.g = k :=
            a_pop_correct m s g st inv e rest hpop hvis k (hng ▸ hk)
          have hplen := inv.pq_len e hmem
          refine ⟨rfl, e.path, by simp, ?_, by omega⟩
          rw [(inv.pq_walk e hmem).2.2.1, hng]
        · rw [aRun_visit_cont m g f st e rest hpop hvis hng]
          have hmu2 : aMu m (aRelax m g e.g e.path e.node
              { st with pq := rest, visited := e.node :: st.visited }) < f := by
            have := a_mu_visit m s g st e rest inv hpop hvis
            omega
          have hg2 : g ∉ (aRelax m g e.g e.path e.node
              { st with pq := rest, visited := e.node :: st.visited }).visited := by
            rw [aRelax_eq]
            simp only [List.mem_cons]
            rintro (rfl | hgv)
            · exact hng rfl
            · exact hg hgv
          obtain ⟨hend, p, hp1, hp2, hp3⟩ :=
            ih _ (a_visit_inv m s g st e rest inv hpop hvis) hg2 hmu2
          refine ⟨hend, p, ?_, hp2, hp3⟩
          cases hrec : (aRun m g f (aRelax m g e.g e.path e.node
              { st with pq := rest, visited := e.node :: st.visited })).1 with
          | nil => rw [hrec] at hp1; simp at hp1
          | cons a l =>
            rw [hrec] at hp1
            rw [List.getLast?_cons_cons]
            exact hp1

/-- C1: on every solvable instance, BFS, Dijkstra and A* each end by
reaching the goal, their final snapshots end at the goal and have length
(in cells) exactly one more than the minimum route length (in edges), so
their edge counts agree and are optimal; DFS also ends at the goal and its
final snapshot is at least that long. -/
theorem C1_optimality (m : Maze) (s g : Coord) (h : Solvable m s g) :
    ∃ k, MinRouteLen m s g k ∧
      ((BFS m s g).2 = Ending.reachedGoal ∧
        ∃ p, (BFS m s g).1.getLast? = some p ∧ p.getLast? = some g ∧
          p.length = k + 1) ∧
      ((Dijkstra m s g).2 = Ending.reachedGoal ∧
        ∃ p, (Dijkstra m s g).1.getLast? = some p ∧ p.getLast? = some g ∧
          p.length = k + 1) ∧
      ((AStar m s g).2 = Ending.reachedGoal ∧
        ∃ p, (AStar m s g).1.getLast? = some p ∧ p.getLast? = some g ∧
          p.length = k + 1) ∧
      ((DFS m s g).2 = Ending.reachedGoal ∧
        ∃ p, (DFS m s g).1.getLast? = some p ∧ p.getLast? = some g ∧
          k + 1 ≤ p.length) := by
  obtain ⟨hpass, hr⟩ := h
  obtain ⟨k, hk⟩ := isDist_exists m s g hr
  have hcap2 : NCap m ≤ 2 * (m.w * m.h) + 4 := by simp only [NCap]; omega
  have hcap5 : NCap m ≤ 5 * (m.w * m.h) + 7 := by simp only [NCap]; omega
  refine ⟨k, hk, ?_, ?_, ?_, ?_⟩
  · have := bfsRun_solvable m s g (2 * (m.w * m.h) + 4) hcap2 hr k hk
      (2 * (m.w * m.h) + 4)
      { queue := [s], parent := [(s, none)], visited := [s] } (fun _ => 0)
      (bfs_init_inv m s g) (by simp [bfsMu, NCap]; omega)
    exact this
  · have := dijRun_solvable m s g (5 * (m.w * m.h) + 7) hcap5 hr k hk
      (5 * (m.w * m.h) + 7)
      { dist := [(s, 0)], parent := [(s, none)], pq := [(0, s)], visited := [] }
      (dij_init_inv m s) (by simp) (by simp [dijMu, NCap]; omega)
    exact this
  · have := aRun_solvable m s g hr k hk (5 * (m.w * m.h) + 7)
      { pq := [{ f := manhattan s g, g := 0, node := s, path := [s] }],
        visited := [] }
      (a_init_inv m s g) (by simp) (by simp [aMu, NCap]; omega)
    exact this
  · obtain ⟨hend, p, hp1, hp2, hp3⟩ := dfsRun_solvable m s g
      (2 * (m.w * m.h) + 4) hcap2 hr (2 * (m.w * m.h) + 4)
      { stack := [s], parent := [(s, none)], visited := [s] } (fun _ => 0)
      (dfs_init_inv m s g) (by simp [dfsMu, NCap]; omega)
    exact ⟨hend, p, hp1, hp2, hk.2 p hp3⟩

/-- A concrete one-edge walk across the open 2×1 grid. -/
theorem mzOpen_walk : IsWalk mzOpen (0, 0) (1, 0) [(0, 0), (1, 0)] := by
  refine ⟨by simp, rfl, rfl, ?_⟩
  exact List.chain'_cons.mpr ⟨⟨by decide, by decide⟩, List.chain'_singleton _⟩

/-- C1 witness: the all-passage 2×1 grid with start `(0,0)` and goal
`(1,0)` is solvable, and the claim's conclusion holds on it. -/
theorem C1_optimality_witness :
    Solvable mzOpen (0, 0) (1, 0) ∧
    ∃ k, MinRouteLen mzOpen (0, 0) (1, 0) k ∧
      ((BFS mzOpen (0, 0) (1, 0)).2 = Ending.reachedGoal ∧
        ∃ p, (BFS mzOpen (0, 0) (1, 0)).1.getLast? = some p ∧
          p.getLast? = some (1, 0) ∧ p.length = k + 1) ∧
      ((Dijkstra mzOpen (0, 0) (1, 0)).2 = Ending.reachedGoal ∧
        ∃ p, (Dijkstra mzOpen (0, 0) (1, 0)).1.getLast? = some p ∧
          p.getLast? = some (1, 0) ∧ p.length = k + 1) ∧
      ((AStar mzOpen (0, 0) (1, 0)).2 = Ending.reachedGoal ∧
        ∃ p, (AStar mzOpen (0, 0) (1, 0)).1.getLast? = some p ∧
          p.getLast? = some (1, 0) ∧ p.length = k + 1) ∧
      ((DFS mzOpen (0, 0) (1, 0)).2 = Ending.reachedGoal ∧
        ∃ p, (DFS mzOpen (0, 0) (1, 0)).1.getLast? = some p ∧
          p.getLast? = some (1, 0) ∧ k + 1 ≤ p.length) :=
  ⟨⟨by decide, ⟨[(0, 0), (1, 0)], mzOpen_walk⟩⟩,
   C1_optimality mzOpen (0, 0) (1, 0)
     ⟨by decide, ⟨[(0, 0), (1, 0)], mzOpen_walk⟩⟩⟩

/-- C4: when the goal is unreachable from the start through passage cells,
all four solvers end by exhaustion and no yielded snapshot ends at the
goal. -/
theorem C4_unreachable (m : Maze) (s g : Coord) (hnr : ¬ Reach m s g) :
    (BFS m s g).2 = Ending.exhausted ∧ (DFS m s g).2 = Ending.exhausted ∧
    (Dijkstra m s g).2 = Ending.exhausted ∧
    (AStar m s g).2 = Ending.exhausted ∧
    (∀ p ∈ (BFS m s g).1, p.getLast? ≠ some g) ∧
    (∀ p ∈ (DFS m s g).1, p.getLast? ≠ some g) ∧
    (∀ p ∈ (Dijkstra m s g).1, p.getLast? ≠ some g) ∧
    (∀ p ∈ (AStar m s g).1, p.getLast? ≠ some g) := by
  obtain ⟨hb1, hb2⟩ := bfsRun_unreachable m s g (2 * (m.w * m.h) + 4) hnr
    (2 * (m.w * m.h) + 4)
    { queue := [s], parent := [(s, none)], visited := [s] } (fun _ => 0)
    (bfs_init_inv m s g) (by simp [bfsMu, NCap]; omega)
  obtain ⟨hf1, hf2⟩ := dfsRun_unreachable m s g (2 * (m.w * m.h) + 4) hnr
    (2 * (m.w * m.h) + 4)
    { stack := [s], parent := [(s, none)], visited := [s] } (fun _ => 0)
    (dfs_init_inv m s g) (by simp [dfsMu, NCap]; omega)
  obtain ⟨hd1, hd2⟩ := dijRun_unreachable m s g (5 * (m.w * m.h) + 7) hnr
    (5 * (m.w * m.h) + 7)
    { dist := [(s, 0)], parent := [(s, none)], pq := [(0, s)], visited := [] }
    (dij_init_inv m s) (by simp [dijMu, NCap]; omega)
  obtain ⟨ha1, ha2⟩ := aRun_unreachable m s g hnr (5 * (m.w * m.h) + 7)
    { pq := [{ f := manhattan s g, g := 0, node := s, path := [s] }],
      visited := [] }
    (a_init_inv m s g) (by simp [aMu, NCap]; omega)
  exact ⟨hb1, hf1, hd1, ha1, hb2, hf2, hd2, ha2⟩

/-- C4 witness: on the 2×1 grid whose goal cell is a wall, the goal is
unreachable and the claim's conclusion holds. -/
theorem C4_unreachable_witness :
    (¬ Reach mzWall (0, 0) (1, 0)) ∧
    ((BFS mzWall (0, 0) (1, 0)).2 = Ending.exhausted ∧
     (DFS mzWall (0, 0) (1, 0)).2 = Ending.exhausted ∧
     (Dijkstra mzWall (0, 0) (1, 0)).2 = Ending.exhausted ∧
     (AStar mzWall (0, 0) (1, 0)).2 = Ending.exhausted ∧
     (∀ p ∈ (BFS mzWall (0, 0) (1, 0)).1, p.getLast? ≠ some (1, 0)) ∧
     (∀ p ∈ (DFS mzWall (0, 0) (1, 0)).1, p.getLast? ≠ some (1, 0)) ∧
     (∀ p ∈ (Dijkstra mzWall (0, 0) (1, 0)).1, p.getLast? ≠ some (1, 0)) ∧
     (∀ p ∈ (AStar mzWall (0, 0) (1, 0)).1, p.getLast? ≠ some (1, 0))) :=
  have hnr : ¬ Reach mzWall (0, 0) (1, 0) := by
    rintro ⟨p, hp⟩
    rcases isWalk_last_ok mzWall (0, 0) (1, 0) p hp with h | h
    · exact absurd h (by decide)
    · exact absurd h (by decide)
  ⟨hnr, C4_unreachable mzWall (0, 0) (1, 0) hnr⟩

/-- C10: every snapshot yielded by any of the four solvers is a non-empty
simple path: it starts at the start cell, consecutive cells are 4-adjacent
and in bounds, no cell repeats, and every cell except possibly the start is
a passage. -/
theorem C10_simple_snapshots (m : Maze) (s g : Coord) (p : List Coord)
    (hp : p ∈ (BFS m s g).1 ∨ p ∈ (DFS m s g).1 ∨ p ∈ (Dijkstra m s g).1 ∨
      p ∈ (AStar m s g).1) :
    SimpleSnapshot m s p := by
  have hcap2 : NCap m ≤ 2 * (m.w * m.h) + 4 := by simp only [NCap]; omega
  have hcap5 : NCap m ≤ 5 * (m.w * m.h) + 7 := by simp only [NCap]; omega
  rcases hp with hp | hp | hp | hp
  · exact bfsRun_snapshots m s g (2 * (m.w * m.h) + 4) hcap2
      (2 * (m.w * m.h) + 4)
      { queue := [s], parent := [(s, none)], visited := [s] } (fun _ => 0)
      (bfs_init_inv m s g) p hp
  · exact dfsRun_snapshots m s g (2 * (m.w * m.h) + 4) hcap2
      (2 * (m.w * m.h) + 4)
      { stack := [s], parent := [(s, none)], visited := [s] } (fun _ => 0)
      (dfs_init_inv m s g) p hp
  · exact dijRun_snapshots m s g (5 * (m.w * m.h) + 7) hcap5
      (5 * (m.w * m.h) + 7)
      { dist := [(s, 0)], parent := [(s, none)], pq := [(0, s)], visited := [] }
      (dij_init_inv m s) p hp
  · exact aRun_snapshots m s g (5 * (m.w * m.h) + 7)
      { pq := [{ f := manhattan s g, g := 0, node := s, path := [s] }],
        visited := [] }
      (a_init_inv m s g) p hp

/-- C10 witness: the snapshot `[(0,0),(1,0)]` yielded by BFS on the 2×1
all-passage grid is a simple path from the start. -/
theorem C10_simple_snapshots_witness :
    ([(0, 0), (1, 0)] ∈ (BFS mzOpen (0, 0) (1, 0)).1 ∨
     [(0, 0), (1, 0)] ∈ (DFS mzOpen (0, 0) (1, 0)).1 ∨
     [(0, 0), (1, 0)] ∈ (Dijkstra mzOpen (0, 0) (1, 0)).1 ∨
     [(0, 0), (1, 0)] ∈ (AStar mzOpen (0, 0) (1, 0)).1) ∧
    SimpleSnapshot mzOpen (0, 0) [(0, 0), (1, 0)] :=
  ⟨by decide,
   C10_simple_snapshots mzOpen (0, 0) (1, 0) [(0, 0), (1, 0)] (by decide)⟩

/-- C3: refuted — on a 3×3 grid the first subdivision always dies.  The
3×3 chamber passes the `w < 3 or h < 3` guard, and whichever orientation is
drawn, the candidate list of even interior wall lines is
`[yy for yy in range(1, 2) if yy % 2 == 0] = []` (resp. the `xx` version),
so `random.choice` raises `IndexError` mid-sequence for every outcome of
the random draws. -/
theorem C3_recursive_division_crash (σ : Nat → Nat) :
    RecursiveDivision σ 3 3 = Except.error GenErr.emptyChoice := by
  have hdiv : divide σ 7 0 0 3 3 0 = Except.error GenErr.emptyChoice := by
    show divide σ (6 + 1) 0 0 3 3 0 = Except.error GenErr.emptyChoice
    rw [divide]
    have hcond : ¬ ((3 : Int) < 3 ∨ (3 : Int) < 3) := by decide
    rw [if_neg hcond]
    have hlt1 : ¬ ((3 : Int) < 3) := by decide
    simp only [if_neg hlt1]
    have hch : choice σ 0 [true, false] =
        Except.ok ([true, false].get ⟨σ 0 % 2, Nat.mod_lt _ (Nat.succ_pos _)⟩, 1) := rfl
    rw [hch]
    rcases Nat.mod_two_eq_zero_or_one (σ 0) with h2 | h2
    · simp only [h2]
      rfl
    · simp only [h2]
      rfl
  unfold RecursiveDivision
  simp only [Nat.cast_ofNat]
  norm_num
  rw [hdiv]
  rfl

/-! ## Recursive-division no-crash lemmas -/

theorem mem_intRange (a b v : Int) : v ∈ intRange a b ↔ a ≤ v ∧ v < b := by
  simp only [intRange, List.mem_map, List.mem_range, Int.ofNat_eq_natCast]
  constructor
  · rintro ⟨i, hi, rfl⟩
    omega
  · rintro ⟨h1, h2⟩
    exact ⟨(v - a).toNat, by omega, by omega⟩

/-- `random.choice` on a nonempty list succeeds with a member. -/
theorem choice_ok {α : Type} (σ : Nat → Nat) (pos : Nat) (l : List α)
    (hl : l ≠ []) :
    ∃ v, choice σ pos l = Except.ok (v, pos + 1) ∧ v ∈ l := by
  cases l with
  | nil => exact absurd rfl hl
  | cons a rest => exact ⟨_, rfl, List.get_mem _ _ _⟩

/-- An interval that reaches past an even number has an even member. -/
theorem evens_nonempty (a b : Int) (hlen : a < b)
    (hpar : a % 2 = 0 ∨ a + 1 < b) :
    (intRange a b).filter (fun v => v % 2 = 0) ≠ [] := by
  by_cases hp : a % 2 = 0
  · have hmem : a ∈ (intRange a b).filter (fun v => v % 2 = 0) :=
      List.mem_filter.mpr
        ⟨(mem_intRange a b a).mpr ⟨le_refl _, hlen⟩, by simpa using hp⟩
    exact List.ne_nil_of_mem hmem
  · have h2 : (a + 1) % 2 = 0 := by omega
    have hb : a + 1 < b := by
      rcases hpar with h | h
      · exact absurd h hp
      · exact h
    have hmem : (a + 1) ∈ (intRange a b).filter (fun v => v % 2 = 0) :=
      List.mem_filter.mpr
        ⟨(mem_intRange a b (a + 1)).mpr ⟨by omega, hb⟩, by simpa using h2⟩
    exact List.ne_nil_of_mem hmem

/-- An interval of length at least two has an odd member. -/
theorem odds_nonempty (a b : Int) (h2 : a + 2 ≤ b) :
    (intRange a b).filter (fun v => v % 2 = 1) ≠ [] := by
  by_cases hp : a % 2 = 1
  · have hmem : a ∈ (intRange a b).filter (fun v => v % 2 = 1) :=
      List.mem_filter.mpr
        ⟨(mem_intRange a b a).mpr ⟨le_refl _, by omega⟩, by simpa using hp⟩
    exact List.ne_nil_of_mem hmem
  · have hodd : (a + 1) % 2 = 1 := by omega
    have hmem : (a + 1) ∈ (intRange a b).filter (fun v => v % 2 = 1) :=
      List.mem_filter.mpr
        ⟨(mem_intRange a b (a + 1)).mpr ⟨by omega, by omega⟩, by simpa using hodd⟩
    exact List.ne_nil_of_mem hmem

/-- The horizontal split succeeds and emits only wall edits, given an even
interior line exists and both recursive halves succeed. -/
theorem splitH_ok (σ : Nat → Nat)
    (div : Int → Int → Int → Int → Nat → Except GenErr (List Edit × Nat))
    (x y w h : Int) (pos : Nat) (hw : 3 ≤ w) (hh : 3 ≤ h)
    (hpar : h = 3 → y % 2 = 1)
    (hrec : ∀ y2 h2 pos2, h2 ≤ h - 2 → (y2 % 2 = 1 ∨ (y2 + h2) % 2 = 0) →
      ∃ out, div x y2 w h2 pos2 = Except.ok out ∧ ∀ e ∈ out.1, e.2.2 = 0) :
    ∃ out, splitH σ div x y w h pos = Except.ok out ∧
      ∀ e ∈ out.1, e.2.2 = 0 := by
  have hwyne : (intRange (y + 1) (y + h - 1)).filter (fun v => v % 2 = 0) ≠ [] := by
    apply evens_nonempty _ _ (by omega)
    by_cases h3 : h = 3
    · exact Or.inl (by have := hpar h3; omega)
    · exact Or.inr (by omega)
  obtain ⟨wy, hwy, hwymem⟩ := choice_ok σ pos _ hwyne
  obtain ⟨hwyrange, hwyeven⟩ := List.mem_filter.mp hwymem
  rw [mem_intRange] at hwyrange
  simp only [decide_eq_true_eq] at hwyeven
  obtain ⟨gx, hgx, -⟩ := choice_ok σ (pos + 1) _ (odds_nonempty x (x + w) (by omega))
  obtain ⟨out1, hout1, hflag1⟩ := hrec y (wy - y) (pos + 1 + 1) (by omega)
    (Or.inr (by omega))
  obtain ⟨out2, hout2, hflag2⟩ := hrec (wy + 1) (y + h - (wy + 1)) out1.2
    (by omega) (Or.inl (by omega))
  refine ⟨(((intRange x (x + w)).filter (fun xx => xx ≠ gx)).map
      (fun xx => (xx, wy, (0 : Nat))) ++ out1.1 ++ out2.1, out2.2), ?_, ?_⟩
  · calc splitH σ div x y w h pos
        = (do
            let gx ← choice σ (pos + 1)
              ((intRange x (x + w)).filter (fun v => v % 2 = 1))
            let walls := ((intRange x (x + w)).filter (fun xx => xx ≠ gx.1)).map
              (fun xx => (xx, wy, (0 : Nat)))
            let e1 ← div x y w (wy - y) gx.2
            let e2 ← div x (wy + 1) w (y + h - (wy + 1)) e1.2
            Except.ok (walls ++ e1.1 ++ e2.1, e2.2)) := by
          unfold splitH
          rw [hwy]
          rfl
      _ = (do
            let e1 ← div x y w (wy - y) (pos + 1 + 1)
            let e2 ← div x (wy + 1) w (y + h - (wy + 1)) e1.2
            Except.ok (((intRange x (x + w)).filter (fun xx => xx ≠ gx)).map
              (fun xx => (xx, wy, (0 : Nat))) ++ e1.1 ++ e2.1, e2.2)) := by
          rw [hgx]
          rfl
      _ = (do
            let e2 ← div x (wy + 1) w (y + h - (wy + 1)) out1.2
            Except.ok (((intRange x (x + w)).filter (fun xx => xx ≠ gx)).map
              (fun xx => (xx, wy, (0 : Nat))) ++ out1.1 ++ e2.1, e2.2)) := by
          rw [hout1]
          rfl
      _ = Except.ok (((intRange x (x + w)).filter (fun xx => xx ≠ gx)).map
            (fun xx => (xx, wy, (0 : Nat))) ++ out1.1 ++ out2.1, out2.2) := by
          rw [hout2]
          rfl
  · intro e he
    rcases List.mem_append.mp he with he1 | he2
    · rcases List.mem_append.mp he1 with hw1 | ho1
      · obtain ⟨xx, -, rfl⟩ := List.mem_map.mp hw1
        rfl
      · exact hflag1 e ho1
    · exact hflag2 e he2

/-- The vertical split succeeds and emits only wall edits, symmetrically. -/
theorem splitV_ok (σ : Nat → Nat)
    (div : Int → Int → Int → Int → Nat → Except GenErr (List Edit × Nat))
    (x y w h : Int) (pos : Nat) (hw : 3 ≤ w) (hh : 3 ≤ h)
    (hpar : w = 3 → x % 2 = 1)
    (hrec : ∀ x2 w2 pos2, w2 ≤ w - 2 → (x2 % 2 = 1 ∨ (x2 + w2) % 2 = 0) →
      ∃ out, div x2 y w2 h pos2 = Except.ok out ∧ ∀ e ∈ out.1, e.2.2 = 0) :
    ∃ out, splitV σ div x y w h pos = Except.ok out ∧
      ∀ e ∈ out.1, e.2.2 = 0 := by
  have hwxne : (intRange (x + 1) (x + w - 1)).filter (fun v => v % 2 = 0) ≠ [] := by
    apply evens_nonempty _ _ (by omega)
    by_cases h3 : w = 3
    · exact Or.inl (by have := hpar h3; omega)
    · exact Or.inr (by omega)
  obtain ⟨wx, hwx, hwxmem⟩ := choice_ok σ pos _ hwxne
  obtain ⟨hwxrange, hwxeven⟩ := List.mem_filter.mp hwxmem
  rw [mem_intRange] at hwxrange
  simp only [decide_eq_true_eq] at hwxeven
  obtain ⟨gy, hgy, -⟩ := choice_ok σ (pos + 1) _ (odds_nonempty y (y + h) (by omega))
  obtain ⟨out1, hout1, hflag1⟩ := hrec x (wx - x) (pos + 1 + 1) (by omega)
    (Or.inr (by omega))
  obtain ⟨out2, hout2, hflag2⟩ := hrec (wx + 1) (x + w - (wx + 1)) out1.2
    (by omega) (Or.inl (by omega))
  refine ⟨(((intRange y (y + h)).filter (fun yy => yy ≠ gy)).map
      (fun yy => (wx, yy, (0 : Nat))) ++ out1.1 ++ out2.1, out2.2), ?_, ?_⟩
  · calc splitV σ div x y w h pos
        = (do
            let gy ← choice σ (pos + 1)
              ((intRange y (y + h)).filter (fun v => v % 2 = 1))
            let walls := ((intRange y (y + h)).filter (fun yy => yy ≠ gy.1)).map
              (fun yy => (wx, yy, (0 : Nat)))
            let e1 ← div x y (wx - x) h gy.2
            let e2 ← div (wx + 1) y (x + w - (wx + 1)) h e1.2
            Except.ok (walls ++ e1.1 ++ e2.1, e2.2)) := by
          unfold splitV
          rw [hwx]
          rfl
      _ = (do
            let e1 ← div x y (wx - x) h (pos + 1 + 1)
            let e2 ← div (wx + 1) y (x + w - (wx + 1)) h e1.2
            Except.ok (((intRange y (y + h)).filter (fun yy => yy ≠ gy)).map
              (fun yy => (wx, yy, (0 : Nat))) ++ e1.1 ++ e2.1, e2.2)) := by
          rw [hgy]
          rfl
      _ = (do
            let e2 ← div (wx + 1) y (x + w - (wx + 1)) h out1.2
            Except.ok (((intRange y (y + h)).filter (fun yy => yy ≠ gy)).map
              (fun yy => (wx, yy, (0 : Nat))) ++ out1.1 ++ e2.1, e2.2)) := by
          rw [hout1]
          rfl
      _ = Except.ok (((intRange y (y + h)).filter (fun yy => yy ≠ gy)).map
            (fun yy => (wx, yy, (0 : Nat))) ++ out1.1 ++ out2.1, out2.2) := by
          rw [hout2]
          rfl
  · intro e he
    rcases List.mem_append.mp he with he1 | he2
    · rcases List.mem_append.mp he1 with hw1 | ho1
      · obtain ⟨yy, -, rfl⟩ := List.mem_map.mp hw1
        rfl
      · exact hflag1 e ho1
    · exact hflag2 e he2

/-- `_divide` never dies when each axis interval starts odd, ends even, or
is the full `0..7` axis of the 7×7 run, and the fuel exceeds the combined
extent; it emits only wall edits. -/
theorem divide_ok (σ : Nat → Nat) :
    ∀ fu : Nat, ∀ x y w h : Int, ∀ pos : Nat,
      (w + h).toNat < fu →
      (x % 2 = 1 ∨ (x + w) % 2 = 0 ∨ (x = 0 ∧ w = 7)) →
      (y % 2 = 1 ∨ (y + h) % 2 = 0 ∨ (y = 0 ∧ h = 7)) →
      ∃ out, divide σ fu x y w h pos = Except.ok out ∧
        ∀ e ∈ out.1, e.2.2 = 0 := by
  intro fu
  induction fu with
  | zero =>
    intro x y w h pos hfu hx hy
    omega
  | succ fu ih =>
    intro x y w h pos hfu hx hy
    by_cases hsmall : w < 3 ∨ h < 3
    · exact ⟨([], pos), by rw [divide, if_pos hsmall], by simp⟩
    · push_neg at hsmall
      obtain ⟨hw3, hh3⟩ := hsmall
      rcases lt_trichotomy h w with hlt | heq | hgt
      · -- wider than tall: vertical split
        have hred : divide σ (fu + 1) x y w h pos =
            splitV σ (divide σ fu) x y w h pos := by
          rw [divide, if_neg (by push_neg; exact ⟨hw3, hh3⟩), if_pos hlt]
          rfl
        have hpar : w = 3 → x % 2 = 1 := by
          intro h3
          omega
        obtain ⟨out, hout, hf⟩ := splitV_ok σ (divide σ fu) x y w h pos hw3 hh3
          hpar (fun x2 w2 pos2 hw2 hx2 =>
            ih x2 y w2 h pos2 (by omega) (hx2.imp id Or.inl) hy)
        exact ⟨out, by rw [hred]; exact hout, hf⟩
      · -- square: random orientation
        have hch0 : choice σ pos [true, false] =
            Except.ok ([true, false].get
              ⟨σ pos % 2, Nat.mod_lt _ (Nat.succ_pos _)⟩, pos + 1) := rfl
        rcases Nat.mod_two_eq_zero_or_one (σ pos) with hm | hm
        · -- horizontal
          have hred : divide σ (fu + 1) x y w h pos =
              splitH σ (divide σ fu) x y w h (pos + 1) := by
            rw [divide, if_neg (by push_neg; exact ⟨hw3, hh3⟩),
              if_neg (by omega), if_neg (by omega), hch0]
            simp only [hm]
            rfl
          have hpar : h = 3 → y % 2 = 1 := by
            intro h3
            rcases hy with hp | hp | hp
            · exact hp
            · omega
            · omega
          obtain ⟨out, hout, hf⟩ := splitH_ok σ (divide σ fu) x y w h (pos + 1)
            hw3 hh3 hpar (fun y2 h2 pos2 hh2 hy2 =>
              ih x y2 w h2 pos2 (by omega) hx (hy2.imp id Or.inl))
          exact ⟨out, by rw [hred]; exact hout, hf⟩
        · -- vertical
          have hred : divide σ (fu + 1) x y w h pos =
              splitV σ (divide σ fu) x y w h (pos + 1) := by
            rw [divide, if_neg (by push_neg; exact ⟨hw3, hh3⟩),
              if_neg (by omega), if_neg (by omega), hch0]
            simp only [hm]
            rfl
          have hpar : w = 3 → x % 2 = 1 := by
            intro h3
            rcases hx with hp | hp | hp
            · exact hp
            · omega
            · omega
          obtain ⟨out, hout, hf⟩ := splitV_ok σ (divide σ fu) x y w h (pos + 1)
            hw3 hh3 hpar (fun x2 w2 pos2 hw2 hx2 =>
              ih x2 y w2 h pos2 (by omega) (hx2.imp id Or.inl) hy)
          exact ⟨out, by rw [hred]; exact hout, hf⟩
      · -- taller than wide: horizontal split
        have hred : divide σ (fu + 1) x y w h pos =
            splitH σ (divide σ fu) x y w h pos := by
          rw [divide, if_neg (by push_neg; exact ⟨hw3, hh3⟩),
            if_neg (by omega), if_pos hgt]
          rfl
        have hpar : h = 3 → y % 2 = 1 := by
          intro h3
          omega
        obtain ⟨out, hout, hf⟩ := splitH_ok σ (divide σ fu) x y w h pos hw3 hh3
          hpar (fun y2 h2 pos2 hh2 hy2 =>
            ih x y2 w h2 pos2 (by omega) hx (hy2.imp id Or.inl))
        exact ⟨out, by rw [hred]; exact hout, hf⟩

/-! ## Final-state evaluation lemmas -/

theorem finalVal_append (E1 E2 : List Edit) (c : Coord) :
    finalVal (E1 ++ E2) c =
      E2.foldl (fun acc e => if e.1 = c.1 ∧ e.2.1 = c.2 then e.2.2 else acc)
        (finalVal E1 c) := by
  simp [finalVal, List.foldl_append]

/-- A fold over edits that never touch `c` keeps the accumulator. -/
theorem foldl_skip (E : List Edit) (c : Coord) (acc : Nat)
    (hno : ∀ e ∈ E, ¬(e.1 = c.1 ∧ e.2.1 = c.2)) :
    E.foldl (fun acc e => if e.1 = c.1 ∧ e.2.1 = c.2 then e.2.2 else acc) acc
      = acc := by
  induction E generalizing acc with
  | nil => rfl
  | cons e E ih =>
    simp only [List.foldl_cons]
    rw [if_neg (hno e (List.mem_cons_self _ _))]
    exact ih acc (fun e2 he2 => hno e2 (List.mem_cons_of_mem _ he2))

/-- A fold over wall-only edits keeps a zero accumulator at zero. -/
theorem foldl_zeros (E : List Edit) (c : Coord)
    (hall : ∀ e ∈ E, e.2.2 = 0) :
    E.foldl (fun acc e => if e.1 = c.1 ∧ e.2.1 = c.2 then e.2.2 else acc) 0
      = 0 := by
  induction E with
  | nil => rfl
  | cons e E ih =>
    simp only [List.foldl_cons]
    have h0 : (if e.1 = c.1 ∧ e.2.1 = c.2 then e.2.2 else 0) = 0 := by
      split
      · exact hall e (List.mem_cons_self _ _)
      · rfl
    rw [h0]
    exact ih (fun e2 he2 => hall e2 (List.mem_cons_of_mem _ he2))

/-- A fold over wall-only edits at least one of which touches `c` lands the
cell on wall, whatever the accumulator. -/
theorem foldl_match_zero (c : Coord) :
    ∀ E : List Edit, (∀ e ∈ E, e.2.2 = 0) →
      (∃ e ∈ E, e.1 = c.1 ∧ e.2.1 = c.2) → ∀ acc,
      E.foldl (fun acc e => if e.1 = c.1 ∧ e.2.1 = c.2 then e.2.2 else acc) acc
        = 0 := by
  intro E
  induction E with
  | nil =>
    intro _ hm acc
    obtain ⟨e, he, -⟩ := hm
    simp at he
  | cons e E ih =>
    intro hall hm acc
    simp only [List.foldl_cons]
    by_cases hme : e.1 = c.1 ∧ e.2.1 = c.2
    · rw [if_pos hme, hall e (List.mem_cons_self _ _)]
      exact foldl_zeros E c (fun e2 he2 => hall e2 (List.mem_cons_of_mem _ he2))
    · rw [if_neg hme]
      have hm2 : ∃ e2 ∈ E, e2.1 = c.1 ∧ e2.2.1 = c.2 := by
        obtain ⟨e2, he2, hp⟩ := hm
        rcases List.mem_cons.mp he2 with rfl | h
        · exact absurd hp hme
        · exact ⟨e2, h, hp⟩
      exact ih (fun e2 he2 => hall e2 (List.mem_cons_of_mem _ he2)) hm2 acc

/-- C9: on a 7×7 grid, Recursive Division always runs to completion, and
the final state leaves the whole outer border as wall except exactly the
entrance `(0,1)` and the exit `(6,5)`, whatever the random draws. -/
theorem C9_seven_border (σ : Nat → Nat) :
    ∃ E, RecursiveDivision σ 7 7 = Except.ok E ∧
      ∀ c : Coord, isBorder 7 7 c = true →
        (finalPassage E c = true ↔ (c = (0, 1) ∨ c = (6, 5))) := by
  obtain ⟨out, hout, hflags⟩ := divide_ok σ 15 0 0 7 7 0 (by decide)
    (Or.inr (Or.inr ⟨rfl, rfl⟩)) (Or.inr (Or.inr ⟨rfl, rfl⟩))
  refine ⟨(((intRange 0 7).flatMap
        (fun y => (intRange 0 7).map (fun x => (x, y, (1 : Nat))))) ++
      ((intRange 0 7).flatMap (fun x => [(x, (0 : Int), (0 : Nat)), (x, 6, 0)])) ++
      ((intRange 0 7).flatMap (fun y => [((0 : Int), y, (0 : Nat)), (6, y, 0)]))) ++
     out.1 ++
     [((0 : Int), (1 : Int), (1 : Nat)), ((6 : Int), (5 : Int), (1 : Nat))],
    ?_, ?_⟩
  · unfold RecursiveDivision
    simp only [Nat.cast_ofNat]
    norm_num
    rw [hout]
    rfl
  · intro c hb
    obtain ⟨cx, cy⟩ := c
    simp only [isBorder, Bool.and_eq_true, Bool.or_eq_true, inRange_iff,
      decide_eq_true_eq] at hb
    norm_num at hb
    obtain ⟨⟨hbx, hby⟩, hd⟩ := hb
    by_cases hgap : (cx = 0 ∧ cy = 1) ∨ (cx = 6 ∧ cy = 5)
    · have hval : finalVal ((((intRange 0 7).flatMap
            (fun y => (intRange 0 7).map (fun x => (x, y, (1 : Nat))))) ++
          ((intRange 0 7).flatMap
            (fun x => [(x, (0 : Int), (0 : Nat)), (x, 6, 0)])) ++
          ((intRange 0 7).flatMap
            (fun y => [((0 : Int), y, (0 : Nat)), (6, y, 0)]))) ++
         out.1 ++
         [((0 : Int), (1 : Int), (1 : Nat)), ((6 : Int), (5 : Int), (1 : Nat))])
          (cx, cy) = 1 := by
        rw [finalVal_append]
        simp only [List.foldl_cons, List.foldl_nil]
        rcases hgap with ⟨rfl, rfl⟩ | ⟨rfl, rfl⟩
        · norm_num
        · norm_num
      constructor
      · rintro -
        rcases hgap with ⟨rfl, rfl⟩ | ⟨rfl, rfl⟩
        · exact Or.inl rfl
        · exact Or.inr rfl
      · rintro -
        rw [finalPassage, hval]
        rfl
    · have hnoG : ∀ e ∈ [((0 : Int), (1 : Int), (1 : Nat)),
          ((6 : Int), (5 : Int), (1 : Nat))],
          ¬ (e.1 = ((cx, cy) : Coord).1 ∧ e.2.1 = ((cx, cy) : Coord).2) := by
        intro e he
        rcases List.mem_cons.mp he with rfl | he2
        · rintro ⟨h1, h2⟩
          exact hgap (Or.inl ⟨h1.symm, h2.symm⟩)
        · rw [List.mem_singleton] at he2
          subst he2
          rintro ⟨h1, h2⟩
          exact hgap (Or.inr ⟨h1.symm, h2.symm⟩)
      have hB : finalVal (((intRange 0 7).flatMap
            (fun y => (intRange 0 7).map (fun x => (x, y, (1 : Nat))))) ++
          ((intRange 0 7).flatMap
            (fun x => [(x, (0 : Int), (0 : Nat)), (x, 6, 0)])) ++
          ((intRange 0 7).flatMap
            (fun y => [((0 : Int), y, (0 : Nat)), (6, y, 0)]))) (cx, cy) = 0 := by
        rw [finalVal_append]
        by_cases hcx : cx = 0 ∨ cx = 6
        · apply foldl_match_zero
          · intro e he
            obtain ⟨yv, -, hin⟩ := List.mem_flatMap.mp he
            rcases List.mem_cons.mp hin with rfl | hin2
            · rfl
            · rw [List.mem_singleton] at hin2
              subst hin2
              rfl
          · refine ⟨(cx, cy, 0), List.mem_flatMap.mpr
              ⟨cy, (mem_intRange 0 7 cy).mpr ⟨by omega, by omega⟩, ?_⟩, rfl, rfl⟩
            rcases hcx with rfl | rfl
            · exact List.mem_cons_self _ _
            · exact List.mem_cons_of_mem _ (List.mem_singleton_self _)
        · have hcy : cy = 0 ∨ cy = 6 := by
            push_neg at hcx
            rcases hd with ((h | h) | h) | h
            · exact absurd h hcx.1
            · exact absurd h hcx.2
            · exact Or.inl h
            · exact Or.inr h
          rw [foldl_skip]
          · rw [finalVal_append]
            apply foldl_match_zero
            · intro e he
              obtain ⟨xv, -, hin⟩ := List.mem_flatMap.mp he
              rcases List.mem_cons.mp hin with rfl | hin2
              · rfl
              · rw [List.mem_singleton] at hin2
                subst hin2
                rfl
            · refine ⟨(cx, cy, 0), List.mem_flatMap.mpr
                ⟨cx, (mem_intRange 0 7 cx).mpr ⟨by omega, by omega⟩, ?_⟩, rfl, rfl⟩
              rcases hcy with rfl | rfl
              · exact List.mem_cons_self _ _
              · exact List.mem_cons_of_mem _ (List.mem_singleton_self _)
          · intro e he
            obtain ⟨yv, -, hin⟩ := List.mem_flatMap.mp he
            push_neg at hcx
            rcases List.mem_cons.mp hin with rfl | hin2
            · rintro ⟨h1, -⟩
              exact hcx.1 h1.symm
            · rw [List.mem_singleton] at hin2
              subst hin2
              rintro ⟨h1, -⟩
              exact hcx.2 h1.symm
      have hval : finalVal ((((intRange 0 7).flatMap
            (fun y => (intRange 0 7).map (fun x => (x, y, (1 : Nat))))) ++
          ((intRange 0 7).flatMap
            (fun x => [(x, (0 : Int), (0 : Nat)), (x, 6, 0)])) ++
          ((intRange 0 7).flatMap
            (fun y => [((0 : Int), y, (0 : Nat)), (6, y, 0)]))) ++
         out.1 ++
         [((0 : Int), (1 : Int), (1 : Nat)), ((6 : Int), (5 : Int), (1 : Nat))])
          (cx, cy) = 0 := by
        rw [finalVal_append, foldl_skip _ _ _ hnoG, finalVal_append, hB]
        exact foldl_zeros out.1 (cx, cy) hflags
      constructor
      · intro hp
        rw [finalPassage, hval] at hp
        simp at hp
      · rintro (h | h) <;> rw [Prod.mk.injEq] at h
        · exact absurd (Or.inl h) hgap
        · exact absurd (Or.inr h) hgap

/-! ## Sub-grid enumeration lemmas -/

theorem nodup_flatMap_disjoint {α β : Type} (l : List α) (f : α → List β)
    (hl : l.Nodup) (hf : ∀ a ∈ l, (f a).Nodup)
    (hdisj : ∀ a ∈ l, ∀ b ∈ l, a ≠ b → ∀ x ∈ f a, x ∉ f b) :
    (l.flatMap f).Nodup := by
  induction l with
  | nil => simp
  | cons a l ih =>
    rw [List.flatMap_cons, List.nodup_append]
    obtain ⟨hna, hnl⟩ := List.nodup_cons.mp hl
    refine ⟨hf a (List.mem_cons_self _ _), ?_, ?_⟩
    · exact ih hnl (fun b hb => hf b (List.mem_cons_of_mem _ hb))
        (fun b hb b2 hb2 hne => hdisj b (List.mem_cons_of_mem _ hb)
          b2 (List.mem_cons_of_mem _ hb2) hne)
    · intro x hx hx2
      obtain ⟨b, hb, hxb⟩ := List.mem_flatMap.mp hx2
      have hab : a ≠ b := fun hh => hna (hh ▸ hb)
      exact hdisj a (List.mem_cons_self _ _) b (List.mem_cons_of_mem _ hb)
        hab x hx hxb

theorem mem_evens (n v : Nat) : v ∈ evens n ↔ v < n ∧ v % 2 = 0 := by
  simp [evens, List.mem_filter, List.mem_range]

theorem evens_nodup (n : Nat) : (evens n).Nodup :=
  (List.nodup_range n).filter _

theorem mem_subCells (w h : Nat) (c : Coord) :
    c ∈ subCells w h ↔ 0 ≤ c.1 ∧ c.1 < (w : Int) ∧ c.1 % 2 = 0 ∧
      0 ≤ c.2 ∧ c.2 < (h : Int) ∧ c.2 % 2 = 0 := by
  obtain ⟨cx, cy⟩ := c
  simp only [subCells, List.mem_flatMap, List.mem_map, mem_evens,
    Int.ofNat_eq_natCast, Prod.mk.injEq]
  constructor
  · rintro ⟨y, ⟨hy, hye⟩, x, ⟨hx, hxe⟩, rfl, rfl⟩
    refine ⟨by omega, by omega, by omega, by omega, by omega, by omega⟩
  · rintro ⟨h1, h2, h3, h4, h5, h6⟩
    exact ⟨cy.toNat, ⟨by omega, by omega⟩, cx.toNat, ⟨by omega, by omega⟩,
      by omega, by omega⟩

theorem subCells_nodup (w h : Nat) : (subCells w h).Nodup := by
  apply nodup_flatMap_disjoint _ _ (evens_nodup h)
  · intro y hy
    apply List.Nodup.map
    · intro a b hab
      simp only [Int.ofNat_eq_natCast, Prod.mk.injEq] at hab
      omega
    · exact evens_nodup w
  · intro a ha b hb hne x hx hx2
    simp only [List.mem_map, Int.ofNat_eq_natCast] at hx hx2
    obtain ⟨x1, -, rfl⟩ := hx
    obtain ⟨x2, -, heq⟩ := hx2
    simp only [Prod.mk.injEq] at heq
    exact hne (by omega)

theorem mem_ite_singleton {α : Type} (c : Prop) [Decidable c] (a e : α) :
    (e ∈ if c then [a] else []) ↔ c ∧ e = a := by
  split
  · simp only [List.mem_singleton]
    constructor
    · intro hh
      exact ⟨by assumption, hh⟩
    · exact fun hh => hh.2
  · simp only [List.not_mem_nil, false_iff]
    rintro ⟨hc, -⟩
    exact absurd hc (by assumption)

theorem mem_kruskalEdges (w h : Nat) (e : KEdge) :
    e ∈ kruskalEdges w h ↔ ∃ x y : Nat, x % 2 = 0 ∧ y % 2 = 0 ∧ x < w ∧ y < h ∧
      ((x + 2 < w ∧
        e = ((Int.ofNat x, Int.ofNat y), (Int.ofNat x + 2, Int.ofNat y),
             (Int.ofNat x + 1, Int.ofNat y))) ∨
       (y + 2 < h ∧
        e = ((Int.ofNat x, Int.ofNat y), (Int.ofNat x, Int.ofNat y + 2),
             (Int.ofNat x, Int.ofNat y + 1)))) := by
  simp only [kruskalEdges, List.mem_flatMap, List.mem_append, mem_evens,
    mem_ite_singleton]
  constructor
  · rintro ⟨y, ⟨hy, hye⟩, x, ⟨hx, hxe⟩, (⟨hlt, rfl⟩ | ⟨hlt, rfl⟩)⟩
    · exact ⟨x, y, hxe, hye, hx, hy, Or.inl ⟨hlt, rfl⟩⟩
    · exact ⟨x, y, hxe, hye, hx, hy, Or.inr ⟨hlt, rfl⟩⟩
  · rintro ⟨x, y, hxe, hye, hx, hy, (⟨hlt, rfl⟩ | ⟨hlt, rfl⟩)⟩
    · exact ⟨y, ⟨hy, hye⟩, x, ⟨hx, hxe⟩, Or.inl ⟨hlt, rfl⟩⟩
    · exact ⟨y, ⟨hy, hye⟩, x, ⟨hx, hxe⟩, Or.inr ⟨hlt, rfl⟩⟩

/-- The wall cell determines the candidate edge. -/
theorem kruskalEdges_wall_inj (w h : Nat) (e1 e2 : KEdge)
    (h1 : e1 ∈ kruskalEdges w h) (h2 : e2 ∈ kruskalEdges w h)
    (hw : e1.2.2 = e2.2.2) : e1 = e2 := by
  rw [mem_kruskalEdges] at h1 h2
  obtain ⟨x1, y1, hx1e, hy1e, -, -, hc1⟩ := h1
  obtain ⟨x2, y2, hx2e, hy2e, -, -, hc2⟩ := h2
  rcases hc1 with ⟨-, rfl⟩ | ⟨-, rfl⟩ <;> rcases hc2 with ⟨-, rfl⟩ | ⟨-, rfl⟩ <;>
    simp only [Int.ofNat_eq_natCast, Prod.mk.injEq] at hw ⊢ <;> omega

theorem kruskalEdges_nodup (w h : Nat) : (kruskalEdges w h).Nodup := by
  apply nodup_flatMap_disjoint _ _ (evens_nodup h)
  · intro y hy
    apply nodup_flatMap_disjoint _ _ (evens_nodup w)
    · intro x hx
      rcases Decidable.em (x + 2 < w) with hc1 | hc1 <;>
        rcases Decidable.em (y + 2 < h) with hc2 | hc2 <;>
        simp [hc1, hc2, Int.ofNat_eq_natCast, Prod.mk.injEq] <;> omega
    · intro x1 hx1 x2 hx2 hne e he1 he2
      rw [List.mem_append, mem_ite_singleton, mem_ite_singleton] at he1 he2
      rcases he1 with ⟨-, rfl⟩ | ⟨-, rfl⟩ <;>
        rcases he2 with ⟨-, heq⟩ | ⟨-, heq⟩ <;>
        simp only [Int.ofNat_eq_natCast, Prod.mk.injEq] at heq <;>
        exact hne (by omega)
  · intro y1 hy1 y2 hy2 hne e he1 he2
    obtain ⟨x1, -, hin1⟩ := List.mem_flatMap.mp he1
    obtain ⟨x2, -, hin2⟩ := List.mem_flatMap.mp he2
    rw [List.mem_append, mem_ite_singleton, mem_ite_singleton] at hin1 hin2
    rcases hin1 with ⟨-, rfl⟩ | ⟨-, rfl⟩ <;>
      rcases hin2 with ⟨-, heq⟩ | ⟨-, heq⟩ <;>
      simp only [Int.ofNat_eq_natCast, Prod.mk.injEq] at heq <;>
      exact hne (by omega)

/-! ## Final-state lemmas for carve-only generators -/

/-- A fold over carve-only edits keeps a one accumulator at one. -/
theorem foldl_ones (E : List Edit) (c : Coord)
    (hall : ∀ e ∈ E, e.2.2 = 1) :
    E.foldl (fun acc e => if e.1 = c.1 ∧ e.2.1 = c.2 then e.2.2 else acc) 1
      = 1 := by
  induction E with
  | nil => rfl
  | cons e E ih =>
    simp only [List.foldl_cons]
    have h0 : (if e.1 = c.1 ∧ e.2.1 = c.2 then e.2.2 else 1) = 1 := by
      split
      · exact hall e (List.mem_cons_self _ _)
      · rfl
    rw [h0]
    exact ih (fun e2 he2 => hall e2 (List.mem_cons_of_mem _ he2))

/-- A fold over carve-only edits at least one of which touches `c` carves
the cell, whatever the accumulator. -/
theorem foldl_match_one (c : Coord) :
    ∀ E : List Edit, (∀ e ∈ E, e.2.2 = 1) →
      (∃ e ∈ E, e.1 = c.1 ∧ e.2.1 = c.2) → ∀ acc,
      E.foldl (fun acc e => if e.1 = c.1 ∧ e.2.1 = c.2 then e.2.2 else acc) acc
        = 1 := by
  intro E
  induction E with
  | nil =>
    intro _ hm acc
    obtain ⟨e, he, -⟩ := hm
    simp at he
  | cons e E ih =>
    intro hall hm acc
    simp only [List.foldl_cons]
    by_cases hme : e.1 = c.1 ∧ e.2.1 = c.2
    · rw [if_pos hme, hall e (List.mem_cons_self _ _)]
      exact foldl_ones E c (fun e2 he2 => hall e2 (List.mem_cons_of_mem _ he2))
    · rw [if_neg hme]
      have hm2 : ∃ e2 ∈ E, e2.1 = c.1 ∧ e2.2.1 = c.2 := by
        obtain ⟨e2, he2, hp⟩ := hm
        rcases List.mem_cons.mp he2 with rfl | h
        · exact absurd hp hme
        · exact ⟨e2, h, hp⟩
      exact ih (fun e2 he2 => hall e2 (List.mem_cons_of_mem _ he2)) hm2 acc

/-- Under carve-only edit lists, a cell ends as passage exactly when some
edit touches it. -/
theorem finalPassage_all_ones (E : List Edit)
    (hall : ∀ e ∈ E, e.2.2 = 1) (c : Coord) :
    finalPassage E c = true ↔ ∃ e ∈ E, e.1 = c.1 ∧ e.2.1 = c.2 := by
  constructor
  · intro hp
    by_contra hno
    push_neg at hno
    have hz := foldl_skip E c 0 (fun e he => by
      have := hno e he
      intro hcc
      exact this hcc.1 hcc.2)
    rw [finalPassage, finalVal, hz] at hp
    simp at hp
  · intro hm
    have h1 := foldl_match_one c E hall hm 0
    rw [finalPassage, finalVal, h1]
    rfl

/-- A visited set that contains the origin and is closed under in-bounds
two-step moves covers the whole sub-grid. -/
theorem subgrid_span (w h : Nat) (V : List Coord)
    (h00 : ((0 : Int), (0 : Int)) ∈ V)
    (hcl : ∀ c ∈ V, c ∈ subCells w h → ∀ d ∈ twoStepMoves,
      inRange (c.1 + d.1) w = true → inRange (c.2 + d.2) h = true →
      (c.1 + d.1, c.2 + d.2) ∈ V) :
    ∀ c ∈ subCells w h, c ∈ V := by
  suffices H : ∀ n : Nat, ∀ c ∈ subCells w h, (c.1 + c.2).toNat ≤ n → c ∈ V by
    exact fun c hc => H (c.1 + c.2).toNat c hc (le_refl _)
  intro n
  induction n with
  | zero =>
    intro c hc hle
    obtain ⟨cx, cy⟩ := c
    rw [mem_subCells] at hc
    have hc0 : ((cx, cy) : Coord) = ((0 : Int), (0 : Int)) := by
      rw [Prod.mk.injEq]
      constructor <;> omega
    rw [hc0]
    exact h00
  | succ n ih =>
    intro c hc hle
    obtain ⟨cx, cy⟩ := c
    have hc2 := (mem_subCells w h (cx, cy)).mp hc
    by_cases hx0 : cx = 0
    · by_cases hy0 : cy = 0
      · have hc0 : ((cx, cy) : Coord) = ((0 : Int), (0 : Int)) := by
          rw [Prod.mk.injEq]
          exact ⟨hx0, hy0⟩
        rw [hc0]
        exact h00
      · have hpred : ((cx, cy - 2) : Coord) ∈ subCells w h := by
          rw [mem_subCells]
          refine ⟨by omega, by omega, by omega, by omega, by omega, by omega⟩
        have hV := ih (cx, cy - 2) hpred (by simp; omega)
        have hstep := hcl (cx, cy - 2) hV hpred (0, 2)
          (by simp [twoStepMoves]) (by simp [inRange_iff]; omega)
          (by simp only [inRange_iff]; simp; omega)
        have heq : ((cx + (0 : Int), cy - 2 + 2) : Coord) = (cx, cy) := by
          rw [Prod.mk.injEq]
          constructor <;> omega
        rw [← heq]
        exact hstep
    · have hpred : ((cx - 2, cy) : Coord) ∈ subCells w h := by
        rw [mem_subCells]
        refine ⟨by omega, by omega, by omega, by omega, by omega, by omega⟩
      have hV := ih (cx - 2, cy) hpred (by simp; omega)
      have hstep := hcl (cx - 2, cy) hV hpred (2, 0)
        (by simp [twoStepMoves]) (by simp only [inRange_iff]; simp; omega)
        (by simp [inRange_iff]; omega)
      have heq : ((cx - 2 + (2 : Int), cy + 0) : Coord) = (cx, cy) := by
        rw [Prod.mk.injEq]
        constructor <;> omega
      rw [← heq]
      exact hstep

/-- Filtering a duplicate-free list down to the members of a duplicate-free
sublist leaves exactly that sublist's length. -/
theorem filter_mem_length {α : Type} (l m : List α) (p : α → Bool)
    (hl : l.Nodup) (hm : m.Nodup) (hsub : ∀ x ∈ m, x ∈ l)
    (hp : ∀ x, p x = true ↔ x ∈ m) :
    (l.filter p).length = m.length := by
  have h1 : (l.filter p).Nodup := hl.filter _
  have sub1 : l.filter p ⊆ m := by
    intro x hx
    exact (hp x).mp (List.mem_filter.mp hx).2
  have sub2 : m ⊆ l.filter p := by
    intro x hx
    exact List.mem_filter.mpr ⟨hsub x hx, (hp x).mpr hx⟩
  exact Nat.le_antisymm (List.Subperm.length_le (List.subperm_of_subset h1 sub1))
    (List.Subperm.length_le (List.subperm_of_subset hm sub2))

/-- Carved-pair connectivity is symmetric. -/
theorem cReach_symm (pairs : List (Coord × Coord)) (a b : Coord)
    (hr : CReach pairs a b) : CReach pairs b a := by
  induction hr with
  | refl => exact Relation.ReflTransGen.refl
  | tail hab hbc ih =>
    exact Relation.ReflTransGen.trans
      (Relation.ReflTransGen.single (Or.elim hbc Or.inr Or.inl)) ih

/-- The wall of a two-step pair is adjacent to both ends. -/
theorem midW_adj (u v : Coord) (hs : twoStepPair (u, v)) :
    adjacent u (midW (u, v)) = true ∧ adjacent (midW (u, v)) v = true := by
  obtain ⟨ux, uy⟩ := u
  obtain ⟨vx, vy⟩ := v
  simp only [twoStepPair, midW, adjacent_iff] at hs ⊢
  omega

/-- Carved-pair connectivity transfers to passage connectivity, in both
directions, whenever walls and both ends of every pair are passages. -/
theorem pairs_preach (P : Coord → Bool) (pairs : List (Coord × Coord))
    (hP : ∀ p ∈ pairs, P (midW p) = true ∧ P p.2 = true ∧ P p.1 = true)
    (hshape : ∀ p ∈ pairs, twoStepPair p) (u v : Coord)
    (hr : CReach pairs u v) : PReach P u v ∧ PReach P v u := by
  induction hr with
  | refl => exact ⟨Relation.ReflTransGen.refl, Relation.ReflTransGen.refl⟩
  | tail hab hbc ih =>
    rename_i b c
    have hfwd : PReach P b c ∧ PReach P c b := by
      rcases hbc with hm | hm
      · have hPm := hP _ hm
        have hadj := midW_adj b c (hshape _ hm)
        exact ⟨Relation.ReflTransGen.trans
            (Relation.ReflTransGen.single ⟨hadj.1, hPm.1⟩)
            (Relation.ReflTransGen.single ⟨hadj.2, hPm.2.1⟩),
          Relation.ReflTransGen.trans
            (Relation.ReflTransGen.single ⟨adjacent_symm _ _ hadj.2, hPm.1⟩)
            (Relation.ReflTransGen.single ⟨adjacent_symm _ _ hadj.1, hPm.2.2⟩)⟩
      · have hPm := hP _ hm
        have hadj := midW_adj c b (hshape _ hm)
        exact ⟨Relation.ReflTransGen.trans
            (Relation.ReflTransGen.single ⟨adjacent_symm _ _ hadj.2, hPm.1⟩)
            (Relation.ReflTransGen.single ⟨adjacent_symm _ _ hadj.1, hPm.2.2⟩),
          Relation.ReflTransGen.trans
            (Relation.ReflTransGen.single ⟨hadj.1, hPm.1⟩)
            (Relation.ReflTransGen.single ⟨hadj.2, hPm.2.1⟩)⟩
    exact ⟨Relation.ReflTransGen.trans ih.1 hfwd.1,
      Relation.ReflTransGen.trans hfwd.2 ih.2⟩

/-- A two-step pair's wall is the wall of an enumerated candidate edge. -/
theorem mid_in_walls (w h : Nat) (p : Coord × Coord)
    (h1 : p.1 ∈ subCells w h) (h2 : p.2 ∈ subCells w h)
    (hs : twoStepPair p) :
    ∃ e ∈ kruskalEdges w h, e.2.2 = midW p := by
  rw [mem_subCells] at h1 h2
  rcases hs with ⟨ha, hb⟩ | ⟨ha, hb⟩ | ⟨ha, hb⟩ | ⟨ha, hb⟩
  · refine ⟨_, (mem_kruskalEdges w h _).mpr
      ⟨p.1.1.toNat, p.1.2.toNat, by omega, by omega, by omega, by omega,
       Or.inl ⟨by omega, rfl⟩⟩, ?_⟩
    simp only [midW, Int.ofNat_eq_natCast, Prod.mk.injEq]
    constructor <;> omega
  · refine ⟨_, (mem_kruskalEdges w h _).mpr
      ⟨p.2.1.toNat, p.2.2.toNat, by omega, by omega, by omega, by omega,
       Or.inl ⟨by omega, rfl⟩⟩, ?_⟩
    simp only [midW, Int.ofNat_eq_natCast, Prod.mk.injEq]
    constructor <;> omega
  · refine ⟨_, (mem_kruskalEdges w h _).mpr
      ⟨p.1.1.toNat, p.1.2.toNat, by omega, by omega, by omega, by omega,
       Or.inr ⟨by omega, rfl⟩⟩, ?_⟩
    simp only [midW, Int.ofNat_eq_natCast, Prod.mk.injEq]
    constructor <;> omega
  · refine ⟨_, (mem_kruskalEdges w h _).mpr
      ⟨p.2.1.toNat, p.2.2.toNat, by omega, by omega, by omega, by omega,
       Or.inr ⟨by omega, rfl⟩⟩, ?_⟩
    simp only [midW, Int.ofNat_eq_natCast, Prod.mk.injEq]
    constructor <;> omega

/-- The bridge from an abstract spanning carve run to the claimed final
properties: one passage component and exactly `cells − 1` sub-grid
adjacencies. -/
theorem tree_bridge (w h : Nat) (hw : 1 ≤ w) (hh : 1 ≤ h)
    (E : List Edit) (pairs : List (Coord × Coord))
    (hcell : ∀ c : Coord, (∃ e ∈ E, e.1 = c.1 ∧ e.2.1 = c.2) ↔
      (c ∈ subCells w h ∨ ∃ p ∈ pairs, c = midW p))
    (hones : ∀ e ∈ E, e.2.2 = 1)
    (hsub : ∀ p ∈ pairs, p.1 ∈ subCells w h ∧ p.2 ∈ subCells w h)
    (hshape : ∀ p ∈ pairs, twoStepPair p)
    (hconn : ∀ c ∈ subCells w h, CReach pairs ((0 : Int), (0 : Int)) c)
    (hcount : pairs.length + 1 = (subCells w h).length)
    (hmnd : (pairs.map midW).Nodup) :
    OneComponent (finalPassage E) ∧
    subEdgeCount w h (finalPassage E) = (subCells w h).length - 1 := by
  have hPc : ∀ c, finalPassage E c = true ↔
      (c ∈ subCells w h ∨ ∃ p ∈ pairs, c = midW p) :=
    fun c => (finalPassage_all_ones E hones c).trans (hcell c)
  have h00 : (((0 : Int), (0 : Int)) : Coord) ∈ subCells w h := by
    rw [mem_subCells]
    refine ⟨by omega, by simp; omega, by omega, by omega, by simp; omega, by omega⟩
  have hPp : ∀ p ∈ pairs, finalPassage E (midW p) = true ∧
      finalPassage E p.2 = true ∧ finalPassage E p.1 = true := by
    intro p hp
    exact ⟨(hPc _).mpr (Or.inr ⟨p, hp, rfl⟩),
      (hPc _).mpr (Or.inl (hsub p hp).2), (hPc _).mpr (Or.inl (hsub p hp).1)⟩
  have anchor : ∀ c, finalPassage E c = true → ∃ s ∈ subCells w h,
      PReach (finalPassage E) c s ∧ PReach (finalPassage E) s c := by
    intro c hc
    rcases (hPc c).mp hc with hcs | ⟨p, hp, rfl⟩
    · exact ⟨c, hcs, Relation.ReflTransGen.refl, Relation.ReflTransGen.refl⟩
    · have hadj := midW_adj p.1 p.2 (hshape p hp)
      exact ⟨p.1, (hsub p hp).1,
        Relation.ReflTransGen.single ⟨adjacent_symm _ _ hadj.1, (hPp p hp).2.2⟩,
        Relation.ReflTransGen.single ⟨hadj.1, hc⟩⟩
  constructor
  · refine ⟨⟨((0 : Int), (0 : Int)), (hPc _).mpr (Or.inl h00)⟩, ?_⟩
    intro a b hPa hPb
    obtain ⟨sa, hsa, haa, has⟩ := anchor a hPa
    obtain ⟨sb, hsb, hsbr, hbs⟩ := anchor b hPb
    have h1 := pairs_preach (finalPassage E) pairs hPp hshape _ _ (hconn sa hsa)
    have h2 := pairs_preach (finalPassage E) pairs hPp hshape _ _ (hconn sb hsb)
    exact Relation.ReflTransGen.trans haa
      (Relation.ReflTransGen.trans h1.2 (Relation.ReflTransGen.trans h2.1 hbs))
  · have hpoint : ∀ e ∈ kruskalEdges w h,
        (finalPassage E e.2.2) = true ↔
          decide (e.2.2 ∈ pairs.map midW) = true := by
      intro e he
      rw [decide_eq_true_eq]
      constructor
      · intro hp
        rcases (hPc _).mp hp with hcs | ⟨p, hp2, heq⟩
        · exfalso
          obtain ⟨x, y, hxe, hye, -, -, hc⟩ := (mem_kruskalEdges w h e).mp he
          rw [mem_subCells] at hcs
          rcases hc with ⟨-, rfl⟩ | ⟨-, rfl⟩ <;>
            simp only [Int.ofNat_eq_natCast] at hcs <;> omega
        · exact heq ▸ List.mem_map_of_mem _ hp2
      · intro hm
        obtain ⟨p, hp2, heq⟩ := List.mem_map.mp hm
        exact (hPc _).mpr (Or.inr ⟨p, hp2, heq.symm⟩)
    have hcongr : subEdgeCount w h (finalPassage E) =
        (kruskalEdges w h).countP (fun e => decide (e.2.2 ∈ pairs.map midW)) := by
      rw [subEdgeCount]
      exact List.countP_congr hpoint
    rw [hcongr]
    have hmapcount : (kruskalEdges w h).countP
        (fun e => decide (e.2.2 ∈ pairs.map midW)) =
        (((kruskalEdges w h).map (fun e => e.2.2)).filter
          (fun c => c ∈ pairs.map midW)).length := by
      rw [← List.countP_eq_length_filter, List.countP_map]
      rfl
    rw [hmapcount]
    have hwallsnd : ((kruskalEdges w h).map (fun e => e.2.2)).Nodup := by
      apply List.Nodup.map_on
      · intro e1 h1 e2 h2 hweq
        exact kruskalEdges_wall_inj w h e1 e2 h1 h2 hweq
      · exact kruskalEdges_nodup w h
    have hsubm : ∀ x ∈ pairs.map midW, x ∈ (kruskalEdges w h).map
        (fun e => e.2.2) := by
      intro x hx
      obtain ⟨p, hp, rfl⟩ := List.mem_map.mp hx
      obtain ⟨e, he, hwe⟩ := mid_in_walls w h p (hsub p hp).1 (hsub p hp).2
        (hshape p hp)
      exact List.mem_map.mpr ⟨e, he, hwe⟩
    rw [filter_mem_length _ (pairs.map midW) _ hwallsnd hmnd hsubm
      (fun x => by rw [decide_eq_true_eq]), List.length_map]
    omega

/-! ## Growth-run lemmas -/

theorem growsFrom_shape (w h : Nat) (V : List Coord)
    (pairs : List (Coord × Coord)) (hg : GrowsFrom w h V pairs) :
    ∀ p ∈ pairs, twoStepPair p := by
  induction hg with
  | nil => simp
  | cons V u v rest hu hv hvs hshape hrest ih =>
    intro p hp
    rcases List.mem_cons.mp hp with rfl | hp2
    · exact hshape
    · exact ih p hp2

theorem growsFrom_sub (w h : Nat) (V : List Coord)
    (pairs : List (Coord × Coord)) (hg : GrowsFrom w h V pairs)
    (hV : ∀ c ∈ V, c ∈ subCells w h) :
    ∀ p ∈ pairs, p.1 ∈ subCells w h ∧ p.2 ∈ subCells w h := by
  induction hg with
  | nil => simp
  | cons V u v rest hu hv hvs hshape hrest ih =>
    intro p hp
    rcases List.mem_cons.mp hp with rfl | hp2
    · exact ⟨hV u hu, hvs⟩
    · exact ih (by
        intro c hc
        rcases List.mem_cons.mp hc with rfl | hc2
        · exact hvs
        · exact hV c hc2) p hp2

theorem growsFrom_snd_not (w h : Nat) (V : List Coord)
    (pairs : List (Coord × Coord)) (hg : GrowsFrom w h V pairs) :
    ∀ p ∈ pairs, p.2 ∉ V := by
  induction hg with
  | nil => simp
  | cons V u v rest hu hv hvs hshape hrest ih =>
    intro p hp
    rcases List.mem_cons.mp hp with rfl | hp2
    · exact hv
    · intro hmem
      exact ih p hp2 (List.mem_cons_of_mem _ hmem)

theorem growsFrom_nodup (w h : Nat) (V : List Coord)
    (pairs : List (Coord × Coord)) (hg : GrowsFrom w h V pairs)
    (hVnd : V.Nodup) : (pairs.map Prod.snd ++ V).Nodup := by
  induction hg with
  | nil => simpa
  | cons V u v rest hu hv hvs hshape hrest ih =>
    have h2 := ih (List.nodup_cons.mpr ⟨hv, hVnd⟩)
    have hperm : (rest.map Prod.snd ++ v :: V).Perm
        (((u, v) :: rest).map Prod.snd ++ V) := by
      simp only [List.map_cons]
      exact List.perm_middle
    exact hperm.nodup h2

theorem growsFrom_conn (w h : Nat) (V : List Coord)
    (pairs : List (Coord × Coord)) (hg : GrowsFrom w h V pairs)
    (super : List (Coord × Coord)) (hsuper : ∀ p ∈ pairs, p ∈ super)
    (hV : ∀ c ∈ V, CReach super ((0 : Int), (0 : Int)) c) :
    ∀ c, (c ∈ V ∨ c ∈ pairs.map Prod.snd) →
      CReach super ((0 : Int), (0 : Int)) c := by
  induction hg with
  | nil =>
    intro c hc
    rcases hc with hc | hc
    · exact hV c hc
    · simp at hc
  | cons V u v rest hu hv hvs hshape hrest ih =>
    have hvreach : CReach super ((0 : Int), (0 : Int)) v :=
      Relation.ReflTransGen.tail (hV u hu)
        (Or.inl (hsuper (u, v) (List.mem_cons_self _ _)))
    intro c hc
    have hV2 : ∀ c2 ∈ v :: V, CReach super ((0 : Int), (0 : Int)) c2 := by
      intro c2 hc2
      rcases List.mem_cons.mp hc2 with rfl | hc3
      · exact hvreach
      · exact hV c2 hc3
    have hsuper2 : ∀ p ∈ rest, p ∈ super :=
      fun p hp => hsuper p (List.mem_cons_of_mem _ hp)
    rcases hc with hc | hc
    · exact ih hsuper2 hV2 c (Or.inl (List.mem_cons_of_mem _ hc))
    · simp only [List.map_cons, List.mem_cons] at hc
      rcases hc with rfl | hc2
      · exact hvreach
      · exact ih hsuper2 hV2 c (Or.inr hc2)

/-- A shared wall forces two even-anchored two-step pairs to coincide as
unordered pairs. -/
theorem mid_determines (p q : Coord × Coord)
    (hp1 : p.1.1 % 2 = 0 ∧ p.1.2 % 2 = 0) (hq1 : q.1.1 % 2 = 0 ∧ q.1.2 % 2 = 0)
    (hsp : twoStepPair p) (hsq : twoStepPair q) (hm : midW p = midW q) :
    (p.1 = q.1 ∧ p.2 = q.2) ∨ (p.1 = q.2 ∧ p.2 = q.1) := by
  obtain ⟨⟨ux, uy⟩, ⟨vx, vy⟩⟩ := p
  obtain ⟨⟨ax, ay⟩, ⟨bx, b2⟩⟩ := q
  simp only [twoStepPair, midW, Prod.mk.injEq] at *
  omega

theorem growsFrom_mid_nodup (w h : Nat) (V : List Coord)
    (pairs : List (Coord × Coord)) (hg : GrowsFrom w h V pairs)
    (hV : ∀ c ∈ V, c ∈ subCells w h) : (pairs.map midW).Nodup := by
  induction hg with
  | nil => simp
  | cons V u v rest hu hv hvs hshape hrest ih =>
    have hV2 : ∀ c ∈ v :: V, c ∈ subCells w h := by
      intro c hc
      rcases List.mem_cons.mp hc with rfl | hc2
      · exact hvs
      · exact hV c hc2
    simp only [List.map_cons, List.nodup_cons]
    refine ⟨?_, ih hV2⟩
    intro hmem
    obtain ⟨q, hq, hqm⟩ := List.mem_map.mp hmem
    have hueven := (mem_subCells w h u).mp (hV u hu)
    have hq1 := (growsFrom_sub w h (v :: V) rest hrest hV2 q hq).1
    have hqeven := (mem_subCells w h q.1).mp hq1
    have hdet := mid_determines (u, v) q ⟨hueven.2.2.1, hueven.2.2.2.2.2⟩
      ⟨hqeven.2.2.1, hqeven.2.2.2.2.2⟩ hshape
      (growsFrom_shape w h (v :: V) rest hrest q hq) hqm.symm
    have hqnot := growsFrom_snd_not w h (v :: V) rest hrest q hq
    rcases hdet with ⟨-, hqv⟩ | ⟨hqu, -⟩
    · apply hqnot
      have h2 : q.2 = v := by simpa using hqv.symm
      rw [h2]
      exact List.mem_cons_self _ _
    · apply hqnot
      have h2 : q.2 = u := by simpa using hqu.symm
      rw [h2]
      exact List.mem_cons_of_mem _ hu

/-- Counting a spanning growth run: region plus targets enumerate the
sub-grid exactly once. -/
theorem growsFrom_count (w h : Nat) (V : List Coord)
    (pairs : List (Coord × Coord)) (hg : GrowsFrom w h V pairs)
    (hVnd : V.Nodup) (hV : ∀ c ∈ V, c ∈ subCells w h)
    (hcover : ∀ c ∈ subCells w h, c ∈ V ∨ c ∈ pairs.map Prod.snd) :
    pairs.length + V.length = (subCells w h).length := by
  have hnd := growsFrom_nodup w h V pairs hg hVnd
  have hsub2 : ∀ c ∈ pairs.map Prod.snd ++ V, c ∈ subCells w h := by
    intro c hc
    rcases List.mem_append.mp hc with hc | hc
    · obtain ⟨p, hp, rfl⟩ := List.mem_map.mp hc
      exact (growsFrom_sub w h V pairs hg hV p hp).2
    · exact hV c hc
  have h1 := List.Subperm.length_le
    (List.subperm_of_subset hnd hsub2)
  have hsub3 : subCells w h ⊆ pairs.map Prod.snd ++ V := by
    intro c hc
    rcases hcover c hc with hc2 | hc2
    · exact List.mem_append_right _ hc2
    · exact List.mem_append_left _ hc2
  have h2 := List.Subperm.length_le
    (List.subperm_of_subset (subCells_nodup w h) hsub3)
  simp only [List.length_append, List.length_map] at h1 h2
  omega

/-! ## DFS backtracker lemmas -/

theorem mem_unvisitedTwoStep (x y : Int) (w h : Nat) (V : List Coord)
    (c : Coord) :
    c ∈ unvisitedTwoStep x y w h V ↔
      (∃ d ∈ twoStepMoves, c = (x + d.1, y + d.2)) ∧
      inRange c.1 w = true ∧ inRange c.2 h = true ∧ c ∉ V := by
  simp only [unvisitedTwoStep, List.mem_filter, List.mem_map,
    Bool.and_eq_true, Bool.not_eq_eq_eq_not, Bool.not_true,
    decide_eq_false_iff_not]
  constructor
  · rintro ⟨⟨d, hd, rfl⟩, ⟨h1, h2⟩, h3⟩
    exact ⟨⟨d, hd, rfl⟩, h1, h2, h3⟩
  · rintro ⟨⟨d, hd, rfl⟩, h1, h2, h3⟩
    exact ⟨⟨d, hd, rfl⟩, ⟨h1, h2⟩, h3⟩

/-- An empty unvisited-neighbour list means the cell is closed. -/
theorem unvisited_nil (x y : Int) (w h : Nat) (V : List Coord)
    (hnil : unvisitedTwoStep x y w h V = []) :
    ∀ d ∈ twoStepMoves, inRange (x + d.1) w = true →
      inRange (y + d.2) h = true → (x + d.1, y + d.2) ∈ V := by
  intro d hd h1 h2
  by_contra hno
  have : ((x + d.1, y + d.2) : Coord) ∈ unvisitedTwoStep x y w h V :=
    (mem_unvisitedTwoStep x y w h V _).mpr ⟨⟨d, hd, rfl⟩, h1, h2, hno⟩
  rw [hnil] at this
  simp at this

/-- A closed cell has an empty unvisited-neighbour list. -/
theorem unvisited_nil_of (x y : Int) (w h : Nat) (V : List Coord)
    (hcl : ∀ d ∈ twoStepMoves, inRange (x + d.1) w = true →
      inRange (y + d.2) h = true → (x + d.1, y + d.2) ∈ V) :
    unvisitedTwoStep x y w h V = [] := by
  rw [List.eq_nil_iff_forall_not_mem]
  intro c hc
  obtain ⟨⟨d, hd, rfl⟩, h1, h2, h3⟩ := (mem_unvisitedTwoStep x y w h V c).mp hc
  exact h3 (hcl d hd h1 h2)

/-- Two-step neighbours of a sub-grid cell stay on the sub-grid when in
bounds. -/
theorem twoStep_sub (w h : Nat) (x y : Int) (d : Int × Int)
    (hxy : ((x, y) : Coord) ∈ subCells w h) (hd : d ∈ twoStepMoves)
    (h1 : inRange (x + d.1) w = true) (h2 : inRange (y + d.2) h = true) :
    ((x + d.1, y + d.2) : Coord) ∈ subCells w h := by
  rw [mem_subCells] at hxy ⊢
  rw [inRange_iff] at h1 h2
  simp only [twoStepMoves, List.mem_cons, List.not_mem_nil, or_false] at hd
  rcases hd with rfl | rfl | rfl | rfl <;>
    simp only at h1 h2 ⊢ <;>
    exact ⟨by omega, by omega, by omega, by omega, by omega, by omega⟩

/-- Two-step neighbours realize the two-step pair shape. -/
theorem twoStep_shape (x y : Int) (d : Int × Int) (hd : d ∈ twoStepMoves) :
    twoStepPair ((x, y), (x + d.1, y + d.2)) := by
  simp only [twoStepMoves, List.mem_cons, List.not_mem_nil, or_false] at hd
  rcases hd with rfl | rfl | rfl | rfl
  · exact Or.inl ⟨by simp, by simp⟩
  · exact Or.inr (Or.inl ⟨by simp; omega, by simp⟩)
  · exact Or.inr (Or.inr (Or.inl ⟨by simp, by simp⟩))
  · exact Or.inr (Or.inr (Or.inr ⟨by simp, by simp; omega⟩))

/-- Cells of the pair edit sequence: walls and far cells of the pairs. -/
theorem pairEdits_cell (pairs : List (Coord × Coord)) (c : Coord) :
    (∃ e ∈ pairEdits pairs, e.1 = c.1 ∧ e.2.1 = c.2) ↔
      ∃ p ∈ pairs, c = midW p ∨ c = p.2 := by
  obtain ⟨cx, cy⟩ := c
  simp only [pairEdits, List.mem_flatMap, List.mem_cons, List.not_mem_nil,
    or_false]
  constructor
  · rintro ⟨e, ⟨p, hp, (rfl | rfl)⟩, h1, h2⟩
    · refine ⟨p, hp, Or.inl ?_⟩
      simp only at h1 h2
      rw [Prod.mk.injEq]
      exact ⟨h1.symm, h2.symm⟩
    · refine ⟨p, hp, Or.inr ?_⟩
      simp only at h1 h2
      rw [Prod.mk.injEq]
      exact ⟨h1.symm, h2.symm⟩
  · rintro ⟨p, hp, (heq | heq)⟩
    · refine ⟨(((midW p).1, (midW p).2, 1) : Edit), ⟨p, hp, Or.inl rfl⟩, ?_, ?_⟩
      · rw [← heq]
      · rw [← heq]
    · refine ⟨((p.2.1, p.2.2, 1) : Edit), ⟨p, hp, Or.inr rfl⟩, ?_, ?_⟩
      · rw [← heq]
      · rw [← heq]

/-- Pair edits only carve. -/
theorem pairEdits_ones (pairs : List (Coord × Coord)) :
    ∀ e ∈ pairEdits pairs, e.2.2 = 1 := by
  intro e he
  simp only [pairEdits, List.mem_flatMap, List.mem_cons, List.not_mem_nil,
    or_false] at he
  obtain ⟨p, -, (rfl | rfl)⟩ := he <;> rfl

/-- The sub-grid is no larger than the grid. -/
theorem subCells_length_le (w h : Nat) :
    (subCells w h).length ≤ w * h := by
  have hsub : subCells w h ⊆ allCells w h := by
    intro c hc
    rw [mem_subCells] at hc
    rw [mem_allCells]
    constructor
    · rw [inRange_iff]
      omega
    · rw [inRange_iff]
      omega
  have := List.Subperm.length_le
    (List.subperm_of_subset (subCells_nodup w h) hsub)
  rw [allCells_length] at this
  rw [Nat.mul_comm w h]
  exact this

/-- A duplicate-free list of sub-grid cells is no longer than the
sub-grid. -/
theorem visited_length_le (w h : Nat) (V : List Coord) (hnd : V.Nodup)
    (hsub : ∀ c ∈ V, c ∈ subCells w h) :
    V.length ≤ (subCells w h).length :=
  List.Subperm.length_le (List.subperm_of_subset hnd hsub)

/-- The backtracker run on an empty stack does nothing. -/
theorem dfsBRun_nil (σ : Nat → Nat) (w h f pos : Nat) (visited : List Coord) :
    dfsBRun σ w h (f + 1) pos [] visited = Except.ok [] := rfl

/-- The backtracker pops a cell with no unvisited two-step neighbour. -/
theorem dfsBRun_closed (σ : Nat → Nat) (w h f pos : Nat) (x y : Int)
    (rest visited : List Coord)
    (hu : unvisitedTwoStep x y w h visited = []) :
    dfsBRun σ w h (f + 1) pos ((x, y) :: rest) visited =
      dfsBRun σ w h f pos rest visited := by
  rw [dfsBRun]
  simp only [hu]

/-- The backtracker carves towards a randomly chosen unvisited
neighbour. -/
theorem dfsBRun_step (σ : Nat → Nat) (w h f pos : Nat) (x y : Int)
    (rest visited : List Coord) (n0 : Coord) (ns : List Coord) (nb : Coord)
    (pos2 : Nat) (hu : unvisitedTwoStep x y w h visited = n0 :: ns)
    (hch : choice σ pos (n0 :: ns) = Except.ok (nb, pos2)) :
    dfsBRun σ w h (f + 1) pos ((x, y) :: rest) visited =
      (dfsBRun σ w h f pos2 (nb :: (x, y) :: rest) (nb :: visited)).map
        (fun es => ((x + nb.1) / 2, (y + nb.2) / 2, 1) :: (nb.1, nb.2, 1) :: es)
    := by
  rw [dfsBRun]
  simp only [hu, hch]

/-- The backtracker loop always runs to exhaustion, produces exactly a
growth run of carve pairs, and leaves the carved region closed under
in-bounds two-step moves. -/
theorem dfsBRun_ok (σ : Nat → Nat) (w h : Nat) :
    ∀ fuel stack visited pos,
      (∀ c ∈ visited, c ∈ subCells w h) →
      (∀ c ∈ stack, c ∈ visited) →
      visited.Nodup →
      (∀ c ∈ visited, c ∉ stack →
        unvisitedTwoStep c.1 c.2 w h visited = []) →
      stack.length + 2 * ((subCells w h).length - visited.length) < fuel →
      ∃ pairs, dfsBRun σ w h fuel pos stack visited =
          Except.ok (pairEdits pairs) ∧
        GrowsFrom w h visited pairs ∧
        (∀ c ∈ pairs.map Prod.snd ++ visited,
          unvisitedTwoStep c.1 c.2 w h (pairs.map Prod.snd ++ visited) = []) := by
  intro fuel
  induction fuel with
  | zero =>
    intro stack visited pos _ _ _ _ hmu
    omega
  | succ f ih =>
    intro stack visited pos hsubV hstV hnd hclosed hmu
    cases stack with
    | nil =>
      refine ⟨[], dfsBRun_nil σ w h f pos visited, GrowsFrom.nil _, ?_⟩
      intro c hc
      simp only [List.map_nil, List.nil_append] at hc ⊢
      exact hclosed c hc (by simp)
    | cons c0 rest =>
      obtain ⟨x, y⟩ := c0
      cases hu : unvisitedTwoStep x y w h visited with
      | nil =>
        have hclosed2 : ∀ c ∈ visited, c ∉ rest →
            unvisitedTwoStep c.1 c.2 w h visited = [] := by
          intro c hc hcr
          by_cases hcx : c = ((x, y) : Coord)
          · rw [hcx]
            exact hu
          · exact hclosed c hc (by
              intro hmem
              rcases List.mem_cons.mp hmem with h1 | h1
              · exact hcx h1
              · exact hcr h1)
        obtain ⟨pairs, heq, hg, hcl⟩ := ih rest visited pos hsubV
          (fun c hc => hstV c (List.mem_cons_of_mem _ hc)) hnd hclosed2
          (by simp only [List.length_cons] at hmu; omega)
        exact ⟨pairs, (dfsBRun_closed σ w h f pos x y rest visited hu).trans heq,
          hg, hcl⟩
      | cons n0 ns =>
        obtain ⟨nb, hch, hnbmem⟩ := choice_ok σ pos (n0 :: ns) (by simp)
        rw [← hu] at hnbmem
        obtain ⟨⟨d, hd, hnb⟩, hinx, hiny, hnotv⟩ :=
          (mem_unvisitedTwoStep x y w h visited nb).mp hnbmem
        subst hnb
        have hxyV : ((x, y) : Coord) ∈ visited :=
          hstV (x, y) (List.mem_cons_self _ _)
        have hxySub : ((x, y) : Coord) ∈ subCells w h := hsubV _ hxyV
        have hnbSub : ((x + d.1, y + d.2) : Coord) ∈ subCells w h :=
          twoStep_sub w h x y d hxySub hd hinx hiny
        have hsubV2 : ∀ c ∈ ((x + d.1, y + d.2) : Coord) :: visited,
            c ∈ subCells w h := by
          intro c hc
          rcases List.mem_cons.mp hc with rfl | hc2
          · exact hnbSub
          · exact hsubV c hc2
        have hstV2 : ∀ c ∈ ((x + d.1, y + d.2) : Coord) :: (x, y) :: rest,
            c ∈ ((x + d.1, y + d.2) : Coord) :: visited := by
          intro c hc
          rcases List.mem_cons.mp hc with rfl | hc2
          · exact List.mem_cons_self _ _
          · exact List.mem_cons_of_mem _
              (hstV c hc2)
        have hnd2 : (((x + d.1, y + d.2) : Coord) :: visited).Nodup :=
          List.nodup_cons.mpr ⟨hnotv, hnd⟩
        have hclosed2 : ∀ c ∈ ((x + d.1, y + d.2) : Coord) :: visited,
            c ∉ ((x + d.1, y + d.2) : Coord) :: (x, y) :: rest →
            unvisitedTwoStep c.1 c.2 w h
              (((x + d.1, y + d.2) : Coord) :: visited) = [] := by
          intro c hc hcs
          have hcv : c ∈ visited := by
            rcases List.mem_cons.mp hc with rfl | hc2
            · exact absurd (List.mem_cons_self _ _) hcs
            · exact hc2
          have hcst : c ∉ ((x, y) : Coord) :: rest := by
            intro h1
            exact hcs (List.mem_cons_of_mem _ h1)
          have h0 := hclosed c hcv hcst
          apply unvisited_nil_of
          intro d2 hd2 hi1 hi2
          exact List.mem_cons_of_mem _
            (unvisited_nil _ _ _ _ _ h0 d2 hd2 hi1 hi2)
        have hlen : visited.length + 1 ≤ (subCells w h).length :=
          visited_length_le w h _ hnd2 hsubV2
        obtain ⟨pairs2, heq2, hg2, hcl2⟩ := ih
          (((x + d.1, y + d.2) : Coord) :: (x, y) :: rest)
          (((x + d.1, y + d.2) : Coord) :: visited) (pos + 1)
          hsubV2 hstV2 hnd2 hclosed2 (by
            simp only [List.length_cons] at hmu ⊢
            omega)
        refine ⟨((x, y), ((x + d.1, y + d.2) : Coord)) :: pairs2, ?_, ?_, ?_⟩
        · rw [dfsBRun_step σ w h f pos x y rest visited n0 ns _ (pos + 1) hu
            hch, heq2]
          rfl
        · exact GrowsFrom.cons _ _ _ _ hxyV hnotv hnbSub
            (twoStep_shape x y d hd) hg2
        · have hsetiff : ∀ z : Coord,
              z ∈ (((x, y), ((x + d.1, y + d.2) : Coord)) :: pairs2).map
                Prod.snd ++ visited ↔
              z ∈ pairs2.map Prod.snd ++
                (((x + d.1, y + d.2) : Coord) :: visited) := by
            intro z
            simp only [List.map_cons, List.cons_append, List.mem_cons,
              List.mem_append]
            tauto
          intro c hc
          have hc2 := (hsetiff c).mp hc
          have h0 := hcl2 c hc2
          apply unvisited_nil_of
          intro d2 hd2 hi1 hi2
          exact (hsetiff _).mpr (unvisited_nil _ _ _ _ _ h0 d2 hd2 hi1 hi2)

/-- End-to-end correctness of the backtracker loop started at the origin:
the carved passages form one component and a spanning tree of the
sub-grid. -/
theorem dfsB_main (σ : Nat → Nat) (w h : Nat) (hw : 1 ≤ w) (hh : 1 ≤ h) :
    ∃ E, (dfsBRun σ w h (2 * (w * h) + 2) 0 [((0 : Int), (0 : Int))]
        [((0 : Int), (0 : Int))]).map
        (fun es => (((0 : Int), (0 : Int), (1 : Nat)) : Edit) :: es) =
        Except.ok E ∧
      OneComponent (finalPassage E) ∧
      subEdgeCount w h (finalPassage E) = (subCells w h).length - 1 := by
  have h00sub : (((0 : Int), (0 : Int)) : Coord) ∈ subCells w h := by
    rw [mem_subCells]
    refine ⟨by omega, by simp; omega, by omega, by omega, by simp; omega,
      by omega⟩
  have hn1 : 1 ≤ (subCells w h).length := List.length_pos.mpr
    (List.ne_nil_of_mem h00sub)
  have hnwh := subCells_length_le w h
  obtain ⟨pairs, heq, hg, hcl⟩ := dfsBRun_ok σ w h (2 * (w * h) + 2)
    [((0 : Int), (0 : Int))] [((0 : Int), (0 : Int))] 0
    (by
      intro c hc
      rw [List.mem_singleton] at hc
      rw [hc]
      exact h00sub)
    (fun c hc => hc) (List.nodup_singleton _)
    (by
      intro c hc hcs
      exact absurd hc hcs)
    (by simp only [List.length_singleton]; omega)
  have hVsub : ∀ c ∈ [(((0 : Int), (0 : Int)) : Coord)], c ∈ subCells w h := by
    intro c hc
    rw [List.mem_singleton] at hc
    rw [hc]
    exact h00sub
  have hcover : ∀ c ∈ subCells w h,
      c ∈ [(((0 : Int), (0 : Int)) : Coord)] ∨ c ∈ pairs.map Prod.snd := by
    have hspan := subgrid_span w h
      (pairs.map Prod.snd ++ [(((0 : Int), (0 : Int)) : Coord)])
      (by simp)
      (by
        intro c hcV hcsub d hd h1 h2
        exact unvisited_nil _ _ _ _ _ (hcl c hcV) d hd h1 h2)
    intro c hc
    rcases List.mem_append.mp (hspan c hc) with h1 | h1
    · exact Or.inr h1
    · exact Or.inl h1
  refine ⟨(((0 : Int), (0 : Int), (1 : Nat)) : Edit) :: pairEdits pairs,
    by rw [heq]; rfl, ?_⟩
  apply tree_bridge w h hw hh _ pairs
  · intro c
    obtain ⟨cx, cy⟩ := c
    constructor
    · rintro ⟨e, he, h1, h2⟩
      rcases List.mem_cons.mp he with rfl | he2
      · simp only at h1 h2
        left
        have : ((cx, cy) : Coord) = ((0 : Int), (0 : Int)) := by
          rw [Prod.mk.injEq]
          exact ⟨h1.symm, h2.symm⟩
        rw [this]
        exact h00sub
      · rcases (pairEdits_cell pairs (cx, cy)).mp ⟨e, he2, h1, h2⟩
          with ⟨p, hp, hm | hm⟩
        · exact Or.inr ⟨p, hp, hm⟩
        · exact Or.inl (hm ▸ (growsFrom_sub w h _ pairs hg hVsub p hp).2)
    · intro hc
      rcases hc with hc | ⟨p, hp, hm⟩
      · rcases hcover _ hc with h1 | h1
        · rw [List.mem_singleton] at h1
          exact ⟨(((0 : Int), (0 : Int), (1 : Nat)) : Edit),
            List.mem_cons_self _ _, by rw [h1], by rw [h1]⟩
        · obtain ⟨p, hp, hpc⟩ := List.mem_map.mp h1
          obtain ⟨e, he, hee⟩ := (pairEdits_cell pairs (cx, cy)).mpr
            ⟨p, hp, Or.inr hpc.symm⟩
          exact ⟨e, List.mem_cons_of_mem _ he, hee⟩
      · obtain ⟨e, he, hee⟩ := (pairEdits_cell pairs (cx, cy)).mpr
          ⟨p, hp, Or.inl hm⟩
        exact ⟨e, List.mem_cons_of_mem _ he, hee⟩
  · intro e he
    rcases List.mem_cons.mp he with rfl | he2
    · rfl
    · exact pairEdits_ones pairs e he2
  · exact growsFrom_sub w h _ pairs hg hVsub
  · exact growsFrom_shape w h _ pairs hg
  · intro c hc
    apply growsFrom_conn w h _ pairs hg pairs (fun p hp => hp)
      (by
        intro c2 hc2
        rw [List.mem_singleton] at hc2
        rw [hc2]
        exact Relation.ReflTransGen.refl)
    rcases hcover c hc with h1 | h1
    · exact Or.inl h1
    · exact Or.inr h1
  · have := growsFrom_count w h _ pairs hg (List.nodup_singleton _)
      hVsub hcover
    simp only [List.length_singleton] at this
    exact this
  · exact growsFrom_mid_nodup w h _ pairs hg hVsub

/-- The DFS backtracker generator always succeeds, its passages form one
component, and the sub-grid tree property holds on the forced-odd
dimensions. -/
theorem DFSBacktracker_ok (σ : Nat → Nat) (width height : Nat)
    (hw : 1 ≤ width) (hh : 1 ≤ height) :
    ∃ E, DFSBacktracker σ width height = Except.ok E ∧
      OneComponent (finalPassage E) ∧
      subEdgeCount (ensure_odd width) (ensure_odd height) (finalPassage E) =
        (subCells (ensure_odd width) (ensure_odd height)).length - 1 := by
  have hw1 : 1 ≤ ensure_odd width := by
    unfold ensure_odd
    split <;> omega
  have hh1 : 1 ≤ ensure_odd height := by
    unfold ensure_odd
    split <;> omega
  obtain ⟨E, heq, hone, hcnt⟩ :=
    dfsB_main σ (ensure_odd width) (ensure_odd height) hw1 hh1
  exact ⟨E, heq, hone, hcnt⟩

/-! ## Prim lemmas -/

theorem mem_addFrontiers (x y : Int) (w h : Nat) (V : List Coord)
    (fe : Frontier) :
    fe ∈ addFrontiers x y w h V ↔
      ∃ d ∈ twoStepMoves, inRange (x + d.1) w = true ∧
        inRange (y + d.2) h = true ∧ ((x + d.1, y + d.2) : Coord) ∉ V ∧
        fe = ((x + d.1 / 2, y + d.2 / 2), (x + d.1, y + d.2)) := by
  simp only [addFrontiers, List.mem_filterMap]
  constructor
  · rintro ⟨d, hd, hf⟩
    split at hf
    · rename_i hcond
      simp only [Bool.and_eq_true, Bool.not_eq_eq_eq_not, Bool.not_true,
        decide_eq_false_iff_not] at hcond
      injection hf with hf
      exact ⟨d, hd, hcond.1.1, hcond.1.2, hcond.2, hf.symm⟩
    · simp at hf
  · rintro ⟨d, hd, h1, h2, h3, rfl⟩
    refine ⟨d, hd, ?_⟩
    rw [if_pos]
    simp only [Bool.and_eq_true, Bool.not_eq_eq_eq_not, Bool.not_true,
      decide_eq_false_iff_not]
    exact ⟨⟨h1, h2⟩, h3⟩

/-- Frontier entries around a sub-grid cell: fresh in-bounds sub-grid
targets two steps away, tagged with the connecting wall. -/
theorem addFrontiers_inv (x y : Int) (w h : Nat) (V : List Coord)
    (hsub : ((x, y) : Coord) ∈ subCells w h) :
    ∀ fe ∈ addFrontiers x y w h V,
      fe.2 ∈ subCells w h ∧ twoStepPair ((x, y), fe.2) ∧
      fe.1 = midW ((x, y), fe.2) ∧ fe.2 ∉ V := by
  intro fe hfe
  obtain ⟨d, hd, h1, h2, h3, rfl⟩ := (mem_addFrontiers x y w h V fe).mp hfe
  refine ⟨twoStep_sub w h x y d hsub hd h1 h2, twoStep_shape x y d hd, ?_, h3⟩
  have hd2 : d = ((2 : Int), (0 : Int)) ∨ d = ((-2 : Int), (0 : Int)) ∨
      d = ((0 : Int), (2 : Int)) ∨ d = ((0 : Int), (-2 : Int)) := by
    simpa [twoStepMoves] using hd
  simp only [midW, Prod.mk.injEq]
  rcases hd2 with rfl | rfl | rfl | rfl <;> constructor <;> simp <;> omega

theorem length_addFrontiers_le (x y : Int) (w h : Nat) (V : List Coord) :
    (addFrontiers x y w h V).length ≤ 4 := by
  have := List.length_filterMap_le
    (fun d => (fun c : Coord =>
      if inRange c.1 w && inRange c.2 h && !(decide (c ∈ V)) then
        some (((x + d.1 / 2, y + d.2 / 2), c) : Frontier)
      else none) (x + d.1, y + d.2)) twoStepMoves
  simpa [addFrontiers, twoStepMoves] using this

/-- Erasing one position keeps every element with a different value. -/
theorem mem_eraseIdx_of_ne {α : Type} :
    ∀ (l : List α) (i : Nat) (hi : i < l.length) (x : α),
      x ∈ l → x ≠ l.get ⟨i, hi⟩ → x ∈ l.eraseIdx i := by
  intro l
  induction l with
  | nil =>
    intro i hi
    simp at hi
  | cons a l ih =>
    intro i hi x hx hne
    cases i with
    | zero =>
      rcases List.mem_cons.mp hx with rfl | h2
      · exact absurd rfl hne
      · simpa [List.eraseIdx] using h2
    | succ i =>
      rcases List.mem_cons.mp hx with rfl | h2
      · simp [List.eraseIdx]
      · simp only [List.eraseIdx]
        exact List.mem_cons_of_mem _
          (ih i (by simpa using hi) x h2 (by simpa using hne))

theorem mem_of_mem_eraseIdx2 {α : Type} :
    ∀ (l : List α) (i : Nat) (x : α), x ∈ l.eraseIdx i → x ∈ l := by
  intro l
  induction l with
  | nil =>
    intro i x hx
    simp [List.eraseIdx] at hx
  | cons a l ih =>
    intro i x hx
    cases i with
    | zero => exact List.mem_cons_of_mem _ (by simpa [List.eraseIdx] using hx)
    | succ i =>
      simp only [List.eraseIdx] at hx
      rcases List.mem_cons.mp hx with rfl | h2
      · exact List.mem_cons_self _ _
      · exact List.mem_cons_of_mem _ (ih i x h2)

theorem eraseIdx_length {α : Type} :
    ∀ (l : List α) (i : Nat), i < l.length →
      (l.eraseIdx i).length + 1 = l.length := by
  intro l
  induction l with
  | nil =>
    intro i hi
    simp at hi
  | cons a l ih =>
    intro i hi
    cases i with
    | zero => simp [List.eraseIdx]
    | succ i =>
      simp only [List.eraseIdx, List.length_cons]
      rw [ih i (by simpa using hi)]

/-- Unfolding a Prim step that pops an already-visited target. -/
theorem primRun_skip (σ : Nat → Nat) (w h f pos : Nat) (visited : List Coord)
    (e0 : Frontier) (es : List Frontier)
    (hvis : ((e0 :: es).get ⟨σ pos % (es.length + 1),
      Nat.mod_lt _ (Nat.succ_pos _)⟩).2 ∈ visited) :
    primRun σ w h (f + 1) pos visited (e0 :: es) =
      primRun σ w h f (pos + 1) visited
        ((e0 :: es).eraseIdx (σ pos % (es.length + 1))) := by
  rw [primRun]
  simp only [if_pos hvis]

/-- Unfolding a Prim step that carves towards a fresh target. -/
theorem primRun_visit (σ : Nat → Nat) (w h f pos : Nat) (visited : List Coord)
    (e0 : Frontier) (es : List Frontier)
    (hvis : ((e0 :: es).get ⟨σ pos % (es.length + 1),
      Nat.mod_lt _ (Nat.succ_pos _)⟩).2 ∉ visited) :
    primRun σ w h (f + 1) pos visited (e0 :: es) =
      (primRun σ w h f (pos + 1)
          (((e0 :: es).get ⟨σ pos % (es.length + 1),
            Nat.mod_lt _ (Nat.succ_pos _)⟩).2 :: visited)
          ((e0 :: es).eraseIdx (σ pos % (es.length + 1)) ++
            addFrontiers
              ((e0 :: es).get ⟨σ pos % (es.length + 1),
                Nat.mod_lt _ (Nat.succ_pos _)⟩).2.1
              ((e0 :: es).get ⟨σ pos % (es.length + 1),
                Nat.mod_lt _ (Nat.succ_pos _)⟩).2.2 w h
              (((e0 :: es).get ⟨σ pos % (es.length + 1),
                Nat.mod_lt _ (Nat.succ_pos _)⟩).2 :: visited))).map
        (fun es2 =>
          (((e0 :: es).get ⟨σ pos % (es.length + 1),
              Nat.mod_lt _ (Nat.succ_pos _)⟩).1.1,
           ((e0 :: es).get ⟨σ pos % (es.length + 1),
              Nat.mod_lt _ (Nat.succ_pos _)⟩).1.2, 1) ::
          (((e0 :: es).get ⟨σ pos % (es.length + 1),
              Nat.mod_lt _ (Nat.succ_pos _)⟩).2.1,
           ((e0 :: es).get ⟨σ pos % (es.length + 1),
              Nat.mod_lt _ (Nat.succ_pos _)⟩).2.2, 1) :: es2) := by
  rw [primRun]
  simp only [if_neg hvis]

/-- The Prim loop always runs to exhaustion, produces exactly a growth run
of carve pairs, and leaves the carved region closed under in-bounds
two-step moves. -/
theorem primRun_ok (σ : Nat → Nat) (w h : Nat) :
    ∀ fuel visited frontiers pos,
      (∀ c ∈ visited, c ∈ subCells w h) →
      visited.Nodup →
      (∀ fe ∈ frontiers, ∃ s, s ∈ visited ∧ fe.2 ∈ subCells w h ∧
        twoStepPair (s, fe.2) ∧ fe.1 = midW (s, fe.2)) →
      (∀ c ∈ visited, ∀ d ∈ twoStepMoves, inRange (c.1 + d.1) w = true →
        inRange (c.2 + d.2) h = true →
        ((c.1 + d.1, c.2 + d.2) : Coord) ∉ visited →
        ∃ fe ∈ frontiers, fe.2 = ((c.1 + d.1, c.2 + d.2) : Coord)) →
      frontiers.length + 5 * ((subCells w h).length - visited.length) < fuel →
      ∃ pairs, primRun σ w h fuel pos visited frontiers =
          Except.ok (pairEdits pairs) ∧
        GrowsFrom w h visited pairs ∧
        (∀ c ∈ pairs.map Prod.snd ++ visited, ∀ d ∈ twoStepMoves,
          inRange (c.1 + d.1) w = true → inRange (c.2 + d.2) h = true →
          ((c.1 + d.1, c.2 + d.2) : Coord) ∈ pairs.map Prod.snd ++ visited) := by
  intro fuel
  induction fuel with
  | zero =>
    intro visited frontiers pos _ _ _ _ hmu
    omega
  | succ f ih =>
    intro visited frontiers pos hsubV hnd hfr hclosed hmu
    cases frontiers with
    | nil =>
      refine ⟨[], rfl, GrowsFrom.nil _, ?_⟩
      intro c hc d hd h1 h2
      simp only [List.map_nil, List.nil_append] at hc ⊢
      by_contra hno
      obtain ⟨fe, hfe, -⟩ := hclosed c hc d hd h1 h2 hno
      simp at hfe
    | cons e0 es =>
      have hilt : σ pos % (es.length + 1) < (e0 :: es).length :=
        Nat.mod_lt _ (Nat.succ_pos _)
      have hfemem : (e0 :: es).get ⟨σ pos % (es.length + 1),
          Nat.mod_lt _ (Nat.succ_pos _)⟩ ∈ e0 :: es := List.get_mem _ _ _
      have herlen : ((e0 :: es).eraseIdx (σ pos % (es.length + 1))).length + 1
          = (e0 :: es).length := eraseIdx_length _ _ hilt
      by_cases hvis : ((e0 :: es).get ⟨σ pos % (es.length + 1),
          Nat.mod_lt _ (Nat.succ_pos _)⟩).2 ∈ visited
      · obtain ⟨pairs, heq, hg, hcl⟩ := ih visited
          ((e0 :: es).eraseIdx (σ pos % (es.length + 1))) (pos + 1)
          hsubV hnd
          (fun fe hfe => hfr fe (mem_of_mem_eraseIdx2 _ _ fe hfe))
          (by
            intro c hc d hd h1 h2 hno
            obtain ⟨fe, hfe, hfet⟩ := hclosed c hc d hd h1 h2 hno
            refine ⟨fe, ?_, hfet⟩
            apply mem_eraseIdx_of_ne _ _ hilt fe hfe
            intro hcontra
            rw [hcontra] at hfet
            exact hno (hfet ▸ hvis))
          (by
            simp only [List.length_cons] at hmu herlen
            omega)
        exact ⟨pairs, (primRun_skip σ w h f pos visited e0 es hvis).trans heq,
          hg, hcl⟩
      · obtain ⟨s, hsV, hfesub, hshape, hwall⟩ := hfr _ hfemem
        have hsubV2 : ∀ c ∈ ((e0 :: es).get ⟨σ pos % (es.length + 1),
            Nat.mod_lt _ (Nat.succ_pos _)⟩).2 :: visited, c ∈ subCells w h := by
          intro c hc
          rcases List.mem_cons.mp hc with rfl | hc2
          · exact hfesub
          · exact hsubV c hc2
        have hnd2 : (((e0 :: es).get ⟨σ pos % (es.length + 1),
            Nat.mod_lt _ (Nat.succ_pos _)⟩).2 :: visited).Nodup :=
          List.nodup_cons.mpr ⟨hvis, hnd⟩
        have hlen : visited.length + 1 ≤ (subCells w h).length :=
          visited_length_le w h _ hnd2 hsubV2
        obtain ⟨pairs2, heq2, hg2, hcl2⟩ := ih
          (((e0 :: es).get ⟨σ pos % (es.length + 1),
            Nat.mod_lt _ (Nat.succ_pos _)⟩).2 :: visited)
          ((e0 :: es).eraseIdx (σ pos % (es.length + 1)) ++
            addFrontiers
              ((e0 :: es).get ⟨σ pos % (es.length + 1),
                Nat.mod_lt _ (Nat.succ_pos _)⟩).2.1
              ((e0 :: es).get ⟨σ pos % (es.length + 1),
                Nat.mod_lt _ (Nat.succ_pos _)⟩).2.2 w h
              (((e0 :: es).get ⟨σ pos % (es.length + 1),
                Nat.mod_lt _ (Nat.succ_pos _)⟩).2 :: visited))
          (pos + 1) hsubV2 hnd2
          (by
            intro fe hfe
            rcases List.mem_append.mp hfe with hfe2 | hfe2
            · obtain ⟨s2, hs2, hrest⟩ := hfr fe (mem_of_mem_eraseIdx2 _ _ fe hfe2)
              exact ⟨s2, List.mem_cons_of_mem _ hs2, hrest⟩
            · have := addFrontiers_inv _ _ w h _ hfesub fe hfe2
              exact ⟨_, List.mem_cons_self _ _, this.1, this.2.1, this.2.2.1⟩)
          (by
            intro c hc d hd h1 h2 hno
            rcases List.mem_cons.mp hc with hceq | hc2
            · rw [← hceq] at hno ⊢
              refine ⟨((c.1 + d.1 / 2, c.2 + d.2 / 2), (c.1 + d.1, c.2 + d.2)),
                List.mem_append_right _ ?_, rfl⟩
              exact (mem_addFrontiers c.1 c.2 w h _ _).mpr
                ⟨d, hd, h1, h2, hno, rfl⟩
            · obtain ⟨fe, hfe, hfet⟩ := hclosed c hc2 d hd h1 h2
                (fun hmem => hno (List.mem_cons_of_mem _ hmem))
              refine ⟨fe, List.mem_append_left _ ?_, hfet⟩
              apply mem_eraseIdx_of_ne _ _ hilt fe hfe
              intro hcontra
              apply hno
              rw [← hfet, hcontra]
              exact List.mem_cons_self _ _
            )
          (by
            have haf := length_addFrontiers_le
              ((e0 :: es).get ⟨σ pos % (es.length + 1),
                Nat.mod_lt _ (Nat.succ_pos _)⟩).2.1
              ((e0 :: es).get ⟨σ pos % (es.length + 1),
                Nat.mod_lt _ (Nat.succ_pos _)⟩).2.2 w h
              (((e0 :: es).get ⟨σ pos % (es.length + 1),
                Nat.mod_lt _ (Nat.succ_pos _)⟩).2 :: visited)
            simp only [List.length_cons, List.length_append] at hmu herlen ⊢
            omega)
        refine ⟨(s, ((e0 :: es).get ⟨σ pos % (es.length + 1),
            Nat.mod_lt _ (Nat.succ_pos _)⟩).2) :: pairs2, ?_, ?_, ?_⟩
        · rw [primRun_visit σ w h f pos visited e0 es hvis, heq2]
          rw [hwall]
          rfl
        · exact GrowsFrom.cons _ _ _ _ hsV hvis hfesub hshape hg2
        · have hsetiff : ∀ z : Coord,
              z ∈ ((s, ((e0 :: es).get ⟨σ pos % (es.length + 1),
                  Nat.mod_lt _ (Nat.succ_pos _)⟩).2) :: pairs2).map
                Prod.snd ++ visited ↔
              z ∈ pairs2.map Prod.snd ++
                (((e0 :: es).get ⟨σ pos % (es.length + 1),
                  Nat.mod_lt _ (Nat.succ_pos _)⟩).2 :: visited) := by
            intro z
            simp only [List.map_cons, List.cons_append, List.mem_cons,
              List.mem_append]
            tauto
          intro c hc d hd h1 h2
          exact (hsetiff _).mpr
            (hcl2 c ((hsetiff c).mp hc) d hd h1 h2)

/-- A spanning growth run rooted at the origin, together with the origin
carve, satisfies the claimed final properties. -/
theorem grows_bridge (w h : Nat) (hw : 1 ≤ w) (hh : 1 ≤ h)
    (pairs : List (Coord × Coord))
    (hg : GrowsFrom w h [(((0 : Int), (0 : Int)) : Coord)] pairs)
    (hcl : ∀ c ∈ pairs.map Prod.snd ++ [(((0 : Int), (0 : Int)) : Coord)],
      ∀ d ∈ twoStepMoves, inRange (c.1 + d.1) w = true →
      inRange (c.2 + d.2) h = true →
      ((c.1 + d.1, c.2 + d.2) : Coord) ∈
        pairs.map Prod.snd ++ [(((0 : Int), (0 : Int)) : Coord)]) :
    OneComponent (finalPassage
      ((((0 : Int), (0 : Int), (1 : Nat)) : Edit) :: pairEdits pairs)) ∧
    subEdgeCount w h (finalPassage
      ((((0 : Int), (0 : Int), (1 : Nat)) : Edit) :: pairEdits pairs)) =
      (subCells w h).length - 1 := by
  have h00sub : (((0 : Int), (0 : Int)) : Coord) ∈ subCells w h := by
    rw [mem_subCells]
    refine ⟨by omega, by simp; omega, by omega, by omega, by simp; omega,
      by omega⟩
  have hVsub : ∀ c ∈ [(((0 : Int), (0 : Int)) : Coord)], c ∈ subCells w h := by
    intro c hc
    rw [List.mem_singleton] at hc
    rw [hc]
    exact h00sub
  have hcover : ∀ c ∈ subCells w h,
      c ∈ [(((0 : Int), (0 : Int)) : Coord)] ∨ c ∈ pairs.map Prod.snd := by
    have hspan := subgrid_span w h
      (pairs.map Prod.snd ++ [(((0 : Int), (0 : Int)) : Coord)])
      (by simp)
      (by
        intro c hcV hcsub d hd h1 h2
        exact hcl c hcV d hd h1 h2)
    intro c hc
    rcases List.mem_append.mp (hspan c hc) with h1 | h1
    · exact Or.inr h1
    · exact Or.inl h1
  apply tree_bridge w h hw hh _ pairs
  · intro c
    obtain ⟨cx, cy⟩ := c
    constructor
    · rintro ⟨e, he, h1, h2⟩
      rcases List.mem_cons.mp he with rfl | he2
      · simp only at h1 h2
        left
        have : ((cx, cy) : Coord) = ((0 : Int), (0 : Int)) := by
          rw [Prod.mk.injEq]
          exact ⟨h1.symm, h2.symm⟩
        rw [this]
        exact h00sub
      · rcases (pairEdits_cell pairs (cx, cy)).mp ⟨e, he2, h1, h2⟩
          with ⟨p, hp, hm | hm⟩
        · exact Or.inr ⟨p, hp, hm⟩
        · exact Or.inl (hm ▸ (growsFrom_sub w h _ pairs hg hVsub p hp).2)
    · intro hc
      rcases hc with hc | ⟨p, hp, hm⟩
      · rcases hcover _ hc with h1 | h1
        · rw [List.mem_singleton] at h1
          exact ⟨(((0 : Int), (0 : Int), (1 : Nat)) : Edit),
            List.mem_cons_self _ _, by rw [h1], by rw [h1]⟩
        · obtain ⟨p, hp, hpc⟩ := List.mem_map.mp h1
          obtain ⟨e, he, hee⟩ := (pairEdits_cell pairs (cx, cy)).mpr
            ⟨p, hp, Or.inr hpc.symm⟩
          exact ⟨e, List.mem_cons_of_mem _ he, hee⟩
      · obtain ⟨e, he, hee⟩ := (pairEdits_cell pairs (cx, cy)).mpr
          ⟨p, hp, Or.inl hm⟩
        exact ⟨e, List.mem_cons_of_mem _ he, hee⟩
  · intro e he
    rcases List.mem_cons.mp he with rfl | he2
    · rfl
    · exact pairEdits_ones pairs e he2
  · exact growsFrom_sub w h _ pairs hg hVsub
  · exact growsFrom_shape w h _ pairs hg
  · intro c hc
    apply growsFrom_conn w h _ pairs hg pairs (fun p hp => hp)
      (by
        intro c2 hc2
        rw [List.mem_singleton] at hc2
        rw [hc2]
        exact Relation.ReflTransGen.refl)
    rcases hcover c hc with h1 | h1
    · exact Or.inl h1
    · exact Or.inr h1
  · have := growsFrom_count w h _ pairs hg (List.nodup_singleton _)
      hVsub hcover
    simp only [List.length_singleton] at this
    exact this
  · exact growsFrom_mid_nodup w h _ pairs hg hVsub

/-- End-to-end correctness of the Prim loop started at the origin. -/
theorem prim_main (σ : Nat → Nat) (w h : Nat) (hw : 1 ≤ w) (hh : 1 ≤ h) :
    ∃ E, (primRun σ w h (5 * (w * h) + 5) 0 [((0 : Int), (0 : Int))]
        (addFrontiers 0 0 w h [((0 : Int), (0 : Int))])).map
        (fun es => (((0 : Int), (0 : Int), (1 : Nat)) : Edit) :: es) =
        Except.ok E ∧
      OneComponent (finalPassage E) ∧
      subEdgeCount w h (finalPassage E) = (subCells w h).length - 1 := by
  have h00sub : (((0 : Int), (0 : Int)) : Coord) ∈ subCells w h := by
    rw [mem_subCells]
    refine ⟨by omega, by simp; omega, by omega, by omega, by simp; omega,
      by omega⟩
  have hn1 : 1 ≤ (subCells w h).length := List.length_pos.mpr
    (List.ne_nil_of_mem h00sub)
  have hnwh := subCells_length_le w h
  have haf := length_addFrontiers_le 0 0 w h [(((0 : Int), (0 : Int)) : Coord)]
  obtain ⟨pairs, heq, hg, hcl⟩ := primRun_ok σ w h (5 * (w * h) + 5)
    [((0 : Int), (0 : Int))] (addFrontiers 0 0 w h [((0 : Int), (0 : Int))]) 0
    (by
      intro c hc
      rw [List.mem_singleton] at hc
      rw [hc]
      exact h00sub)
    (List.nodup_singleton _)
    (by
      intro fe hfe
      have := addFrontiers_inv 0 0 w h _ h00sub fe hfe
      exact ⟨_, List.mem_singleton_self _, this.1, this.2.1, this.2.2.1⟩)
    (by
      intro c hc d hd h1 h2 hno
      rw [List.mem_singleton] at hc
      rw [hc] at h1 h2 hno ⊢
      refine ⟨(((0 : Int) + d.1 / 2, (0 : Int) + d.2 / 2),
        ((0 : Int) + d.1, (0 : Int) + d.2)), ?_, rfl⟩
      exact (mem_addFrontiers 0 0 w h _ _).mpr ⟨d, hd, h1, h2, hno, rfl⟩)
    (by simp only [List.length_singleton]; omega)
  refine ⟨(((0 : Int), (0 : Int), (1 : Nat)) : Edit) :: pairEdits pairs,
    by rw [heq]; rfl, ?_⟩
  exact grows_bridge w h hw hh pairs hg hcl

/-- The Prim generator always succeeds, its passages form one component,
and the sub-grid tree property holds on the forced-odd dimensions. -/
theorem Prim_ok (σ : Nat → Nat) (width height : Nat)
    (hw : 1 ≤ width) (hh : 1 ≤ height) :
    ∃ E, Prim σ width height = Except.ok E ∧
      OneComponent (finalPassage E) ∧
      subEdgeCount (ensure_odd width) (ensure_odd height) (finalPassage E) =
        (subCells (ensure_odd width) (ensure_odd height)).length - 1 := by
  have hw1 : 1 ≤ ensure_odd width := by
    unfold ensure_odd
    split <;> omega
  have hh1 : 1 ≤ ensure_odd height := by
    unfold ensure_odd
    split <;> omega
  obtain ⟨E, heq, hone, hcnt⟩ :=
    prim_main σ (ensure_odd width) (ensure_odd height) hw1 hh1
  exact ⟨E, heq, hone, hcnt⟩


/-! ## Kruskal verification: shuffle, union-find, processing loop -/

/-- Picking an element and erasing its slot is a permutation. -/
theorem get_cons_eraseIdx {α : Type} (l : List α) (i : Fin l.length) :
    List.Perm (l.get i :: l.eraseIdx i.1) l := by
  have h1 : l.eraseIdx i.1 = l.take i.1 ++ l.drop (i.1 + 1) :=
    List.eraseIdx_eq_take_drop_succ l i.1
  have h2 : l = l.take i.1 ++ l.get i :: l.drop (i.1 + 1) := by
    conv_lhs => rw [← List.take_append_drop i.1 l]
    congr 1
    rw [List.get_eq_getElem]
    exact List.drop_eq_getElem_cons i.isLt
  rw [h1]
  conv_rhs => rw [h2]
  exact List.perm_middle.symm

/-- The oracle shuffle permutes its input. -/
theorem shuffleGo_perm {α : Type} (σ : Nat → Nat) :
    ∀ (f : Nat) (l : List α) (pos : Nat), l.length ≤ f →
      List.Perm (shuffleGo σ f l pos).1 l := by
  intro f
  induction f with
  | zero =>
    intro l pos hl
    have h0 : l = [] := List.eq_nil_of_length_eq_zero (by omega)
    subst h0
    exact List.Perm.refl _
  | succ f ih =>
    intro l pos hl
    cases l with
    | nil => exact List.Perm.refl _
    | cons a rest =>
      have hunf : (shuffleGo σ (f + 1) (a :: rest) pos).1 =
          (a :: rest).get ⟨σ pos % (rest.length + 1),
            Nat.mod_lt _ (Nat.succ_pos _)⟩ ::
          (shuffleGo σ f ((a :: rest).eraseIdx (σ pos % (rest.length + 1)))
            (pos + 1)).1 := rfl
      rw [hunf]
      have hilt : σ pos % (rest.length + 1) < (a :: rest).length :=
        Nat.mod_lt _ (Nat.succ_pos _)
      have hlen : ((a :: rest).eraseIdx (σ pos % (rest.length + 1))).length ≤ f := by
        have := eraseIdx_length (a :: rest) (σ pos % (rest.length + 1)) hilt
        simp only [List.length_cons] at this hl ⊢
        omega
      exact (List.Perm.cons _ (ih _ (pos + 1) hlen)).trans
        (get_cons_eraseIdx (a :: rest) ⟨σ pos % (rest.length + 1), hilt⟩)

theorem shuffle_perm {α : Type} (σ : Nat → Nat) (l : List α) (pos : Nat) :
    List.Perm (shuffle σ l pos).1 l :=
  shuffleGo_perm σ l.length l pos (le_refl _)

/- ### parent-chain basics -/

theorem parIter_add (par : Coord → Coord) (m n : Nat) (c : Coord) :
    parIter par (m + n) c = parIter par m (parIter par n c) := by
  induction n generalizing c with
  | zero => rfl
  | succ n ih =>
    show parIter par (m + n) (par c) = _
    rw [ih (par c)]
    rfl

theorem parIter_out (par : Coord → Coord) (k : Nat) (c : Coord) :
    parIter par (k + 1) c = par (parIter par k c) := by
  rw [Nat.add_comm, parIter_add]
  rfl

theorem parIter_fix (par : Coord → Coord) (r : Coord) (hr : par r = r) :
    ∀ k, parIter par k r = r := by
  intro k
  induction k with
  | zero => rfl
  | succ k ih =>
    rw [parIter_out, ih, hr]

theorem ufReaches_unique (par : Coord → Coord) (c r1 r2 : Coord)
    (h1 : ufReaches par c r1) (h2 : ufReaches par c r2) : r1 = r2 := by
  obtain ⟨⟨k1, hk1⟩, hf1⟩ := h1
  obtain ⟨⟨k2, hk2⟩, hf2⟩ := h2
  rcases Nat.le_total k1 k2 with hle | hle
  · have : parIter par (k2 - k1 + k1) c = r2 := by
      rw [Nat.sub_add_cancel hle]
      exact hk2
    rw [parIter_add, hk1, parIter_fix par r1 hf1] at this
    exact this
  · have : parIter par (k1 - k2 + k2) c = r1 := by
      rw [Nat.sub_add_cancel hle]
      exact hk1
    rw [parIter_add, hk2, parIter_fix par r2 hf2] at this
    exact this.symm

theorem ufReaches_step (par : Coord → Coord) (c r : Coord)
    (h : ufReaches par (par c) r) : ufReaches par c r := by
  obtain ⟨⟨k, hk⟩, hf⟩ := h
  exact ⟨⟨k + 1, hk⟩, hf⟩

theorem ufReaches_fix_iff (par : Coord → Coord) (r : Coord) :
    ufReaches par r r ↔ par r = r := by
  constructor
  · exact fun h => h.2
  · exact fun h => ⟨⟨0, rfl⟩, h⟩

/- ### carved-pair connectivity basics -/

theorem cReach_mono (acc acc2 : List (Coord × Coord))
    (hsub : ∀ p ∈ acc, p ∈ acc2) (a b : Coord) (h : CReach acc a b) :
    CReach acc2 a b := by
  induction h with
  | refl => exact Relation.ReflTransGen.refl
  | tail hab hbc ih =>
    exact Relation.ReflTransGen.tail ih
      (Or.elim hbc (fun hm => Or.inl (hsub _ hm)) (fun hm => Or.inr (hsub _ hm)))

theorem cReach_empty (a b : Coord) (h : CReach [] a b) : a = b := by
  induction h with
  | refl => rfl
  | tail hab hbc ih =>
    rcases hbc with hm | hm <;> exact absurd hm (List.not_mem_nil _)

theorem cReach_mem (w h : Nat) (acc : List (Coord × Coord))
    (hend : ∀ p ∈ acc, p.1 ∈ subCells w h ∧ p.2 ∈ subCells w h)
    (a b : Coord) (hr : CReach acc a b) : b = a ∨ b ∈ subCells w h := by
  induction hr with
  | refl => exact Or.inl rfl
  | tail hab hbc ih =>
    rcases hbc with hm | hm
    · exact Or.inr (hend _ hm).2
    · exact Or.inr (hend _ hm).1

theorem creach_chain (acc : List (Coord × Coord)) (par : Coord → Coord)
    (hCR : ∀ c, CReach acc c (par c)) (c : Coord) :
    ∀ k, CReach acc c (parIter par k c) := by
  intro k
  induction k with
  | zero => exact Relation.ReflTransGen.refl
  | succ k ih =>
    rw [parIter_out]
    exact Relation.ReflTransGen.trans ih (hCR _)

theorem reach_creach (acc : List (Coord × Coord)) (par : Coord → Coord)
    (hCR : ∀ c, CReach acc c (par c)) (c r : Coord)
    (h : ufReaches par c r) : CReach acc c r := by
  obtain ⟨⟨k, hk⟩, -⟩ := h
  rw [← hk]
  exact creach_chain acc par hCR c k

/- ### path halving preserves roots and classes -/

theorem half_fix (par : Coord → Coord) (item : Coord)
    (hroot : ∃ r, ufReaches par item r) (z : Coord) :
    par z = z ↔ (if z = item then par (par item) else par z) = z := by
  by_cases hz : z = item
  · subst hz
    rw [if_pos rfl]
    constructor
    · intro h
      rw [h]
      exact h
    · intro h2
      by_contra hni
      obtain ⟨r, ⟨k, hk⟩, hf⟩ := hroot
      have halt : ∀ j, parIter par j z = z ∨ parIter par j z = par z := by
        intro j
        induction j with
        | zero => exact Or.inl rfl
        | succ j ih =>
          rw [parIter_out]
          rcases ih with hcase | hcase
          · rw [hcase]
            exact Or.inr rfl
          · rw [hcase, h2]
            exact Or.inl rfl
      rcases halt k with hcase | hcase
      · rw [hk] at hcase
        rw [hcase] at hf
        exact hni hf
      · rw [hk] at hcase
        rw [hcase] at hf
        rw [h2] at hf
        exact hni hf.symm
  · rw [if_neg hz]

theorem half_reach_fwd (par : Coord → Coord) (item : Coord) :
    ∀ (k : Nat) (c r : Coord), parIter par k c = r → par r = r →
      ∃ k2 ≤ k, parIter (fun y => if y = item then par (par item) else par y)
        k2 c = r := by
  intro k
  induction k using Nat.strong_induction_on with
  | _ k ih =>
    intro c r hk hf
    match k, hk with
    | 0, hk => exact ⟨0, le_refl 0, hk⟩
    | k + 1, hk =>
      by_cases hc : c = item
      · subst hc
        by_cases hfix : par c = c
        · have hr : r = c := by
            rw [← hk, parIter_fix par c hfix]
          subst hr
          exact ⟨0, Nat.zero_le _, rfl⟩
        · cases k with
          | zero =>
            have hr : par c = r := hk
            refine ⟨1, le_refl 1, ?_⟩
            show (if c = c then par (par c) else par c) = r
            rw [if_pos rfl, hr, hf]
          | succ k2 =>
            have hk2 : parIter par k2 (par (par c)) = r := hk
            obtain ⟨k3, hle, hch⟩ := ih k2 (by omega) _ r hk2 hf
            refine ⟨k3 + 1, by omega, ?_⟩
            show parIter _ k3 (if c = c then par (par c) else par c) = r
            rw [if_pos rfl]
            exact hch
      · have hk2 : parIter par k (par c) = r := hk
        obtain ⟨k3, hle, hch⟩ := ih k (by omega) _ r hk2 hf
        refine ⟨k3 + 1, by omega, ?_⟩
        show parIter _ k3 (if c = item then par (par item) else par c) = r
        rw [if_neg hc]
        exact hch

theorem half_reach_bwd (par : Coord → Coord) (item : Coord)
    (hroot : ∃ r, ufReaches par item r) :
    ∀ (k : Nat) (c r : Coord),
      parIter (fun y => if y = item then par (par item) else par y) k c = r →
      (if r = item then par (par item) else par r) = r →
      ufReaches par c r := by
  intro k
  induction k with
  | zero =>
    intro c r hk hf
    have hcr : c = r := hk
    subst hcr
    exact ⟨⟨0, rfl⟩, (half_fix par item hroot c).mpr hf⟩
  | succ k ih =>
    intro c r hk hf
    by_cases hc : c = item
    · subst hc
      have hk2 : parIter (fun y => if y = c then par (par c) else par y) k
          ((fun y => if y = c then par (par c) else par y) c) = r := hk
      have hstep : (fun y => if y = c then par (par c) else par y) c
          = par (par c) := if_pos rfl
      rw [hstep] at hk2
      have := ih _ r hk2 hf
      obtain ⟨⟨k2, hk3⟩, hfr⟩ := this
      exact ⟨⟨k2 + 2, hk3⟩, hfr⟩
    · have hk2 : parIter (fun y => if y = item then par (par item) else par y) k
          ((fun y => if y = item then par (par item) else par y) c) = r := hk
      have hstep : (fun y => if y = item then par (par item) else par y) c
          = par c := if_neg hc
      rw [hstep] at hk2
      exact ufReaches_step par c r (ih _ r hk2 hf)

/- ### the find operation -/

theorem ufFind_ok (acc : List (Coord × Coord)) :
    ∀ (fuel : Nat) (par : Coord → Coord) (item r : Coord) (k : Nat),
    parIter par k item = r → par r = r → k < fuel →
    (∀ c, ∃ ρ, ufReaches par c ρ) →
    (∀ c, CReach acc c (par c)) →
    (ufFind fuel par item).1 = r ∧
    (∀ z ρ, ufReaches (ufFind fuel par item).2 z ρ ↔ ufReaches par z ρ) ∧
    (∀ z, CReach acc z ((ufFind fuel par item).2 z)) := by
  intro fuel
  induction fuel with
  | zero =>
    intro par item r k hk hf hlt
    exact absurd hlt (Nat.not_lt_zero k)
  | succ f ih =>
    intro par item r k hk hf hlt hrooted hCR
    have hunf : ufFind (f + 1) par item =
        if par item = item then (item, par) else
          ufFind f (fun z => if z = item then par (par item) else par z)
            (if item = item then par (par item) else par item) := rfl
    by_cases hfix : par item = item
    · have hres : ufFind (f + 1) par item = (item, par) := by
        rw [hunf, if_pos hfix]
      have hr : r = item := by
        rw [← hk, parIter_fix par item hfix]
      rw [hres, hr]
      exact ⟨rfl, fun z ρ => Iff.rfl, hCR⟩
    · have hres : ufFind (f + 1) par item =
          ufFind f (fun z => if z = item then par (par item) else par z)
            (par (par item)) := by
        rw [hunf, if_neg hfix, if_pos rfl]
      have hroot : ∃ ρ, ufReaches par item ρ := hrooted item
      have hiff : ∀ z ρ,
          ufReaches (fun y => if y = item then par (par item) else par y) z ρ ↔
          ufReaches par z ρ := by
        intro z ρ
        constructor
        · rintro ⟨⟨k2, hk2⟩, hfH⟩
          exact half_reach_bwd par item hroot k2 z ρ hk2 hfH
        · rintro ⟨⟨k2, hk2⟩, hfP⟩
          obtain ⟨k3, -, hch⟩ := half_reach_fwd par item k2 z ρ hk2 hfP
          exact ⟨⟨k3, hch⟩, (half_fix par item hroot ρ).mp hfP⟩
      have hrootedH : ∀ c, ∃ ρ,
          ufReaches (fun y => if y = item then par (par item) else par y) c ρ :=
        fun c => (hrooted c).imp (fun ρ hh => (hiff c ρ).mpr hh)
      have hCRH : ∀ c,
          CReach acc c ((fun y => if y = item then par (par item) else par y) c) := by
        intro c
        by_cases hc : c = item
        · subst hc
          show CReach acc c (if c = c then par (par c) else par c)
          rw [if_pos rfl]
          exact Relation.ReflTransGen.trans (hCR c) (hCR (par c))
        · show CReach acc c (if c = item then par (par item) else par c)
          rw [if_neg hc]
          exact hCR c
      have hfr : (if r = item then par (par item) else par r) = r :=
        (half_fix par item hroot r).mp hf
      -- produce a chain for the recursive start point
      have hchain : ∃ k3, k3 < f ∧
          parIter (fun y => if y = item then par (par item) else par y) k3
            (par (par item)) = r := by
        cases k with
        | zero =>
          exfalso
          have : item = r := hk
          rw [← this] at hf
          exact hfix hf
        | succ k1 =>
          cases k1 with
          | zero =>
            have hk1 : par item = r := hk
            refine ⟨0, by omega, ?_⟩
            show par (par item) = r
            rw [hk1, hf]
          | succ k2 =>
            have hk2 : parIter par k2 (par (par item)) = r := hk
            obtain ⟨k3, hle, hch⟩ := half_reach_fwd par item k2 _ r hk2 hf
            exact ⟨k3, by omega, hch⟩
      obtain ⟨k3, hk3lt, hch⟩ := hchain
      have hIH := ih (fun y => if y = item then par (par item) else par y)
        (par (par item)) r k3 hch hfr hk3lt hrootedH hCRH
      rw [hres]
      exact ⟨hIH.1, fun z ρ => (hIH.2.1 z ρ).trans (hiff z ρ), hIH.2.2⟩

theorem chain_bound (w h : Nat) (acc : List (Coord × Coord))
    (par : Coord → Coord)
    (hend : ∀ p ∈ acc, p.1 ∈ subCells w h ∧ p.2 ∈ subCells w h)
    (hCR : ∀ c, CReach acc c (par c)) (c r : Coord)
    (hr : ufReaches par c r) :
    ∃ k, k < (subCells w h).length + 1 ∧ parIter par k c = r := by
  by_cases hc : c ∈ subCells w h
  · obtain ⟨⟨k0, hk0⟩, hfr⟩ := hr
    have hex : ∃ k, parIter par k c = r := ⟨k0, hk0⟩
    haveI : DecidablePred (fun k => parIter par k c = r) :=
      fun k => inferInstanceAs (Decidable _)
    have hk : parIter par (Nat.find hex) c = r := Nat.find_spec hex
    have hinj : ∀ i j : Nat, i < j → j ≤ Nat.find hex →
        parIter par i c ≠ parIter par j c := by
      intro i j hij hjk heq
      have h1 : parIter par (Nat.find hex - j + j) c = r := by
        rw [Nat.sub_add_cancel hjk]
        exact hk
      rw [parIter_add, ← heq, ← parIter_add] at h1
      exact Nat.find_min hex (by omega) h1
    have hmem : ∀ j : Nat, parIter par j c ∈ subCells w h := by
      intro j
      rcases cReach_mem w h acc hend c _ (creach_chain acc par hCR c j) with
        heq | hmem2
      · rw [heq]
        exact hc
      · exact hmem2
    have hcard : Nat.find hex + 1 ≤ (subCells w h).length := by
      have h1 : (Finset.univ : Finset (Fin (Nat.find hex + 1))).card ≤
          (subCells w h).toFinset.card := by
        apply Finset.card_le_card_of_injOn
          (fun i : Fin (Nat.find hex + 1) => parIter par i.1 c)
        · intro i _
          rw [List.mem_toFinset]
          exact hmem i.1
        · intro i _ j _ heq
          by_contra hne
          have hvne : i.1 ≠ j.1 := fun hv => hne (Fin.ext hv)
          rcases Nat.lt_or_ge i.1 j.1 with hlt | hge
          · exact hinj i.1 j.1 hlt (by omega) heq
          · have hlt2 : j.1 < i.1 := by omega
            exact hinj j.1 i.1 hlt2 (by omega) heq.symm
      have h2 := List.toFinset_card_le (subCells w h)
      rw [Finset.card_univ, Fintype.card_fin] at h1
      omega
    exact ⟨Nat.find hex, by omega, hk⟩
  · have hfix : par c = c := by
      rcases Relation.ReflTransGen.cases_head (hCR c) with heq | ⟨b, hstep, -⟩
      · exact heq.symm
      · exfalso
        rcases hstep with hm | hm
        · exact hc (hend _ hm).1
        · exact hc (hend _ hm).2
    have hrc : r = c := ufReaches_unique par c r c hr ⟨⟨0, rfl⟩, hfix⟩
    exact ⟨0, by omega, hrc.symm⟩

theorem ufFind_root (w h : Nat) (acc : List (Coord × Coord))
    (par : Coord → Coord)
    (hend : ∀ p ∈ acc, p.1 ∈ subCells w h ∧ p.2 ∈ subCells w h)
    (hCR : ∀ c, CReach acc c (par c))
    (hrooted : ∀ c, ∃ ρ, ufReaches par c ρ)
    (c r : Coord) (hr : ufReaches par c r) :
    (ufFind ((subCells w h).length + 1) par c).1 = r ∧
    (∀ z ρ, ufReaches (ufFind ((subCells w h).length + 1) par c).2 z ρ ↔
      ufReaches par z ρ) ∧
    (∀ z, CReach acc z ((ufFind ((subCells w h).length + 1) par c).2 z)) := by
  obtain ⟨k, hklt, hk⟩ := chain_bound w h acc par hend hCR c r hr
  exact ufFind_ok acc _ par c r k hk hr.2 hklt hrooted hCR

/- ### root redirection (the union step) -/

theorem redirect_fwd1 (par : Coord → Coord) (ra rb : Coord)
    (hra : par ra = ra) (hne : ra ≠ rb) :
    ∀ (k : Nat) (z : Coord), parIter par k z = rb →
      ufReaches (fun y => if y = rb then ra else par y) z ra := by
  intro k
  induction k with
  | zero =>
    intro z hz
    have hzrb : z = rb := hz
    refine ⟨⟨1, ?_⟩, ?_⟩
    · show (if z = rb then ra else par z) = ra
      rw [if_pos hzrb]
    · show (if ra = rb then ra else par ra) = ra
      rw [if_neg hne]
      exact hra
  | succ k ih =>
    intro z hz
    by_cases hzrb : z = rb
    · refine ⟨⟨1, ?_⟩, ?_⟩
      · show (if z = rb then ra else par z) = ra
        rw [if_pos hzrb]
      · show (if ra = rb then ra else par ra) = ra
        rw [if_neg hne]
        exact hra
    · have hz2 : parIter par k (par z) = rb := hz
      obtain ⟨⟨k2, hk2⟩, hroot⟩ := ih (par z) hz2
      refine ⟨⟨k2 + 1, ?_⟩, hroot⟩
      show parIter _ k2 (if z = rb then ra else par z) = ra
      rw [if_neg hzrb]
      exact hk2

theorem redirect_fwd2 (par : Coord → Coord) (ra rb : Coord)
    (hrb : par rb = rb) :
    ∀ (k : Nat) (z ρ : Coord), parIter par k z = ρ → ρ ≠ rb →
      parIter (fun y => if y = rb then ra else par y) k z = ρ := by
  intro k
  induction k with
  | zero =>
    intro z ρ hz hρne
    exact hz
  | succ k ih =>
    intro z ρ hz hρne
    by_cases hzrb : z = rb
    · exfalso
      subst hzrb
      rw [parIter_fix par z hrb] at hz
      exact hρne hz.symm
    · have hz2 : parIter par k (par z) = ρ := hz
      have := ih (par z) ρ hz2 hρne
      show parIter _ k (if z = rb then ra else par z) = ρ
      rw [if_neg hzrb]
      exact this

theorem redirect_bwd (par : Coord → Coord) (ra rb : Coord)
    (hra : par ra = ra) (hrb : par rb = rb) (hne : ra ≠ rb) :
    ∀ (k : Nat) (z ρ : Coord),
      parIter (fun y => if y = rb then ra else par y) k z = ρ →
      (if ρ = rb then ra else par ρ) = ρ →
      (ufReaches par z rb ∧ ρ = ra) ∨ (ufReaches par z ρ ∧ ρ ≠ rb) := by
  intro k
  induction k with
  | zero =>
    intro z ρ hz hρ
    have hzρ : z = ρ := hz
    subst hzρ
    by_cases hρrb : z = rb
    · exfalso
      rw [if_pos hρrb] at hρ
      rw [← hρrb] at hne
      exact hne hρ
    · rw [if_neg hρrb] at hρ
      exact Or.inr ⟨⟨⟨0, rfl⟩, hρ⟩, hρrb⟩
  | succ k ih =>
    intro z ρ hz hρ
    by_cases hzrb : z = rb
    · have hk2 : parIter (fun y => if y = rb then ra else par y) k
          ((fun y => if y = rb then ra else par y) z) = ρ := hz
      have hstep : (fun y => if y = rb then ra else par y) z = ra := by
        show (if z = rb then ra else par z) = ra
        rw [if_pos hzrb]
      rw [hstep] at hk2
      have hfixra : (fun y => if y = rb then ra else par y) ra = ra := by
        show (if ra = rb then ra else par ra) = ra
        rw [if_neg hne]
        exact hra
      have hρra : ρ = ra := by
        rw [← hk2]
        exact parIter_fix (fun y => if y = rb then ra else par y) ra hfixra k
      exact Or.inl ⟨⟨⟨0, hzrb⟩, hrb⟩, hρra⟩
    · have hk2 : parIter (fun y => if y = rb then ra else par y) k
          ((fun y => if y = rb then ra else par y) z) = ρ := hz
      have hstep : (fun y => if y = rb then ra else par y) z = par z :=
        if_neg hzrb
      rw [hstep] at hk2
      rcases ih (par z) ρ hk2 hρ with ⟨hreach, hρa⟩ | ⟨hreach, hρne⟩
      · exact Or.inl ⟨ufReaches_step par z rb hreach, hρa⟩
      · exact Or.inr ⟨ufReaches_step par z ρ hreach, hρne⟩

/- ### the union operation -/

theorem ufUnion_spec (w h : Nat) (acc : List (Coord × Coord))
    (par : Coord → Coord) (a b ra rb : Coord)
    (hend : ∀ p ∈ acc, p.1 ∈ subCells w h ∧ p.2 ∈ subCells w h)
    (hCR : ∀ c, CReach acc c (par c))
    (hrooted : ∀ c, ∃ ρ, ufReaches par c ρ)
    (hra : ufReaches par a ra) (hrb : ufReaches par b rb) :
    (ra = rb →
      (ufUnion ((subCells w h).length + 1) par a b).1 = false ∧
      (∀ z ρ, ufReaches (ufUnion ((subCells w h).length + 1) par a b).2 z ρ ↔
        ufReaches par z ρ) ∧
      (∀ z, CReach acc z ((ufUnion ((subCells w h).length + 1) par a b).2 z))) ∧
    (ra ≠ rb →
      (ufUnion ((subCells w h).length + 1) par a b).1 = true ∧
      (∀ z ρ, ufReaches (ufUnion ((subCells w h).length + 1) par a b).2 z ρ ↔
        ((ufReaches par z rb ∧ ρ = ra) ∨ (ufReaches par z ρ ∧ ρ ≠ rb))) ∧
      (∀ z, CReach ((a, b) :: acc) z
        ((ufUnion ((subCells w h).length + 1) par a b).2 z)) ∧
      (∀ z, (ufUnion ((subCells w h).length + 1) par a b).2 z = z ↔
        (par z = z ∧ z ≠ rb))) := by
  have hfind1 := ufFind_root w h acc par hend hCR hrooted a ra hra
  obtain ⟨ha1, hrelA, hCRA⟩ := hfind1
  have hrootedA : ∀ c, ∃ ρ,
      ufReaches (ufFind ((subCells w h).length + 1) par a).2 c ρ :=
    fun c => (hrooted c).imp (fun ρ hh => (hrelA c ρ).mpr hh)
  have hrbA : ufReaches (ufFind ((subCells w h).length + 1) par a).2 b rb :=
    (hrelA b rb).mpr hrb
  have hfind2 := ufFind_root w h acc _ hend hCRA hrootedA b rb hrbA
  obtain ⟨hb1, hrelB, hCRB⟩ := hfind2
  have hrelB2 : ∀ z ρ, ufReaches (ufFind ((subCells w h).length + 1)
      (ufFind ((subCells w h).length + 1) par a).2 b).2 z ρ ↔
      ufReaches par z ρ :=
    fun z ρ => (hrelB z ρ).trans (hrelA z ρ)
  have hunf : ufUnion ((subCells w h).length + 1) par a b =
      if (ufFind ((subCells w h).length + 1) par a).1 =
         (ufFind ((subCells w h).length + 1)
           (ufFind ((subCells w h).length + 1) par a).2 b).1
      then (false, (ufFind ((subCells w h).length + 1)
        (ufFind ((subCells w h).length + 1) par a).2 b).2)
      else (true, fun z =>
        if z = (ufFind ((subCells w h).length + 1)
            (ufFind ((subCells w h).length + 1) par a).2 b).1
        then (ufFind ((subCells w h).length + 1) par a).1
        else (ufFind ((subCells w h).length + 1)
          (ufFind ((subCells w h).length + 1) par a).2 b).2 z) := rfl
  rw [ha1, hb1] at hunf
  have hfixB : ∀ z, (ufFind ((subCells w h).length + 1)
      (ufFind ((subCells w h).length + 1) par a).2 b).2 z = z ↔ par z = z := by
    intro z
    rw [← ufReaches_fix_iff, ← ufReaches_fix_iff]
    exact hrelB2 z z
  constructor
  · intro heq
    rw [hunf, if_pos heq]
    exact ⟨rfl, hrelB2, hCRB⟩
  · intro hne
    rw [hunf, if_neg hne]
    have hraB : (ufFind ((subCells w h).length + 1)
        (ufFind ((subCells w h).length + 1) par a).2 b).2 ra = ra :=
      (hfixB ra).mpr hra.2
    have hrbB : (ufFind ((subCells w h).length + 1)
        (ufFind ((subCells w h).length + 1) par a).2 b).2 rb = rb :=
      (hfixB rb).mpr hrb.2
    refine ⟨rfl, ?_, ?_, ?_⟩
    · intro z ρ
      constructor
      · rintro ⟨⟨k, hk⟩, hρ⟩
        have hρ2 : (if ρ = rb then ra else (ufFind ((subCells w h).length + 1)
            (ufFind ((subCells w h).length + 1) par a).2 b).2 ρ) = ρ := hρ
        rcases redirect_bwd _ ra rb hraB hrbB hne k z ρ hk hρ2 with
          ⟨hreach, hρa⟩ | ⟨hreach, hρne⟩
        · exact Or.inl ⟨(hrelB2 z rb).mp hreach, hρa⟩
        · exact Or.inr ⟨(hrelB2 z ρ).mp hreach, hρne⟩
      · rintro (⟨hzrb, hρa⟩ | ⟨hzρ, hρne⟩)
        · obtain ⟨⟨k, hk⟩, -⟩ := (hrelB2 z rb).mpr hzrb
          rw [hρa]
          exact redirect_fwd1 _ ra rb hraB hne k z hk
        · obtain ⟨⟨k, hk⟩, hρfix⟩ := (hrelB2 z ρ).mpr hzρ
          refine ⟨⟨k, redirect_fwd2 _ ra rb hrbB k z ρ hk hρne⟩, ?_⟩
          show (if ρ = rb then ra else _) = ρ
          rw [if_neg hρne]
          exact hρfix
    · intro z
      show CReach ((a, b) :: acc) z (if z = rb then ra else _)
      by_cases hzrb : z = rb
      · rw [if_pos hzrb]
        subst hzrb
        have hcb : CReach acc b z := reach_creach acc _ hCRB b z
          ((hrelB2 b z).mpr hrb)
        have hca : CReach acc a ra := reach_creach acc _ hCRB a ra
          ((hrelB2 a ra).mpr hra)
        have hsub : ∀ p ∈ acc, p ∈ (a, b) :: acc :=
          fun p hp => List.mem_cons_of_mem _ hp
        refine Relation.ReflTransGen.trans
          (cReach_mono acc _ hsub z b (cReach_symm acc b z hcb)) ?_
        refine Relation.ReflTransGen.trans
          (Relation.ReflTransGen.single (Or.inr (List.mem_cons_self _ _)))
          (cReach_mono acc _ hsub a ra hca)
      · rw [if_neg hzrb]
        exact cReach_mono acc _ (fun p hp => List.mem_cons_of_mem _ hp) z _
          (hCRB z)
    · intro z
      by_cases hzrb : z = rb
      · subst hzrb
        show (if z = z then ra else _) = z ↔ _
        rw [if_pos rfl]
        constructor
        · intro hh
          exact absurd hh hne
        · rintro ⟨-, hh⟩
          exact absurd rfl hh
      · show (if z = rb then ra else _) = z ↔ _
        rw [if_neg hzrb]
        rw [hfixB z]
        constructor
        · intro hh
          exact ⟨hh, hzrb⟩
        · exact fun hh => hh.1

/- ### counting roots -/

theorem filter_update_length {α : Type} :
    ∀ (l : List α) (p q : α → Bool) (rb : α), l.Nodup → rb ∈ l →
      p rb = true → q rb = false → (∀ x ∈ l, x ≠ rb → p x = q x) →
      (l.filter q).length + 1 = (l.filter p).length := by
  intro l
  induction l with
  | nil =>
    intro p q rb hnd hrb
    exact absurd hrb (List.not_mem_nil _)
  | cons x t ih =>
    intro p q rb hnd hrb hp hq hagree
    have hndt := (List.nodup_cons.mp hnd).2
    have hxnt := (List.nodup_cons.mp hnd).1
    by_cases hx : x = rb
    · subst hx
      have hft : t.filter p = t.filter q := by
        apply List.filter_congr
        intro y hy
        exact hagree y (List.mem_cons_of_mem _ hy)
          (fun hyx => hxnt (hyx ▸ hy))
      rw [List.filter_cons, List.filter_cons, hp, hq, if_pos rfl,
        if_neg Bool.false_ne_true, hft, List.length_cons]
    · have hrbt : rb ∈ t := by
        rcases List.mem_cons.mp hrb with heq | ht
        · exact absurd heq.symm hx
        · exact ht
      have hpq : p x = q x := hagree x (List.mem_cons_self _ _) hx
      rw [List.filter_cons, List.filter_cons, ← hpq]
      cases hpx : p x with
      | false =>
        simp only [Bool.false_eq_true, if_neg]
        exact ih p q rb hndt hrbt hp hq
          (fun y hy => hagree y (List.mem_cons_of_mem _ hy))
      | true =>
        simp only [if_pos, List.length_cons]
        have := ih p q rb hndt hrbt hp hq
          (fun y hy => hagree y (List.mem_cons_of_mem _ hy))
        omega

theorem nodup_all_eq_one {α : Type} (l : List α) (r : α) (hnd : l.Nodup)
    (hmem : r ∈ l) (hall : ∀ x ∈ l, x = r) : l.length = 1 := by
  cases l with
  | nil => exact absurd hmem (List.not_mem_nil _)
  | cons x t =>
    have hx : x = r := hall x (List.mem_cons_self _ _)
    have ht : t = [] := by
      cases t with
      | nil => rfl
      | cons y s =>
        exfalso
        have hy : y = r := hall y (List.mem_cons_of_mem _ (List.mem_cons_self _ _))
        have hxy : x = y := by rw [hx, hy]
        exact (List.nodup_cons.mp hnd).1 (hxy ▸ List.mem_cons_self _ _)
    rw [ht]
    rfl

/- ### edge facts -/

theorem kEdge_endpoints (w h : Nat) (e : KEdge) (he : e ∈ kruskalEdges w h) :
    e.1 ∈ subCells w h ∧ e.2.1 ∈ subCells w h ∧ twoStepPair (e.1, e.2.1) ∧
      e.2.2 = midW (e.1, e.2.1) := by
  rw [mem_kruskalEdges] at he
  obtain ⟨x, y, hxe, hye, hx, hy, hc⟩ := he
  rcases hc with ⟨hlt, rfl⟩ | ⟨hlt, rfl⟩
  · refine ⟨?_, ?_, Or.inl ⟨rfl, rfl⟩, ?_⟩
    · rw [mem_subCells]
      simp only [Int.ofNat_eq_natCast]
      refine ⟨by omega, by omega, by omega, by omega, by omega, by omega⟩
    · rw [mem_subCells]
      simp only [Int.ofNat_eq_natCast]
      refine ⟨by omega, by omega, by omega, by omega, by omega, by omega⟩
    · show (Int.ofNat x + 1, Int.ofNat y) = midW _
      simp only [midW, Int.ofNat_eq_natCast, Prod.mk.injEq]
      constructor <;> omega
  · refine ⟨?_, ?_, Or.inr (Or.inr (Or.inl ⟨rfl, rfl⟩)), ?_⟩
    · rw [mem_subCells]
      simp only [Int.ofNat_eq_natCast]
      refine ⟨by omega, by omega, by omega, by omega, by omega, by omega⟩
    · rw [mem_subCells]
      simp only [Int.ofNat_eq_natCast]
      refine ⟨by omega, by omega, by omega, by omega, by omega, by omega⟩
    · show (Int.ofNat x, Int.ofNat y + 1) = midW _
      simp only [midW, Int.ofNat_eq_natCast, Prod.mk.injEq]
      constructor <;> omega

theorem kEdge_pair (w h : Nat) (u v : Coord) (hu : u ∈ subCells w h)
    (hv : v ∈ subCells w h)
    (hor : (v.1 = u.1 + 2 ∧ v.2 = u.2) ∨ (v.1 = u.1 ∧ v.2 = u.2 + 2)) :
    ∃ e ∈ kruskalEdges w h, e.1 = u ∧ e.2.1 = v := by
  rw [mem_subCells] at hu hv
  rcases hor with ⟨h1, h2⟩ | ⟨h1, h2⟩
  · refine ⟨((Int.ofNat u.1.toNat, Int.ofNat u.2.toNat),
      (Int.ofNat u.1.toNat + 2, Int.ofNat u.2.toNat),
      (Int.ofNat u.1.toNat + 1, Int.ofNat u.2.toNat)),
      (mem_kruskalEdges w h _).mpr ⟨u.1.toNat, u.2.toNat, by omega, by omega,
        by omega, by omega, Or.inl ⟨by omega, rfl⟩⟩, ?_, ?_⟩
    · refine Prod.ext ?_ ?_ <;> (simp only [Int.ofNat_eq_natCast]; omega)
    · refine Prod.ext ?_ ?_ <;> (simp only [Int.ofNat_eq_natCast]; omega)
  · refine ⟨((Int.ofNat u.1.toNat, Int.ofNat u.2.toNat),
      (Int.ofNat u.1.toNat, Int.ofNat u.2.toNat + 2),
      (Int.ofNat u.1.toNat, Int.ofNat u.2.toNat + 1)),
      (mem_kruskalEdges w h _).mpr ⟨u.1.toNat, u.2.toNat, by omega, by omega,
        by omega, by omega, Or.inr ⟨by omega, rfl⟩⟩, ?_, ?_⟩
    · refine Prod.ext ?_ ?_ <;> (simp only [Int.ofNat_eq_natCast]; omega)
    · refine Prod.ext ?_ ?_ <;> (simp only [Int.ofNat_eq_natCast]; omega)

theorem kruskal_conn (w h : Nat) (ps : List (Coord × Coord))
    (hall : ∀ e ∈ kruskalEdges w h, CReach ps e.1 e.2.1) :
    ∀ c ∈ subCells w h, CReach ps ((0 : Int), (0 : Int)) c := by
  suffices H : ∀ n : Nat, ∀ c ∈ subCells w h, (c.1 + c.2).toNat ≤ n →
      CReach ps ((0 : Int), (0 : Int)) c by
    exact fun c hc => H (c.1 + c.2).toNat c hc (le_refl _)
  intro n
  induction n with
  | zero =>
    intro c hc hle
    obtain ⟨cx, cy⟩ := c
    rw [mem_subCells] at hc
    have hc0 : ((cx, cy) : Coord) = ((0 : Int), (0 : Int)) := by
      rw [Prod.mk.injEq]
      constructor <;> omega
    rw [hc0]
    exact Relation.ReflTransGen.refl
  | succ n ih =>
    intro c hc hle
    obtain ⟨cx, cy⟩ := c
    have hc2 := (mem_subCells w h (cx, cy)).mp hc
    by_cases hx0 : cx = 0
    · by_cases hy0 : cy = 0
      · have hc0 : ((cx, cy) : Coord) = ((0 : Int), (0 : Int)) := by
          rw [Prod.mk.injEq]
          exact ⟨hx0, hy0⟩
        rw [hc0]
        exact Relation.ReflTransGen.refl
      · have hpred : ((cx, cy - 2) : Coord) ∈ subCells w h := by
          rw [mem_subCells]
          refine ⟨by omega, by omega, by omega, by omega, by omega, by omega⟩
        have hV := ih (cx, cy - 2) hpred
          (by show (cx + (cy - 2)).toNat ≤ n; omega)
        obtain ⟨e, hek, he1, he2⟩ := kEdge_pair w h (cx, cy - 2) (cx, cy)
          hpred hc (Or.inr ⟨rfl, by show cy = cy - 2 + 2; omega⟩)
        have hcr := hall e hek
        rw [he1, he2] at hcr
        exact Relation.ReflTransGen.trans hV hcr
    · have hpred : ((cx - 2, cy) : Coord) ∈ subCells w h := by
        rw [mem_subCells]
        refine ⟨by omega, by omega, by omega, by omega, by omega, by omega⟩
      have hV := ih (cx - 2, cy) hpred
        (by show (cx - 2 + cy).toNat ≤ n; omega)
      obtain ⟨e, hek, he1, he2⟩ := kEdge_pair w h (cx - 2, cy) (cx, cy)
        hpred hc (Or.inl ⟨by show cx = cx - 2 + 2; omega, rfl⟩)
      have hcr := hall e hek
      rw [he1, he2] at hcr
      exact Relation.ReflTransGen.trans hV hcr

/- ### the processing loop -/

theorem kruskalProcess_spec (w h : Nat) :
    ∀ (edges : List KEdge) (par : Coord → Coord)
      (acc : List (Coord × Coord)),
    (∀ e ∈ edges, e ∈ kruskalEdges w h) →
    (∀ p ∈ acc, p.1 ∈ subCells w h ∧ p.2 ∈ subCells w h) →
    (∀ c, CReach acc c (par c)) →
    (∀ c, ∃ ρ, ufReaches par c ρ) →
    (∀ x y, CReach acc x y → ∃ ρ, ufReaches par x ρ ∧ ufReaches par y ρ) →
    ∃ (ps : List (Coord × Coord)) (parF : Coord → Coord),
      kruskalProcess ((subCells w h).length + 1) edges par = pairEdits ps ∧
      (∀ p ∈ ps, ∃ e ∈ edges, p = (e.1, e.2.1)) ∧
      (ps.map midW).Sublist (edges.map (fun e => e.2.2)) ∧
      (∀ e ∈ edges, CReach (acc ++ ps) e.1 e.2.1) ∧
      (∀ c, CReach (acc ++ ps) c (parF c)) ∧
      (∀ x y, CReach (acc ++ ps) x y →
        ∃ ρ, ufReaches parF x ρ ∧ ufReaches parF y ρ) ∧
      (∀ c, ∃ ρ, ufReaches parF c ρ) ∧
      (rootsOf w h parF).length + ps.length = (rootsOf w h par).length := by
  intro edges
  induction edges with
  | nil =>
    intro par acc hedge hend hCR hrooted hcomp
    refine ⟨[], par, rfl, ?_, List.nil_sublist _, ?_, ?_, ?_, hrooted, ?_⟩
    · intro p hp
      exact absurd hp (List.not_mem_nil _)
    · intro e he
      exact absurd he (List.not_mem_nil _)
    · intro c
      rw [List.append_nil]
      exact hCR c
    · intro x y hxy
      rw [List.append_nil] at hxy
      exact hcomp x y hxy
    · simp
  | cons e rest ih =>
    intro par acc hedge hend hCR hrooted hcomp
    obtain ⟨a, b, wall⟩ := e
    have hke := hedge _ (List.mem_cons_self _ _)
    obtain ⟨ha, hb, hshape, hwall⟩ := kEdge_endpoints w h (a, b, wall) hke
    obtain ⟨ra, hra⟩ := hrooted a
    obtain ⟨rb, hrb⟩ := hrooted b
    have hspec := ufUnion_spec w h acc par a b ra rb hend hCR hrooted hra hrb
    have hunf : kruskalProcess ((subCells w h).length + 1)
        ((a, b, wall) :: rest) par =
        if (ufUnion ((subCells w h).length + 1) par a b).1 then
          (wall.1, wall.2, 1) :: (b.1, b.2, 1) ::
            kruskalProcess ((subCells w h).length + 1) rest
              (ufUnion ((subCells w h).length + 1) par a b).2
        else kruskalProcess ((subCells w h).length + 1) rest
          (ufUnion ((subCells w h).length + 1) par a b).2 := rfl
    by_cases hrarb : ra = rb
    · obtain ⟨hflag, hrel, hCRu⟩ := hspec.1 hrarb
      have hfixu : ∀ z, (ufUnion ((subCells w h).length + 1) par a b).2 z = z ↔
          par z = z := by
        intro z
        rw [← ufReaches_fix_iff, ← ufReaches_fix_iff]
        exact hrel z z
      have hrootedu : ∀ c, ∃ ρ,
          ufReaches (ufUnion ((subCells w h).length + 1) par a b).2 c ρ :=
        fun c => (hrooted c).imp (fun ρ hh => (hrel c ρ).mpr hh)
      have hcompu : ∀ x y, CReach acc x y → ∃ ρ,
          ufReaches (ufUnion ((subCells w h).length + 1) par a b).2 x ρ ∧
          ufReaches (ufUnion ((subCells w h).length + 1) par a b).2 y ρ := by
        intro x y hxy
        obtain ⟨ρ, h1, h2⟩ := hcomp x y hxy
        exact ⟨ρ, (hrel x ρ).mpr h1, (hrel y ρ).mpr h2⟩
      obtain ⟨ps, parF, ih1, ih2, ih3, ih4, ih5, ih6, ih7, ih8⟩ :=
        ih _ acc (fun e2 he2 => hedge e2 (List.mem_cons_of_mem _ he2))
          hend hCRu hrootedu hcompu
      refine ⟨ps, parF, ?_, ?_, ?_, ?_, ih5, ih6, ih7, ?_⟩
      · rw [hunf, hflag, if_neg (by simp)]
        exact ih1
      · intro p hp
        obtain ⟨e2, he2, hpe⟩ := ih2 p hp
        exact ⟨e2, List.mem_cons_of_mem _ he2, hpe⟩
      · exact ih3.trans (List.sublist_cons_self _ _)
      · intro e2 he2
        rcases List.mem_cons.mp he2 with heq | he3
        · have hcab : CReach acc a b := by
            have h1 : CReach acc a ra := reach_creach acc par hCR a ra hra
            have h2 : CReach acc b rb := reach_creach acc par hCR b rb hrb
            rw [← hrarb] at h2
            exact Relation.ReflTransGen.trans h1 (cReach_symm acc b ra h2)
          rw [heq]
          exact cReach_mono acc _ (fun p hp => List.mem_append_left _ hp) a b hcab
        · exact ih4 e2 he3
      · have hroots : rootsOf w h ((ufUnion ((subCells w h).length + 1)
            par a b).2) = rootsOf w h par := by
          apply List.filter_congr
          intro c _
          exact decide_eq_decide.mpr (hfixu c)
        rw [← hroots]
        exact ih8
    · obtain ⟨hflag, hrel, hCRu, hfixu⟩ := hspec.2 hrarb
      have hrootedu : ∀ c, ∃ ρ,
          ufReaches (ufUnion ((subCells w h).length + 1) par a b).2 c ρ := by
        intro c
        obtain ⟨ρ, hρ⟩ := hrooted c
        by_cases hρrb : ρ = rb
        · exact ⟨ra, (hrel c ra).mpr (Or.inl ⟨hρrb ▸ hρ, rfl⟩)⟩
        · exact ⟨ρ, (hrel c ρ).mpr (Or.inr ⟨hρ, hρrb⟩)⟩
      have hkey : ∀ y1 y2, pairsRel ((a, b) :: acc) y1 y2 → ∃ ρ,
          ufReaches (ufUnion ((subCells w h).length + 1) par a b).2 y1 ρ ∧
          ufReaches (ufUnion ((subCells w h).length + 1) par a b).2 y2 ρ := by
        have hpair : ∀ x y, (x, y) = (a, b) ∨ (x, y) ∈ acc → ∃ ρ,
            ufReaches (ufUnion ((subCells w h).length + 1) par a b).2 x ρ ∧
            ufReaches (ufUnion ((subCells w h).length + 1) par a b).2 y ρ := by
          intro x y hm
          rcases hm with heq | hm
          · have hxa : x = a := congrArg Prod.fst heq
            have hyb : y = b := congrArg Prod.snd heq
            subst hxa
            subst hyb
            exact ⟨ra, (hrel x ra).mpr (Or.inr ⟨hra, hrarb⟩),
              (hrel y ra).mpr (Or.inl ⟨hrb, rfl⟩)⟩
          · obtain ⟨ρ0, h1, h2⟩ := hcomp x y
              (Relation.ReflTransGen.single (Or.inl hm))
            by_cases hρrb : ρ0 = rb
            · exact ⟨ra, (hrel x ra).mpr (Or.inl ⟨hρrb ▸ h1, rfl⟩),
                (hrel y ra).mpr (Or.inl ⟨hρrb ▸ h2, rfl⟩)⟩
            · exact ⟨ρ0, (hrel x ρ0).mpr (Or.inr ⟨h1, hρrb⟩),
                (hrel y ρ0).mpr (Or.inr ⟨h2, hρrb⟩)⟩
        intro y1 y2 hp
        rcases hp with hm | hm
        · exact hpair y1 y2 (List.mem_cons.mp hm)
        · obtain ⟨ρ, h1, h2⟩ := hpair y2 y1 (List.mem_cons.mp hm)
          exact ⟨ρ, h2, h1⟩
      have hcompu : ∀ x y, CReach ((a, b) :: acc) x y → ∃ ρ,
          ufReaches (ufUnion ((subCells w h).length + 1) par a b).2 x ρ ∧
          ufReaches (ufUnion ((subCells w h).length + 1) par a b).2 y ρ := by
        intro x y hxy
        induction hxy with
        | refl =>
          obtain ⟨ρ, hρ⟩ := hrootedu x
          exact ⟨ρ, hρ, hρ⟩
        | tail hxz hzy ihc =>
          obtain ⟨ρ, hx1, hz1⟩ := ihc
          obtain ⟨ρ2, hz2, hy2⟩ := hkey _ _ hzy
          have hρeq : ρ = ρ2 := ufReaches_unique _ _ ρ ρ2 hz1 hz2
          exact ⟨ρ, hx1, hρeq ▸ hy2⟩
      obtain ⟨ps, parF, ih1, ih2, ih3, ih4, ih5, ih6, ih7, ih8⟩ :=
        ih _ ((a, b) :: acc)
          (fun e2 he2 => hedge e2 (List.mem_cons_of_mem _ he2))
          (by
            intro p hp
            rcases List.mem_cons.mp hp with heq | hp2
            · rw [heq]
              exact ⟨ha, hb⟩
            · exact hend p hp2)
          hCRu hrootedu hcompu
      have hmem1 : ∀ p : Coord × Coord, p ∈ ((a, b) :: acc) ++ ps →
          p ∈ acc ++ (a, b) :: ps := by
        intro p hp
        rcases List.mem_append.mp hp with hp2 | hp2
        · rcases List.mem_cons.mp hp2 with heq | hp3
          · exact List.mem_append_right _ (heq ▸ List.mem_cons_self _ _)
          · exact List.mem_append_left _ hp3
        · exact List.mem_append_right _ (List.mem_cons_of_mem _ hp2)
      have hmem2 : ∀ p : Coord × Coord, p ∈ acc ++ (a, b) :: ps →
          p ∈ ((a, b) :: acc) ++ ps := by
        intro p hp
        rcases List.mem_append.mp hp with hp2 | hp2
        · exact List.mem_append_left _ (List.mem_cons_of_mem _ hp2)
        · rcases List.mem_cons.mp hp2 with heq | hp3
          · exact List.mem_append_left _ (heq ▸ List.mem_cons_self _ _)
          · exact List.mem_append_right _ hp3
      refine ⟨(a, b) :: ps, parF, ?_, ?_, ?_, ?_, ?_, ?_, ih7, ?_⟩
      · rw [hunf, hflag, if_pos rfl, ih1]
        show _ = ((midW (a, b)).1, (midW (a, b)).2, 1) :: (b.1, b.2, 1) ::
          pairEdits ps
        rw [← hwall]
      · intro p hp
        rcases List.mem_cons.mp hp with heq | hp2
        · exact ⟨(a, b, wall), List.mem_cons_self _ _, heq⟩
        · obtain ⟨e2, he2, hpe⟩ := ih2 p hp2
          exact ⟨e2, List.mem_cons_of_mem _ he2, hpe⟩
      · show (midW (a, b) :: ps.map midW).Sublist (wall :: rest.map _)
        rw [← hwall]
        exact List.Sublist.cons₂ _ ih3
      · intro e2 he2
        rcases List.mem_cons.mp he2 with heq | he3
        · rw [heq]
          exact Relation.ReflTransGen.single
            (Or.inl (List.mem_append_right _ (List.mem_cons_self _ _)))
        · exact cReach_mono _ _ hmem1 _ _ (ih4 e2 he3)
      · intro c
        exact cReach_mono _ _ hmem1 _ _ (ih5 c)
      · intro x y hxy
        exact ih6 x y (cReach_mono _ _ hmem2 x y hxy)
      · have hrbsub : rb ∈ subCells w h := by
          have hcb : CReach acc b rb := reach_creach acc par hCR b rb hrb
          rcases cReach_mem w h acc hend b rb hcb with heq | hm
          · rw [heq]
            exact hb
          · exact hm
        have hstep : (rootsOf w h ((ufUnion ((subCells w h).length + 1)
            par a b).2)).length + 1 = (rootsOf w h par).length := by
          apply filter_update_length (subCells w h) _ _ rb (subCells_nodup w h)
            hrbsub
          · rw [decide_eq_true_eq]
            exact hrb.2
          · rw [decide_eq_false_iff_not]
            intro hcon
            exact ((hfixu rb).mp hcon).2 rfl
          · intro x _ hxrb
            apply decide_eq_decide.mpr
            rw [hfixu x]
            constructor
            · exact fun hh => ⟨hh, hxrb⟩
            · exact fun hh => hh.1
        rw [← hstep, List.length_cons]
        omega

/- ### the full generator -/

theorem Kruskal_ok (σ : Nat → Nat) (w h : Nat) (hw : 1 ≤ w) (hh : 1 ≤ h) :
    OneComponent (finalPassage (Kruskal σ w h)) ∧
    subEdgeCount w h (finalPassage (Kruskal σ w h)) =
      (subCells w h).length - 1 := by
  have hperm : List.Perm (shuffle σ (kruskalEdges w h) 0).1 (kruskalEdges w h) :=
    shuffle_perm σ (kruskalEdges w h) 0
  obtain ⟨ps, parF, h1, h2, h3, h4, h5, h6, h7, h8⟩ :=
    kruskalProcess_spec w h (shuffle σ (kruskalEdges w h) 0).1 id []
      (fun e he => hperm.mem_iff.mp he)
      (fun p hp => absurd hp (List.not_mem_nil _))
      (fun c => Relation.ReflTransGen.refl)
      (fun c => ⟨c, ⟨0, rfl⟩, rfl⟩)
      (by
        intro x y hxy
        have hxy2 : x = y := cReach_empty x y hxy
        exact ⟨x, ⟨⟨0, rfl⟩, rfl⟩, hxy2 ▸ ⟨⟨0, rfl⟩, rfl⟩⟩)
  simp only [List.nil_append] at h4 h5 h6
  have hpsfacts : ∀ p ∈ ps, p.1 ∈ subCells w h ∧ p.2 ∈ subCells w h ∧
      twoStepPair p := by
    intro p hp
    obtain ⟨e, he, hpe⟩ := h2 p hp
    obtain ⟨he1, he2, he3, -⟩ := kEdge_endpoints w h e (hperm.mem_iff.mp he)
    rw [hpe]
    exact ⟨he1, he2, he3⟩
  have hend : ∀ p ∈ ps, p.1 ∈ subCells w h ∧ p.2 ∈ subCells w h :=
    fun p hp => ⟨(hpsfacts p hp).1, (hpsfacts p hp).2.1⟩
  have hconn_all : ∀ e ∈ kruskalEdges w h, CReach ps e.1 e.2.1 :=
    fun e he => h4 e (hperm.mem_iff.mpr he)
  have hconn := kruskal_conn w h ps hconn_all
  have h00 : (((0 : Int), (0 : Int)) : Coord) ∈ subCells w h := by
    rw [mem_subCells]
    refine ⟨by omega, by simp; omega, by omega, by omega, by simp; omega,
      by omega⟩
  obtain ⟨r0, hr0⟩ := h7 ((0 : Int), (0 : Int))
  have hr0sub : r0 ∈ subCells w h := by
    rcases cReach_mem w h ps hend _ r0
        (reach_creach ps parF h5 _ r0 hr0) with heq | hm
    · rw [heq]
      exact h00
    · exact hm
  have hall_roots : ∀ x ∈ rootsOf w h parF, x = r0 := by
    intro x hx
    have hxsub : x ∈ subCells w h := (List.mem_filter.mp hx).1
    have hxfix : parF x = x := by
      have := (List.mem_filter.mp hx).2
      rwa [decide_eq_true_eq] at this
    obtain ⟨ρ, hρ1, hρ2⟩ := h6 _ x (hconn x hxsub)
    have hρr0 : ρ = r0 := ufReaches_unique parF _ ρ r0 hρ1 hr0
    have hxρ : x = ρ := ufReaches_unique parF x x ρ ⟨⟨0, rfl⟩, hxfix⟩ hρ2
    rw [hxρ, hρr0]
  have hr0mem : r0 ∈ rootsOf w h parF := by
    apply List.mem_filter.mpr
    refine ⟨hr0sub, ?_⟩
    rw [decide_eq_true_eq]
    exact hr0.2
  have hlen1 : (rootsOf w h parF).length = 1 :=
    nodup_all_eq_one _ r0 ((subCells_nodup w h).filter _) hr0mem hall_roots
  have hlenid : (rootsOf w h id).length = (subCells w h).length := by
    have : rootsOf w h id = subCells w h := by
      apply List.filter_eq_self.mpr
      intro c _
      simp
    rw [this]
  have hcount : ps.length + 1 = (subCells w h).length := by
    rw [hlenid] at h8
    omega
  have hmnd : (ps.map midW).Nodup := by
    have hwallnd : ((kruskalEdges w h).map (fun e => e.2.2)).Nodup := by
      apply List.Nodup.map_on
      · intro e1 hm1 e2 hm2 hweq
        exact kruskalEdges_wall_inj w h e1 e2 hm1 hm2 hweq
      · exact kruskalEdges_nodup w h
    have hshufnd : ((shuffle σ (kruskalEdges w h) 0).1.map
        (fun e => e.2.2)).Nodup :=
      (hperm.map (fun e => e.2.2)).symm.nodup hwallnd
    exact h3.nodup hshufnd
  have hK : Kruskal σ w h =
      (subCells w h).map (fun c => (c.1, c.2, (1 : Nat))) ++ pairEdits ps := by
    show (subCells w h).map (fun c => (c.1, c.2, (1 : Nat))) ++
      kruskalProcess ((subCells w h).length + 1)
        (shuffle σ (kruskalEdges w h) 0).1 id = _
    rw [h1]
  rw [hK]
  apply tree_bridge w h hw hh _ ps
  · intro c
    constructor
    · rintro ⟨e, he, hc1, hc2⟩
      rcases List.mem_append.mp he with hm | hm
      · obtain ⟨d, hd, hde⟩ := List.mem_map.mp hm
        left
        have hdc : d = c := by
          rw [← hde] at hc1 hc2
          exact Prod.ext hc1 hc2
        rw [← hdc]
        exact hd
      · rcases (pairEdits_cell ps c).mp ⟨e, hm, hc1, hc2⟩ with ⟨p, hp, hm2 | hm2⟩
        · exact Or.inr ⟨p, hp, hm2⟩
        · left
          rw [hm2]
          exact (hpsfacts p hp).2.1
    · intro hc
      rcases hc with hc | ⟨p, hp, hm⟩
      · exact ⟨(c.1, c.2, 1),
          List.mem_append_left _ (List.mem_map.mpr ⟨c, hc, rfl⟩), rfl, rfl⟩
      · obtain ⟨e, he, hee⟩ := (pairEdits_cell ps c).mpr ⟨p, hp, Or.inl hm⟩
        exact ⟨e, List.mem_append_right _ he, hee⟩
  · intro e he
    rcases List.mem_append.mp he with hm | hm
    · obtain ⟨d, -, hde⟩ := List.mem_map.mp hm
      rw [← hde]
    · exact pairEdits_ones ps e hm
  · exact hend
  · exact fun p hp => (hpsfacts p hp).2.2
  · exact hconn
  · exact hcount
  · exact hmnd

/-- C2 (amended): for every oracle stream and dimensions at least 1, each of
the three spanning-tree generators — DFS Backtracker, Kruskal, Prim — yields
an edit sequence whose final passage set forms exactly one 4-connected
component, and whose number of passage-adjacent sub-grid pairs is exactly one
less than the number of sub-grid cells (the spanning-tree property); the
sub-grid is taken over the dimensions each generator actually uses (forced
odd for DFS Backtracker and Prim, as given for Kruskal).  The original
claim's one-component property quantified over all four generators fails for
Recursive Division. -/
theorem C2_spanning_tree (σ : Nat → Nat) (width height : Nat)
    (hw : 1 ≤ width) (hh : 1 ≤ height) :
    (∃ E, DFSBacktracker σ width height = Except.ok E ∧
      OneComponent (finalPassage E) ∧
      subEdgeCount (ensure_odd width) (ensure_odd height) (finalPassage E) =
        (subCells (ensure_odd width) (ensure_odd height)).length - 1) ∧
    (OneComponent (finalPassage (Kruskal σ width height)) ∧
      subEdgeCount width height (finalPassage (Kruskal σ width height)) =
        (subCells width height).length - 1) ∧
    (∃ E, Prim σ width height = Except.ok E ∧
      OneComponent (finalPassage E) ∧
      subEdgeCount (ensure_odd width) (ensure_odd height) (finalPassage E) =
        (subCells (ensure_odd width) (ensure_odd height)).length - 1) :=
  ⟨DFSBacktracker_ok σ width height hw hh,
   Kruskal_ok σ width height hw hh,
   Prim_ok σ width height hw hh⟩

/-- Witness for C2 on a concrete 3 by 3 instance with the constant-zero
oracle stream. -/
theorem C2_spanning_tree_witness :
    (1 ≤ 3) ∧ (1 ≤ 3) ∧
    ((∃ E, DFSBacktracker (fun _ => 0) 3 3 = Except.ok E ∧
      OneComponent (finalPassage E) ∧
      subEdgeCount (ensure_odd 3) (ensure_odd 3) (finalPassage E) =
        (subCells (ensure_odd 3) (ensure_odd 3)).length - 1) ∧
    (OneComponent (finalPassage (Kruskal (fun _ => 0) 3 3)) ∧
      subEdgeCount 3 3 (finalPassage (Kruskal (fun _ => 0) 3 3)) =
        (subCells 3 3).length - 1) ∧
    (∃ E, Prim (fun _ => 0) 3 3 = Except.ok E ∧
      OneComponent (finalPassage E) ∧
      subEdgeCount (ensure_odd 3) (ensure_odd 3) (finalPassage E) =
        (subCells (ensure_odd 3) (ensure_odd 3)).length - 1)) :=
  ⟨by decide, by decide,
   C2_spanning_tree (fun _ => 0) 3 3 (by decide) (by decide)⟩

/-- Counterexample to C2 as stated: on a 2 by 2 grid Recursive Division
completes (for the constant-zero stream, drawing nothing), and its final
passage set is the diagonal pair (0,0), (1,1), which is not one 4-connected
component. -/
theorem C2_counterexample :
    ∃ E, RecursiveDivision (fun _ => 0) 2 2 = Except.ok E ∧
      finalPassage E ((0 : Int), (0 : Int)) = true ∧
      finalPassage E ((1 : Int), (1 : Int)) = true ∧
      ¬ OneComponent (finalPassage E) := by
  refine ⟨[(0, 0, 1), (1, 0, 1), (0, 1, 1), (1, 1, 1), (0, 0, 0), (0, 1, 0),
    (1, 0, 0), (1, 1, 0), (0, 0, 0), (1, 0, 0), (0, 1, 0), (1, 1, 0),
    (0, 0, 1), (1, 1, 1)], rfl, by decide, by decide, ?_⟩
  rintro ⟨-, hconn⟩
  have hP2 := hconn ((0 : Int), (0 : Int)) ((1 : Int), (1 : Int))
    (by decide) (by decide)
  rcases Relation.ReflTransGen.cases_head hP2 with heq | ⟨c, ⟨hadj, hPc⟩, -⟩
  · exact absurd heq (by decide)
  · rw [adjacent_iff] at hadj
    obtain ⟨cx, cy⟩ := c
    dsimp only at hadj hPc
    rcases hadj with ⟨h1, h2⟩ | ⟨h1, h2⟩ | ⟨h1, h2⟩ | ⟨h1, h2⟩ <;>
      (subst h1; subst h2; exact absurd hPc (by decide))

end MV
